import Mathlib

/-!
# Rank reliability: consensus ranking and inversion counting

A shallow embedding of `Project 1/rank_reliability.cpp` and proofs about it.

Conventions of the embedding.

* `std::vector<long long>` is `List Int`; `a[i]` is `a.getD i 0` and `a[i] = v` is `a.set i v`
  (every access the program makes is in bounds).
* `int` indices and sizes are `Nat`, `long long` values are `Int`; the arithmetic of the program
  is taken as exact, that is, for inputs on which no signed overflow (undefined behaviour in C++)
  occurs.
* Loops are recursive functions on a fuel argument; every caller passes the number of
  iterations the loop can make at most, and the theorems show that this is enough.
-/

namespace RankReliability

/-! ## The merge-sort counter (`merge_count`) -/

/-- Local variables of one merge step of `merge_count`: the read cursors `i` (left half) and
`j` (right half), the write cursor `k`, the buffer `tmp` and the running total `inv`. -/
structure MergeState where
  i : Nat
  j : Nat
  k : Nat
  tmp : List Int
  inv : Int
deriving DecidableEq, Repr

/-- The loop `while (i < m && j < r) { if (a[i] <= a[j]) tmp[k++] = a[i++];
else { tmp[k++] = a[j++]; inv += (m - i); } }`. -/
def mergeLoop (a : List Int) (m r : Nat) : Nat → MergeState → MergeState
  | 0, st => st
  | fuel + 1, st =>
    if st.i < m ∧ st.j < r then
      if a.getD st.i 0 ≤ a.getD st.j 0 then
        mergeLoop a m r fuel
          { st with tmp := st.tmp.set st.k (a.getD st.i 0), k := st.k + 1, i := st.i + 1 }
      else
        mergeLoop a m r fuel
          { st with tmp := st.tmp.set st.k (a.getD st.j 0), k := st.k + 1, j := st.j + 1,
                    inv := st.inv + ((m : Int) - (st.i : Int)) }
    else st

/-- The loop `while (i < m) tmp[k++] = a[i++];`. -/
def copyLeft (a : List Int) (m : Nat) : Nat → MergeState → MergeState
  | 0, st => st
  | fuel + 1, st =>
    if st.i < m then
      copyLeft a m fuel
        { st with tmp := st.tmp.set st.k (a.getD st.i 0), k := st.k + 1, i := st.i + 1 }
    else st

/-- The loop `while (j < r) tmp[k++] = a[j++];`. -/
def copyRight (a : List Int) (r : Nat) : Nat → MergeState → MergeState
  | 0, st => st
  | fuel + 1, st =>
    if st.j < r then
      copyRight a r fuel
        { st with tmp := st.tmp.set st.k (a.getD st.j 0), k := st.k + 1, j := st.j + 1 }
    else st

/-- The loop `for (int t = l; t < r; ++t) a[t] = tmp[t];`, started at `t`. -/
def copyBack (tmp : List Int) (r : Nat) : Nat → Nat → List Int → List Int
  | 0, _, a => a
  | fuel + 1, t, a =>
    if t < r then copyBack tmp r fuel (t + 1) (a.set t (tmp.getD t 0)) else a

/-- The closure `rec(l, r)` of `merge_count`, with the captured vectors `a` and `tmp` passed
in and returned: the result is `(inv, a, tmp)`. The two recursive calls of
`rec(l, m) + rec(m, r)` work on disjoint ranges; the left one is run first. -/
def merge_count_rec : Nat → Nat → Nat → List Int → List Int → Int × List Int × List Int
  | 0, _, _, a, tmp => (0, a, tmp)
  | fuel + 1, l, r, a, tmp =>
    if r - l ≤ 1 then (0, a, tmp)
    else
      let m := (l + r) / 2
      let left := merge_count_rec fuel l m a tmp
      let right := merge_count_rec fuel m r left.2.1 left.2.2
      let a₂ := right.2.1
      let st₀ : MergeState := { i := l, j := m, k := l, tmp := right.2.2, inv := left.1 + right.1 }
      let st₁ := mergeLoop a₂ m r (r - l) st₀
      let st₂ := copyLeft a₂ m (r - l) st₁
      let st₃ := copyRight a₂ r (r - l) st₂
      (st₃.inv, copyBack st₃.tmp r (r - l) l a₂, st₃.tmp)

/-- The function `merge_count(a)`: `tmp` is a zeroed buffer of `n` cells and the result is
`rec(0, n)`. -/
def merge_count (a : List Int) : Int :=
  (merge_count_rec a.length 0 a.length a (List.replicate a.length 0)).1

/-! ## Inversions -/

/-- The number of index pairs `i < j` with `a[i] > a[j]`. -/
def inversions (a : List Int) : Nat :=
  ((Finset.range a.length ×ˢ Finset.range a.length).filter
    (fun p => p.1 < p.2 ∧ a.getD p.1 0 > a.getD p.2 0)).card

/-! ## The Fenwick counter (`BIT`, `bit_count_inversions`) -/

/-- The step `i & -i` of the Fenwick loops, on a non-negative `int`. -/
def lowbit (i : Nat) : Nat := (Int.land (i : Int) (-(i : Int))).toNat

/-- The struct `BIT`: the size `n` and the tree array `f`, of `n + 1` cells. -/
structure BIT where
  n : Nat
  f : List Int
deriving DecidableEq, Repr

/-- The constructor `BIT(int n): n(n), f(n+1, 0)`. -/
def BIT.init (n : Nat) : BIT := { n := n, f := List.replicate (n + 1) 0 }

/-- The loop `for (; i <= n; i += i & -i) f[i] += v;` of `BIT::add`. -/
def BIT.addLoop (n : Nat) (v : Int) : Nat → Nat → List Int → List Int
  | 0, _, f => f
  | fuel + 1, i, f =>
    if i ≤ n then BIT.addLoop n v fuel (i + lowbit i) (f.set i (f.getD i 0 + v)) else f

/-- The method `BIT::add(i, v)`. From `i ≥ 1` the loop makes at most `n` iterations. -/
def BIT.add (b : BIT) (i : Nat) (v : Int) : BIT :=
  { b with f := BIT.addLoop b.n v b.n i b.f }

/-- The loop `for (; i > 0; i -= i & -i) s += f[i];` of `BIT::sum`. -/
def BIT.sumLoop (f : List Int) : Nat → Nat → Int → Int
  | 0, _, s => s
  | fuel + 1, i, s =>
    if i > 0 then BIT.sumLoop f fuel (i - lowbit i) (s + f.getD i 0) else s

/-- The method `BIT::sum(i)`. The loop makes at most `i` iterations. -/
def BIT.sum (b : BIT) (i : Nat) : Int := BIT.sumLoop b.f i i 0

/-- The call `std::sort(v.begin(), v.end())` on a `vector<long long>`: the ascending
arrangement of `v`. -/
def sort (v : List Int) : List Int := v.insertionSort (fun x y => x ≤ y)

/-- The idiom `v.erase(unique(v.begin(), v.end()), v.end())`: of every run of equal adjacent
values one is kept. -/
def unique : List Int → List Int
  | [] => []
  | [x] => [x]
  | x :: y :: t => if x = y then unique (y :: t) else x :: unique (y :: t)

/-- The expression `lower_bound(v.begin(), v.end(), x) - v.begin()`: the index of the first
element of `v` that is not less than `x`, or the length of `v` when there is none. -/
def lower_bound (v : List Int) (x : Int) : Nat := v.findIdx (fun y => !decide (y < x))

/-- The coordinate compression of `bit_count_inversions`: `comp[i]` is the 1-based rank of
`a[i]` among the distinct values of `a`. -/
def compress (a : List Int) : List Nat :=
  let v := unique (sort a)
  a.map (fun x => lower_bound v x + 1)

/-- One iteration of the sweep of `bit_count_inversions`:
`inv += bit.sum(comp[i]-1); bit.add(comp[i], 1);`. -/
def sweepStep (c : Nat) (st : BIT × Int) : BIT × Int :=
  (st.1.add c 1, st.2 + st.1.sum (c - 1))

/-- The sweep `for (int i = (int)comp.size()-1; i >= 0; --i)` of `bit_count_inversions` over
the ranks `comp`, from a fresh `BIT` of size `K`: it visits `comp` from its last element to
its first, which is a right fold. The result is the final `bit` and `inv`. -/
def sweep (K : Nat) (comp : List Nat) : BIT × Int :=
  comp.foldr sweepStep (BIT.init K, 0)

/-- The function `bit_count_inversions(a)`. -/
def bit_count_inversions (a : List Int) : Int :=
  let v := unique (sort a)
  let comp := compress a
  (sweep v.length comp).2

/-- What the sweep of `bit_count_inversions(a)` adds to `inv` at position `i`: the value of
`bit.sum(comp[i]-1)` when the positions after `i` have been visited. -/
def sweepAdded (a : List Int) (i : Nat) : Int :=
  let v := unique (sort a)
  let comp := compress a
  (sweep v.length (comp.drop (i + 1))).1.sum (comp.getD i 0 - 1)

/-! ## The quicksort-partition counter (`quick_partition_count`) -/

/-- Local variables of the partition pass of `quick_partition_count`. -/
structure PartState where
  less : List Int
  equal : List Int
  greater : List Int
  seen_greater : Int
  cross : Int
deriving DecidableEq, Repr

/-- One iteration of the partition pass, on the element `x = a[i]`. -/
def partStep (pivot : Int) (st : PartState) (x : Int) : PartState :=
  if x > pivot then
    { st with greater := st.greater ++ [x], seen_greater := st.seen_greater + 1 }
  else if x < pivot then
    { st with less := st.less ++ [x], cross := st.cross + st.seen_greater }
  else
    { st with equal := st.equal ++ [x] }

/-- The pass `for (int i = l; i < r; ++i)` of `rec(0, n)`, over all of `a`. -/
def partition (pivot : Int) (a : List Int) : PartState :=
  a.foldl (partStep pivot) { less := [], equal := [], greater := [], seen_greater := 0, cross := 0 }

/-- The function `quick_partition_count`, with fuel for its recursion on the buckets `less`
and `greater`, each of which is shorter than `a`. -/
def quick_partition_count_fuel : Nat → List Int → Int
  | 0, _ => 0
  | fuel + 1, a =>
    if a.length ≤ 1 then 0
    else
      let pivot := a.getD (a.length / 2) 0
      let st := partition pivot a
      let inv₀ := st.cross
      let inv₁ := if st.less ≠ [] then inv₀ + quick_partition_count_fuel fuel st.less else inv₀
      if st.greater ≠ [] then inv₁ + quick_partition_count_fuel fuel st.greater else inv₁

/-- The function `quick_partition_count(a)`. -/
def quick_partition_count (a : List Int) : Int := quick_partition_count_fuel a.length a

/-! ## Running the three counters (`three_way_inv`) -/

/-- The struct `InvTriple`. -/
structure InvTriple where
  merge_inv : Int
  bit_inv : Int
  quick_inv : Int
deriving DecidableEq, Repr

/-- The function `three_way_inv(arr)`: each counter runs on its own copy of `arr`. -/
def three_way_inv (arr : List Int) : InvTriple :=
  { merge_inv := merge_count arr, bit_inv := bit_count_inversions arr,
    quick_inv := quick_partition_count arr }

/-! ## The pipeline of `main`

Items are `std::string`s. The program uses their equality, their hash and their order
`operator<` only, so the embedding is over any linearly ordered type `ι`, of which `String` is
one. The `double` `avg = double(sum)/double(S)` is `avgOf sum S` for a function `avgOf` into a
linearly ordered type `D`: the theorems hold whatever the division rounds to.

A hash container is the list of its entries, without a repeated key, in the order of first
insertion. The order in which the program iterates over a hash container is not specified; the
aggregation sort makes the result independent of it. -/

section Pipeline

variable {ι : Type} [LinearOrder ι] {β : Type} {D : Type} [LinearOrder D]

/-- The call `universe.insert(line)` on the `unordered_set<string>`. -/
def uset_insert (u : List ι) (x : ι) : List ι := if x ∈ u then u else u ++ [x]

/-- The set `universe` (a keyword of Lean, hence the name `universe_set`) when all sources are
read: for every line of every source, `list.push_back(line); universe.insert(line);`. -/
def universe_set (src_items : List (List ι)) : List ι :=
  src_items.foldl (fun u list => list.foldl uset_insert u) []

/-- The expression `m.find(k)` on an `unordered_map`: the value at `k`, or `none` for
`m.end()`. -/
def umap_find : List (ι × β) → ι → Option β
  | [], _ => none
  | (k', v') :: t, k => if k' = k then some v' else umap_find t k

/-- The statement `m[k] = v` on an `unordered_map`: insert or assign. -/
def umap_assign : List (ι × β) → ι → β → List (ι × β)
  | [], k, v => [(k, v)]
  | (k', v') :: t, k, v => if k' = k then (k, v) :: t else (k', v') :: umap_assign t k v

/-- The loop `for (int s=0;s<S;++s) max_len = max<int>(max_len, src_items[s].size());`,
from `max_len = 0`. -/
def max_len (src_items : List (List ι)) : Nat :=
  src_items.foldl (fun m list => max m list.length) 0

/-- The value `missing_rank = max_len + 1`. -/
def missing_rank (src_items : List (List ι)) : Int := (max_len src_items : Int) + 1

/-- The loop `for (auto& item : universe) ranks[item] = vector<int>(S, missing_rank);`. -/
def ranks_init (src_items : List (List ι)) : List (ι × List Int) :=
  (universe_set src_items).foldl
    (fun m item => umap_assign m item (List.replicate src_items.length (missing_rank src_items)))
    []

/-- The statement `ranks[item][s] = v`. An item without an entry would get an empty vector from
`operator[]`, whose cell `s` does not exist; every item of a source has an entry. -/
def rank_set (m : List (ι × List Int)) (item : ι) (s : Nat) (v : Int) : List (ι × List Int) :=
  match umap_find m item with
  | some vec => umap_assign m item (vec.set s v)
  | none => umap_assign m item []

/-- The loop `for (int i=0;i<(int)src_items[s].size();++i) ranks[src_items[s][i]][s] = i+1;`,
from index `i` on, `list` being what is left of the source. -/
def fill_source (s : Nat) : Nat → List ι → List (ι × List Int) → List (ι × List Int)
  | _, [], m => m
  | i, item :: rest, m => fill_source s (i + 1) rest (rank_set m item s ((i : Int) + 1))

/-- The loop `for (int s=0;s<S;++s)` around `fill_source`, from source `s` on. -/
def fill_all : Nat → List (List ι) → List (ι × List Int) → List (ι × List Int)
  | _, [], m => m
  | s, list :: rest, m => fill_all (s + 1) rest (fill_source s 0 list m)

/-- The map `ranks` when the rank table is built. -/
def ranks (src_items : List (List ι)) : List (ι × List Int) :=
  fill_all 0 src_items (ranks_init src_items)

/-- The struct `Agg { string item; long long sum; double avg; }`. -/
structure Agg (ι : Type) (D : Type) where
  item : ι
  sum : Int
  avg : D
deriving DecidableEq, Repr

/-- The loop `long long sum = 0; for (int s=0;s<S;++s) sum += kv.second[s];`. -/
def rank_sum (S : Nat) (vec : List Int) : Int :=
  (List.range S).foldl (fun sum s => sum + vec.getD s 0) 0

/-- The loop `for (auto& kv : ranks) { ...; agg.push_back({kv.first, sum, avg}); }` over the
entries of `ranks` in the order `entries`. -/
def agg_unsorted (avgOf : Int → Nat → D) (S : Nat) (entries : List (ι × List Int)) :
    List (Agg ι D) :=
  entries.map (fun kv =>
    { item := kv.1, sum := rank_sum S kv.2, avg := avgOf (rank_sum S kv.2) S })

/-- The comparator of the aggregation sort: `if (a.sum != b.sum) return a.sum < b.sum;
if (a.avg != b.avg) return a.avg < b.avg; return a.item < b.item;`. -/
def agg_less (a b : Agg ι D) : Bool :=
  if a.sum ≠ b.sum then decide (a.sum < b.sum)
  else if a.avg ≠ b.avg then decide (a.avg < b.avg)
  else decide (a.item < b.item)

/-- The call `sort(agg.begin(), agg.end(), comp)`: an arrangement of `agg` in which no element
is `comp`-less than an earlier one. -/
def sort_agg (agg : List (Agg ι D)) : List (Agg ι D) :=
  agg.insertionSort (fun a b => agg_less b a = false)

/-- The vector `agg` after the sort, from the entries of `ranks` in the order `entries`. -/
def aggregate (avgOf : Int → Nat → D) (S : Nat) (entries : List (ι × List Int)) :
    List (Agg ι D) :=
  sort_agg (agg_unsorted avgOf S entries)

/-- The loop `for (int i=0;i<(int)agg.size();++i) pos_combined[agg[i].item] = i+1;`, from
index `i` on. -/
def pos_combined_from : Nat → List (Agg ι D) → List (ι × Int) → List (ι × Int)
  | _, [], m => m
  | i, ag :: rest, m => pos_combined_from (i + 1) rest (umap_assign m ag.item ((i : Int) + 1))

/-- The map `pos_combined`. -/
def pos_combined (agg : List (Agg ι D)) : List (ι × Int) := pos_combined_from 0 agg []

/-- The body of the loop over the sources that builds the vector `a` for the source `src`:
the positions of the items of `src` that `pos_combined.find` finds, and then, when these
are fewer than `N = agg.size()`, `pos_combined[ag.item]` for every `ag` of `agg` whose item
is not in `src` (`operator[]` gives `0` for a key without an entry; every item of `agg` has
one). -/
def position_sequence (agg : List (Agg ι D)) (pos : List (ι × Int)) (src : List ι) : List Int :=
  let a := src.filterMap (fun it => umap_find pos it)
  if a.length < agg.length then
    a ++ (agg.filter (fun ag => decide (ag.item ∉ src))).map
      (fun ag => (umap_find pos ag.item).getD 0)
  else a

/-- The vector `agg` of a run of `main` on the sources `src_items`. -/
def consensus (avgOf : Int → Nat → D) (src_items : List (List ι)) : List (Agg ι D) :=
  aggregate avgOf src_items.length (ranks src_items)

/-- The map `pos_combined` of a run of `main` on the sources `src_items`. -/
def combined_position (avgOf : Int → Nat → D) (src_items : List (List ι)) : List (ι × Int) :=
  pos_combined (consensus avgOf src_items)

/-- The vector `a` that a run of `main` on the sources `src_items` builds for the source
`src`. -/
def positions_of (avgOf : Int → Nat → D) (src_items : List (List ι)) (src : List ι) : List Int :=
  position_sequence (consensus avgOf src_items) (combined_position avgOf src_items) src

end Pipeline

/-! ## Scoring and the run of `main`

The `double` reliability is computed here in exact rational arithmetic. -/

/-- The expression `N*(N-1)/2` on `long long`; the division truncates toward zero. -/
def max_inv (N : Int) : Int := Int.tdiv (N * (N - 1)) 2

/-- The quotient `(double)a / (double)b` in exact arithmetic: a rational number when `b` is not
zero. For `b = 0` the program divides by zero, and the IEEE result, NaN or an infinity, is no
number: `none`. -/
def double_div (a b : Int) : Option ℚ := if b = 0 then none else some ((a : ℚ) / (b : ℚ))

/-- The expression `1.0 - (double)tr.merge_inv / (double)max_inv`. -/
def reliability (merge_inv max_inv : Int) : Option ℚ :=
  (double_div merge_inv max_inv).map (fun q => 1 - q)

/-- The struct `Row`, without the name of the source file. -/
structure Row where
  n : Int
  inv_merge : Int
  inv_bit : Int
  inv_quick : Int
  max_inv : Int
  reliability : Option ℚ
deriving DecidableEq, Repr

/-- The row that the loop over the sources pushes to `summary` for the position sequence `a`,
`N` being `agg.size()`. -/
def summary_row (N : Nat) (a : List Int) : Row :=
  let tr := three_way_inv a
  { n := (a.length : Int), inv_merge := tr.merge_inv, inv_bit := tr.bit_inv,
    inv_quick := tr.quick_inv, max_inv := max_inv (N : Int),
    reliability := reliability tr.merge_inv (max_inv (N : Int)) }

section Run

variable {ι : Type} [LinearOrder ι] {D : Type} [LinearOrder D]

/-- What a run of `main` that returns `0` has computed: the sorted vector `agg`, which is
written to `combined_order.csv`, and for every source its vector `a` and its row of
`summary`. -/
structure Output (ι : Type) (D : Type) where
  agg : List (Agg ι D)
  positions : List (List Int)
  summary : List Row

/-- The body of `main` from the rank table on, for the sources `src_items` that were read. -/
def pipeline (avgOf : Int → Nat → D) (src_items : List (List ι)) : Output ι D :=
  let agg := consensus avgOf src_items
  let positions := src_items.map (fun src => positions_of avgOf src_items src)
  { agg := agg, positions := positions,
    summary := positions.map (fun a => summary_row agg.length a) }

/-- The loop of `main` that reads the files: `none` stands for a file that cannot be opened,
at which `main` returns `3`; otherwise the lists of lines are collected in `src_items`. -/
def read_files : List (Option (List ι)) → List (List ι) → Except Nat (List (List ι))
  | [], src_items => .ok src_items
  | none :: _, _ => .error 3
  | some list :: rest, src_items => read_files rest (src_items ++ [list])

/-- The function `main`, as far as its result depends on its input: `out_dir_given` says
whether `--out` with a directory is among the arguments, and `files` holds, for every other
argument, the non-empty lines of that file, or `none` when it cannot be opened. The result is
the exit code `1` (fewer than two arguments), `2` (no `--out` or no file) or `3` (a file
that cannot be opened), or what is computed when `main` returns `0`. -/
def main (avgOf : Int → Nat → D) (out_dir_given : Bool) (files : List (Option (List ι))) :
    Except Nat (Output ι D) :=
  if (if out_dir_given then 2 else 0) + files.length + 1 < 3 then .error 1
  else if !out_dir_given || files.isEmpty then .error 2
  else
    match read_files files [] with
    | .error code => .error code
    | .ok src_items => .ok (pipeline avgOf src_items)

end Run

/-! ## List-level notions used in the proofs -/

/-- Inversions of a list, by recursion: the head is inverted with every smaller later element. -/
def invL : List Int → Nat
  | [] => 0
  | x :: xs => xs.countP (fun y => y < x) + invL xs

/-- Number of pairs `(x, y)` with `x` in `L`, `y` in `R` and `y < x`. -/
def crossL (L R : List Int) : Nat := (L.map (fun x => R.countP (fun y => y < x))).sum

/-- Merge of two lists, taking from the left on ties. -/
def mergeL : List Int → List Int → List Int
  | [], R => R
  | L, [] => L
  | x :: L, y :: R => if x ≤ y then x :: mergeL L (y :: R) else y :: mergeL (x :: L) R

/-- What the merge loop adds to `inv`: the number of left elements still unread, each time a
right element is taken. -/
def mergeCnt : List Int → List Int → Nat
  | [], _ => 0
  | _, [] => 0
  | x :: L, y :: R => if x ≤ y then mergeCnt L (y :: R) else mergeCnt (x :: L) R + (L.length + 1)

/-- The node `j` of the tree covers the index `i`: `j - lowbit j < i ≤ j`. -/
def covers (j i : Nat) : Prop := j - lowbit j < i ∧ i ≤ j

instance coversDecidable (j i : Nat) : Decidable (covers j i) :=
  inferInstanceAs (Decidable (j - lowbit j < i ∧ i ≤ j))

/-- What the node `j` of a Fenwick tree over the array `arr` holds: the sum of `arr` over
`(j - lowbit j, j]`. -/
def nodeSum (arr : Nat → Int) (j : Nat) : Int := ∑ t in Finset.Ioc (j - lowbit j) j, arr t

/-- The sum of `arr` over `[1..i]`. -/
def prefixSum (arr : Nat → Int) (i : Nat) : Int := ∑ t in Finset.Ioc 0 i, arr t

/-- The tree array `f` of a `BIT` of size `n` represents the array `arr`. -/
def Represents (n : Nat) (f : List Int) (arr : Nat → Int) : Prop :=
  f.length = n + 1 ∧ ∀ j, 0 < j → j ≤ n → f.getD j 0 = nodeSum arr j

/-- Inversions of a list of ranks, by recursion. -/
def invLN : List Nat → Nat
  | [] => 0
  | c :: S => S.countP (fun y => y < c) + invLN S

/-- The array a sweep has recorded after the ranks `S`: how often each rank occurs. -/
def countArr (S : List Nat) : Nat → Int := fun t => (S.count t : Int)

/-- The sequence `a` is a permutation of `1..n`. -/
def IsPermutation (n : Nat) (a : List Int) : Prop :=
  a.Perm ((List.range' 1 n).map (fun k : Nat => (k : Int)))

instance isPermutationDecidable (n : Nat) (a : List Int) : Decidable (IsPermutation n a) :=
  inferInstanceAs (Decidable (a.Perm ((List.range' 1 n).map (fun k : Nat => (k : Int)))))

/-- The inverted pairs of `a` that involve the value `p`: the number of index pairs `i < j`
with `a[i] > a[j]` and `a[i] = p` or `a[j] = p`. -/
def pivotPairs (p : Int) (a : List Int) : Nat :=
  ((Finset.range a.length ×ˢ Finset.range a.length).filter
    (fun q => q.1 < q.2 ∧ a.getD q.1 0 > a.getD q.2 0 ∧
      (a.getD q.1 0 = p ∨ a.getD q.2 0 = p))).card

/-- The inverted pairs that involve a pivot, summed over the recursion of
`quick_partition_count`: those of `a` with its pivot `a[n/2]`, and those of the buckets of
smaller and of greater values, each with its own pivots. -/
def pivot_inversions_fuel : Nat → List Int → Nat
  | 0, _ => 0
  | fuel + 1, a =>
    if a.length ≤ 1 then 0
    else
      let pivot := a.getD (a.length / 2) 0
      pivotPairs pivot a
        + pivot_inversions_fuel fuel (a.filter (fun y => decide (y < pivot)))
        + pivot_inversions_fuel fuel (a.filter (fun y => decide (y > pivot)))

/-- The inverted pairs of `a` that involve a pivot of `quick_partition_count(a)`. -/
def pivot_inversions (a : List Int) : Nat := pivot_inversions_fuel a.length a

/-- The pairs counted by `pivotPairs`, by recursion on the list. -/
def pivL (p : Int) : List Int → Nat
  | [] => 0
  | x :: xs =>
    (if x = p then xs.countP (fun y => decide (y < p))
      else if x > p then xs.countP (fun y => decide (y = p)) else 0) + pivL p xs

/-- The pairs of a value greater than `p` followed, anywhere later, by one less than `p`. -/
def crossGL (p : Int) : List Int → Nat
  | [] => 0
  | x :: xs => (if x > p then xs.countP (fun y => decide (y < p)) else 0) + crossGL p xs

/-- The 0-based index of the last occurrence of `x` in a list that contains it. -/
def lastIdx {ι : Type} [DecidableEq ι] (x : ι) : List ι → Nat
  | [] => 0
  | _ :: rest => if x ∈ rest then lastIdx x rest + 1 else 0

/-- The keys of an `unordered_map`. -/
def umap_keys {ι β : Type} (m : List (ι × β)) : List ι := m.map Prod.fst

/-- The identity permutation `(1, 2, ..., n)`. -/
def identity_permutation (n : Nat) : List Int := (List.range' 1 n).map (fun k : Nat => (k : Int))

/-- The fully reversed permutation `(n, ..., 2, 1)`. -/
def reversed_permutation (n : Nat) : List Int := (identity_permutation n).reverse

/-! ## The cells that the loops of `BIT` touch -/

/-- The indices `i` at which the loop of `BIT::add` executes `f[i] += v`, in order. -/
def BIT.addIndices (n : Nat) : Nat → Nat → List Nat
  | 0, _ => []
  | fuel + 1, i => if i ≤ n then i :: BIT.addIndices n fuel (i + lowbit i) else []

/-- The indices `i` at which the loop of `BIT::sum` reads `f[i]`, in order. -/
def BIT.sumIndices : Nat → Nat → List Nat
  | 0, _ => []
  | fuel + 1, i => if i > 0 then i :: BIT.sumIndices fuel (i - lowbit i) else []

/-- A `BIT` of size `n` after the calls `add(i, v)` for the pairs `(i, v)` of `calls`. -/
def BIT.afterCalls (n : Nat) (calls : List (Nat × Int)) : BIT :=
  calls.foldl (fun b c => b.add c.1 c.2) (BIT.init n)

/-- The array that the calls `add(i, v)` of `calls` build up: at `t`, the sum of the `v`
added at `t`. -/
def arrOf (calls : List (Nat × Int)) : Nat → Int :=
  fun t => ((calls.filter (fun c => decide (c.1 = t))).map Prod.snd).sum

end RankReliability

/-!
# Course prerequisites: the graph of `Project 2/include/graph.hpp`

A node is an `int` of `0..n-1`, here a `Nat`. The vectors `adj` and `visited` are lists, with
`v[i]` as `v.getD i _`; the `std::stack<int>` is a list whose head is the top.
-/

namespace Project2

/-- The class `Graph`: the adjacency lists `adj` and the marks `visited`, `0` for not visited,
`1` for visiting, `2` for finished. -/
structure Graph where
  adj : List (List Nat)
  visited : List Nat
deriving DecidableEq, Repr

/-- The constructor `Graph(int n) : adj(n), visited(n, 0)`. -/
def Graph.init (n : Nat) : Graph := { adj := List.replicate n [], visited := List.replicate n 0 }

/-- The method `addEdge(u, v)`: `adj[u].push_back(v)`. -/
def Graph.addEdge (g : Graph) (u v : Nat) : Graph :=
  { g with adj := g.adj.set u (g.adj.getD u [] ++ [v]) }

/-- A freshly constructed graph with `n` nodes to which the edges `edges` are added in turn. -/
def Graph.build (n : Nat) (edges : List (Nat × Nat)) : Graph :=
  edges.foldl (fun g e => g.addEdge e.1 e.2) (Graph.init n)

/-- How a call of `dfs` ends: it returns, leaving `visited` and the stack as given; or it
throws `std::runtime_error("Cycle detected in prerequisites!")`, with `visited` as it is
then; or the fuel of the embedding is used up. -/
inductive DfsResult where
  | returned (visited : List Nat) (st : List Nat)
  | thrown (visited : List Nat)
  | outOfFuel
deriving DecidableEq, Repr

/-- The loop `for (int v : adj[u]) dfs(v, st);` over the nodes that are left, `call` being
the recursive call; an exception ends the loop. -/
def dfsChildren (call : Nat → List Nat → List Nat → DfsResult) :
    List Nat → List Nat → List Nat → DfsResult
  | [], visited, st => .returned visited st
  | v :: rest, visited, st =>
    match call v visited st with
    | .returned visited' st' => dfsChildren call rest visited' st'
    | r => r

/-- The method `dfs(u, st)`, with the member `visited` passed in and returned. The fuel bounds
the depth of the recursion. -/
def Graph.dfs (adj : List (List Nat)) : Nat → Nat → List Nat → List Nat → DfsResult
  | 0, _, _, _ => .outOfFuel
  | fuel + 1, u, visited, st =>
    if visited.getD u 0 = 1 then .thrown visited
    else if visited.getD u 0 = 2 then .returned visited st
    else
      match dfsChildren (fun v vis s => Graph.dfs adj fuel v vis s) (adj.getD u [])
          (visited.set u 1) st with
      | .returned visited' st' => .returned (visited'.set u 2) (u :: st')
      | r => r

/-- The loop `for (int node = 0; node < (int)adj.size(); node++) if (visited[node] == 0)
dfs(node, st);` of `topoSort`, over the nodes that are left. Every call of `dfs` gets the
fuel `adj.size() + 1`. -/
def topoLoop (adj : List (List Nat)) : List Nat → List Nat → List Nat → DfsResult
  | [], visited, st => .returned visited st
  | node :: rest, visited, st =>
    if visited.getD node 0 = 0 then
      match Graph.dfs adj (adj.length + 1) node visited st with
      | .returned visited' st' => topoLoop adj rest visited' st'
      | r => r
    else topoLoop adj rest visited st

/-- The loop `while (!st.empty()) { result.push_back(st.top()); st.pop(); }`. -/
def popAll : List Nat → List Nat → List Nat
  | [], result => result
  | top :: rest, result => popAll rest (result ++ [top])

/-- How a call of `topoSort` ends: it returns `result`, or it throws; either way the graph is
left with the marks `visited` of that moment. -/
inductive TopoResult where
  | returned (result : List Nat) (g : Graph)
  | thrown (g : Graph)
  | outOfFuel
deriving DecidableEq, Repr

/-- The method `topoSort()`. -/
def Graph.topoSort (g : Graph) : TopoResult :=
  match topoLoop g.adj (List.range g.adj.length) g.visited [] with
  | .returned visited st => .returned (popAll st []) { g with visited := visited }
  | .thrown visited => .thrown { g with visited := visited }
  | .outOfFuel => .outOfFuel

/-! ## Notions used in the proofs about the graph -/

/-- The graph has the edge `u -> v`. -/
def Edge (adj : List (List Nat)) (u v : Nat) : Prop := v ∈ adj.getD u []

/-- Every edge of the graph ends at a node of the graph. -/
def InRange (adj : List (List Nat)) : Prop := ∀ u v, Edge adj u v → v < adj.length

/-- The graph has a directed cycle: a node from which a path of one edge or more leads back
to it. A self-loop is one. -/
def HasCycle (adj : List (List Nat)) : Prop := ∃ u, Relation.TransGen (Edge adj) u u

/-- Every mark is `0`, `1` or `2`. -/
def Colors (vis : List Nat) : Prop := ∀ w, vis.getD w 0 ≤ 2

/-- From `vis` to `vis'` every mark is unchanged or went from `0` to `2`. -/
def Frame (vis vis' : List Nat) : Prop :=
  vis'.length = vis.length ∧
    ∀ w, vis'.getD w 0 = vis.getD w 0 ∨ (vis.getD w 0 = 0 ∧ vis'.getD w 0 = 2)

/-- In the list `st` every node is followed, somewhere later, by all its successors. -/
def TopoSorted (adj : List (List Nat)) : List Nat → Prop
  | [] => True
  | u :: rest => (∀ v, Edge adj u v → v ∈ rest) ∧ TopoSorted adj rest

/-- The stack holds the finished nodes, each once, every node above its successors. -/
def StackInv (adj : List (List Nat)) (vis st : List Nat) : Prop :=
  st.Nodup ∧ (∀ w, w ∈ st ↔ vis.getD w 0 = 2) ∧ TopoSorted adj st

/-- The number of nodes that are not visited. -/
def whiteCount (vis : List Nat) : Nat := vis.count 0

/-- The edges `edges` contain a directed cycle: a node from which a path of one edge or more
leads back to it. A self-loop is one. -/
def CyclicEdges (edges : List (Nat × Nat)) : Prop :=
  ∃ u, Relation.TransGen (fun a b => (a, b) ∈ edges) u u

end Project2

/-!
# Semester plan: the layering of `Project 2/src/plan_semesters.cpp`

The courses are the nodes `0..n-1`; `main` is taken over an arbitrary number `n` of courses
and an arbitrary list of prerequisite edges `pre -> post`, the program's own being
`courses` and `prereqs`. A `std::set<int>` is an ascending list without repeats.
-/

namespace PlanSemesters

/-- The vectors `adj` and `inDegree`. -/
structure Prereqs where
  adj : List (List Nat)
  inDegree : List Int
deriving DecidableEq, Repr

/-- The declarations `adj(n)` and `inDegree(n, 0)`. -/
def Prereqs.init (n : Nat) : Prereqs :=
  { adj := List.replicate n [], inDegree := List.replicate n 0 }

/-- The lambda `addEdge`, on the ids `u` of `pre` and `v` of `post`:
`adj[u].push_back(v); inDegree[v]++;`. -/
def Prereqs.addEdge (g : Prereqs) (u v : Nat) : Prereqs :=
  { adj := g.adj.set u (g.adj.getD u [] ++ [v]),
    inDegree := g.inDegree.set v (g.inDegree.getD v 0 + 1) }

/-- The vectors after the calls of `addEdge` for the edges `edges`, in turn. -/
def Prereqs.build (n : Nat) (edges : List (Nat × Nat)) : Prereqs :=
  edges.foldl (fun g e => g.addEdge e.1 e.2) (Prereqs.init n)

/-- The call `insert(x)` on a `std::set<int>`. -/
def set_insert : List Nat → Nat → List Nat
  | [], x => [x]
  | y :: rest, x =>
    if x < y then x :: y :: rest else if x = y then y :: rest else y :: set_insert rest x

/-- The loop `for (int i = 0; i < n; i++) if (inDeg[i] == 0) available.insert(i);`. -/
def initial_available (n : Nat) (inDeg : List Int) : List Nat :=
  (List.range n).foldl (fun available i =>
    if inDeg.getD i 0 = 0 then set_insert available i else available) []

/-- What the body of the `while` loop changes while it goes through `thisSem`. -/
structure LayerState where
  inDeg : List Int
  nextAvailable : List Nat
  placedCount : Nat
deriving DecidableEq, Repr

/-- The body of the loop over `adj[u]`, at `v`:
`inDeg[v]--; if (inDeg[v] == 0) nextAvailable.insert(v);`. -/
def relax (st : LayerState) (v : Nat) : LayerState :=
  let inDeg := st.inDeg.set v (st.inDeg.getD v 0 - 1)
  { st with
    inDeg := inDeg
    nextAvailable := if inDeg.getD v 0 = 0 then set_insert st.nextAvailable v
      else st.nextAvailable }

/-- The body of the loop `for (int u : thisSem)`: `placedCount++`, then the loop over
`adj[u]`. -/
def place (adj : List (List Nat)) (st : LayerState) (u : Nat) : LayerState :=
  (adj.getD u []).foldl relax { st with placedCount := st.placedCount + 1 }

/-- The loop `while (!available.empty())`, with fuel for the number of its iterations; it
gives `semesters` and `placedCount`. -/
def layerLoop (adj : List (List Nat)) :
    Nat → List Nat → List Int → List (List Nat) → Nat → Option (List (List Nat) × Nat)
  | 0, _, _, _, _ => none
  | fuel + 1, available, inDeg, semesters, placedCount =>
    if available.isEmpty then some (semesters, placedCount)
    else
      let st := available.foldl (place adj)
        { inDeg := inDeg, nextAvailable := [], placedCount := placedCount }
      layerLoop adj fuel st.nextAvailable st.inDeg (semesters ++ [available]) st.placedCount

/-- How `main` ends: it prints the plan `semesters` and the number of semesters and returns
`0`; or it prints `ERROR: Cycle detected. Cannot build semester plan.` and returns `1`; or
the fuel of the embedding is used up. -/
inductive PlanResult where
  | plan (semesters : List (List Nat))
  | cycleDetected
  | outOfFuel
deriving DecidableEq, Repr

/-- The function `main` of `plan_semesters.cpp` for `n` courses and the prerequisite edges
`edges`. The `while` loop gets the fuel `n + 1`. -/
def main (n : Nat) (edges : List (Nat × Nat)) : PlanResult :=
  let g := Prereqs.build n edges
  match layerLoop g.adj (n + 1) (initial_available n g.inDegree) g.inDegree [] 0 with
  | none => .outOfFuel
  | some (semesters, placedCount) =>
    if placedCount ≠ n then .cycleDetected else .plan semesters

/-- The number of entries of the vector `courses` of the program. -/
def courses : Nat := 29

/-- The calls of `addEdge` of the program, by the ids of the courses. -/
def prereqs : List (Nat × Nat) :=
  [(0, 3), (0, 8), (1, 4), (1, 5), (2, 6), (3, 7), (4, 10), (5, 11), (2, 17), (6, 17), (1, 9),
   (3, 12), (9, 12), (7, 13), (7, 18), (7, 19), (8, 19), (16, 19), (10, 20), (13, 22), (7, 22),
   (20, 22), (12, 23), (8, 24), (22, 25), (19, 26), (23, 26), (19, 27), (25, 28)]

/-! ## Notions used in the proofs about the plan -/

/-- A prerequisite chain: every course of the list is a prerequisite of the next one. -/
def IsChain (edges : List (Nat × Nat)) (c : List Nat) : Prop :=
  List.Chain' (fun a b => (a, b) ∈ edges) c

/-- The 0-based index of the first semester that holds the course `v`. -/
def semesterOf (semesters : List (List Nat)) (v : Nat) : Nat :=
  semesters.findIdx (fun sem => decide (v ∈ sem))

/-- The invariant of the `while` loop, at its head: `inDeg[v]` is the number of edges into `v`
from courses that are not placed yet; the placed and the available courses are those with
`inDeg = 0`, each of them once; every placed or available course has all its prerequisites in
earlier semesters and, from the second semester on, one of them in the semester just
before. -/
structure LayerInv (n : Nat) (edges : List (Nat × Nat)) (available : List Nat)
    (inDeg : List Int) (semesters : List (List Nat)) (placedCount : Nat) : Prop where
  len : inDeg.length = n
  deg : ∀ v, v < n → inDeg.getD v 0
    = (edges.countP (fun e => decide (e.2 = v ∧ e.1 ∉ semesters.flatten)) : Int)
  nodup : (semesters.flatten ++ available).Nodup
  zero : ∀ v, (v ∈ semesters.flatten ∨ v ∈ available) ↔ (v < n ∧ inDeg.getD v 0 = 0)
  count : placedCount = semesters.flatten.length
  before : ∀ k v, v ∈ semesters.getD k [] → ∀ e ∈ edges, e.2 = v → e.1 ∈ (semesters.take k).flatten
  chainStep : ∀ k v, v ∈ semesters.getD (k + 1) [] → ∃ u ∈ semesters.getD k [], (u, v) ∈ edges
  availStep : semesters ≠ [] → ∀ v ∈ available,
    ∃ u ∈ semesters.getD (semesters.length - 1) [], (u, v) ∈ edges
  nonempty : ∀ sem ∈ semesters, sem ≠ []

end PlanSemesters

/-!
# Shortest paths: `dijkstra` and `printPath` of `Project 3/main.cpp`

A node is an `int` of `0..n-1`, here a `Nat`; `adj[u]` lists the pairs `(v, w)` of the edges
`u -> v` of weight `w`. The distances are `long long`, here `Int`: they stay between `0` and
`INF = 10^18` and the weights are `int`, so the sums `dist[u] + w` stay below `2^63`. The
vector `parent` holds `int`s, `-1` for no parent.
-/

namespace Project3

/-- The constant `INF = 1e18`. -/
def INF : Int := 1000000000000000000

/-- The order of `greater<P>` on the pairs `{distance, node}`: `a ≤ b`, lexicographic. -/
def pair_le (a b : Int × Nat) : Bool :=
  decide (a.1 < b.1) || (decide (a.1 = b.1) && decide (a.2 ≤ b.2))

/-- The call `pq.top()` on the min-heap `pq`, held as the list of its entries: a least entry. -/
def pq_top : List (Int × Nat) → Option (Int × Nat)
  | [] => none
  | x :: rest =>
    match pq_top rest with
    | none => some x
    | some y => if pair_le x y then some x else some y

/-- The vectors `dist` and `parent` and the queue `pq` of `dijkstra`. -/
structure DState where
  dist : List Int
  parent : List Int
  pq : List (Int × Nat)
deriving DecidableEq, Repr

/-- The body of the loop `for (auto [v, w] : adj[u])`:
`if (dist[u] + w < dist[v]) { dist[v] = dist[u] + w; parent[v] = u; pq.push({dist[v], v}); }`. -/
def relaxEdge (u : Nat) (st : DState) (e : Nat × Int) : DState :=
  if st.dist.getD u 0 + e.2 < st.dist.getD e.1 0 then
    let dist := st.dist.set e.1 (st.dist.getD u 0 + e.2)
    { dist := dist, parent := st.parent.set e.1 (u : Int), pq := (dist.getD e.1 0, e.1) :: st.pq }
  else st

/-- The loop `while (!pq.empty())` of `dijkstra`, with fuel for the number of its
iterations. -/
def dijkstraLoop (adj : List (List (Nat × Int))) : Nat → DState → Option DState
  | 0, _ => none
  | fuel + 1, st =>
    match pq_top st.pq with
    | none => some st
    | some (d, u) =>
      let st₁ : DState := { st with pq := st.pq.erase (d, u) }
      if d ≠ st₁.dist.getD u 0 then dijkstraLoop adj fuel st₁
      else dijkstraLoop adj fuel ((adj.getD u []).foldl (relaxEdge u) st₁)

/-- The state of `dijkstra` before its loop: `dist.assign(n, INF); parent.assign(n, -1);
dist[src] = 0; pq.push({0, src});`. -/
def dijkstraInit (n src : Nat) : DState :=
  { dist := (List.replicate n INF).set src 0, parent := List.replicate n (-1), pq := [(0, src)] }

/-- The number of iterations that the loop of `dijkstra` is given: one for every edge, and
two more. -/
def dijkstraFuel (adj : List (List (Nat × Int))) : Nat := (adj.map List.length).sum + 2

/-- The function `dijkstra(n, src, adj, dist, parent)`: the vectors `dist` and `parent` when
it returns. -/
def dijkstra (n src : Nat) (adj : List (List (Nat × Int))) : Option (List Int × List Int) :=
  (dijkstraLoop adj (dijkstraFuel adj) (dijkstraInit n src)).map (fun st => (st.dist, st.parent))

/-- The loop `for (int cur = v; cur != -1; cur = parent[cur]) path.push_back(cur);` of
`printPath`, with fuel for the number of its iterations. -/
def printPathLoop (parent : List Int) : Nat → Int → List Int → Option (List Int)
  | 0, _, _ => none
  | fuel + 1, cur, path =>
    if cur ≠ -1 then printPathLoop parent fuel (parent.getD cur.toNat (-1)) (path ++ [cur])
    else some path

/-- The function `printPath(v, parent)`: the vector `path` after `reverse`, which is what it
prints. The loop gets one iteration for every entry of `parent`, and one more. -/
def printPath (v : Nat) (parent : List Int) : Option (List Int) :=
  (printPathLoop parent (parent.length + 1) (v : Int) []).map List.reverse

/-- The graph of `main`: the calls `addEdge(a, b, w)`, each of which adds `b` to `adj[a]` and
`a` to `adj[b]`. -/
def campus_edges : List (Nat × Nat × Int) :=
  [(0, 1, 200), (0, 3, 300), (1, 2, 150), (1, 16, 250), (2, 3, 80), (2, 4, 40), (2, 15, 30),
   (3, 4, 30), (3, 7, 100), (4, 5, 30), (4, 15, 80), (5, 6, 90), (5, 7, 200), (5, 10, 100),
   (6, 7, 50), (6, 9, 80), (6, 10, 180), (7, 8, 100), (8, 9, 50), (8, 12, 200), (9, 10, 100),
   (9, 12, 110), (10, 15, 200), (10, 11, 50), (10, 17, 150), (11, 12, 50), (11, 17, 100),
   (12, 13, 20), (12, 18, 30), (13, 14, 350), (15, 16, 100), (15, 17, 300), (16, 17, 120),
   (17, 12, 150), (17, 18, 160), (18, 13, 40)]

/-- The lambda `addEdge` of `main`, on `adj`:
`adj[a].push_back({b, w}); adj[b].push_back({a, w});`. -/
def addEdge (adj : List (List (Nat × Int))) (e : Nat × Nat × Int) : List (List (Nat × Int)) :=
  let adj₁ := adj.set e.1 (adj.getD e.1 [] ++ [(e.2.1, e.2.2)])
  adj₁.set e.2.1 (adj₁.getD e.2.1 [] ++ [(e.1, e.2.2)])

/-- The vector `adj` of `main`, for `N = 19` buildings. -/
def campus_adj : List (List (Nat × Int)) := campus_edges.foldl addEdge (List.replicate 19 [])

/-! ## Notions used in the proofs about the shortest paths -/

/-- There is a walk from `src` to `v` of total weight `d`. -/
inductive Walk (adj : List (List (Nat × Int))) (src : Nat) : Nat → Int → Prop
  | nil : Walk adj src src 0
  | snoc (u v : Nat) (w d : Int) : Walk adj src u d → (v, w) ∈ adj.getD u [] →
      Walk adj src v (d + w)

/-- The list of nodes `p` is a path of the graph, from its first to its last node, of total
weight `d`. -/
def IsPath (adj : List (List (Nat × Int))) : List Nat → Int → Prop
  | [], _ => False
  | [_], d => d = 0
  | u :: v :: rest, d => ∃ w, (v, w) ∈ adj.getD u [] ∧ IsPath adj (v :: rest) (d - w)

/-- The graph has `n` nodes, its edges end at nodes of the graph, and its weights are not
negative. -/
def WellFormed (n : Nat) (adj : List (List (Nat × Int))) : Prop :=
  adj.length = n ∧ ∀ u, ∀ e ∈ adj.getD u [], e.1 < n ∧ 0 ≤ e.2

instance wellFormedDecidable (n : Nat) (adj : List (List (Nat × Int))) :
    Decidable (WellFormed n adj) :=
  decidable_of_iff (adj.length = n ∧ ∀ l ∈ adj, ∀ e ∈ l, e.1 < n ∧ 0 ≤ e.2) (by
    unfold WellFormed
    constructor
    · rintro ⟨h1, h2⟩
      refine ⟨h1, ?_⟩
      intro u e he
      by_cases hu : u < adj.length
      · rw [List.getD_eq_getElem _ _ hu] at he
        exact h2 _ (List.getElem_mem _) e he
      · rw [List.getD_eq_default _ _ (by omega)] at he
        simp at he
    · rintro ⟨h1, h2⟩
      refine ⟨h1, ?_⟩
      intro l hl e he
      obtain ⟨i, hi, rfl⟩ := List.getElem_of_mem hl
      exact h2 i e (by rw [List.getD_eq_getElem _ _ hi]; exact he))

/-- The edges that are still to be scanned: those of the nodes of the graph outside `S`. -/
def pending (adj : List (List (Nat × Int))) (n : Nat) (S : List Nat) : Nat :=
  (((List.range n).filter (fun v => decide (v ∉ S))).map (fun v => (adj.getD v []).length)).sum

/-- The invariant of the loops of `dijkstra`. `S` lists the nodes that were scanned, in the
order of their scans; `u` is the node being scanned and `todo` the edges of `u` that are
still to come (none between two scans). -/
structure DInv (n src : Nat) (adj : List (List (Nat × Int))) (S : List Nat) (u : Nat)
    (todo : List (Nat × Int)) (st : DState) : Prop where
  dlen : st.dist.length = n
  plen : st.parent.length = n
  src0 : st.dist.getD src 0 = 0
  bound : ∀ v, v < n → 0 ≤ st.dist.getD v 0 ∧ st.dist.getD v 0 ≤ INF
  real : ∀ v, v < n → st.dist.getD v 0 < INF → Walk adj src v (st.dist.getD v 0)
  snodup : S.Nodup
  slt : ∀ v ∈ S, v < n ∧ st.dist.getD v 0 < INF
  exact : ∀ x ∈ S, ∀ d, Walk adj src x d → st.dist.getD x 0 ≤ d
  relaxed : ∀ x ∈ S, ∀ e ∈ adj.getD x [],
    (x = u ∧ e ∈ todo) ∨ st.dist.getD e.1 0 ≤ st.dist.getD x 0 + e.2
  pqc : ∀ v, v < n → st.dist.getD v 0 < INF → v ∉ S → (st.dist.getD v 0, v) ∈ st.pq
  pqs : ∀ e ∈ st.pq, e.2 < n ∧ e.1 < INF
  psrc : st.parent.getD src (-1) = -1
  par : ∀ v, v < n → v ≠ src → st.dist.getD v 0 < INF →
    ∃ (x : Nat) (w : Int), st.parent.getD v (-1) = (x : Int) ∧ x ∈ S ∧ (v, w) ∈ adj.getD x [] ∧
      st.dist.getD v 0 = st.dist.getD x 0 + w ∧ (v ∈ S → S.indexOf x < S.indexOf v)

end Project3

namespace RankReliability

/-! ## Theorems on the merge-sort counter -/

theorem countP_eq_sum_range (p : Int → Bool) (xs : List Int) :
    xs.countP p = ∑ j in Finset.range xs.length, if p (xs.getD j 0) then 1 else 0 := by
  induction xs with
  | nil => simp
  | cons x xs ih =>
    rw [List.length_cons, Finset.sum_range_succ', List.countP_cons, ih]
    simp

theorem inversions_eq_sum (a : List Int) :
    inversions a = ∑ i in Finset.range a.length, ∑ j in Finset.range a.length,
      if i < j ∧ a.getD i 0 > a.getD j 0 then 1 else 0 := by
  unfold inversions
  rw [Finset.card_filter, Finset.sum_product]

theorem inversions_eq_invL (a : List Int) : inversions a = invL a := by
  induction a with
  | nil => simp [inversions, invL]
  | cons x xs ih =>
    rw [invL, ← ih, inversions_eq_sum, inversions_eq_sum, countP_eq_sum_range]
    rw [List.length_cons, Finset.sum_range_succ']
    simp only [Finset.sum_range_succ' _ xs.length]
    simp [Finset.sum_add_distrib, add_comm]

theorem invL_append (L R : List Int) : invL (L ++ R) = invL L + invL R + crossL L R := by
  induction L with
  | nil => simp [invL, crossL]
  | cons x L ih =>
    have h1 : invL (x :: L ++ R) = (L ++ R).countP (fun y => y < x) + invL (L ++ R) := rfl
    have h2 : invL (x :: L) = L.countP (fun y => y < x) + invL L := rfl
    have h3 : crossL (x :: L) R = R.countP (fun y => y < x) + crossL L R := rfl
    rw [h1, h2, h3, ih, List.countP_append]
    omega

theorem crossL_perm_left {L L' : List Int} (h : L.Perm L') (R : List Int) :
    crossL L R = crossL L' R := by
  unfold crossL
  exact (h.map _).sum_eq

theorem crossL_perm_right (L : List Int) {R R' : List Int} (h : R.Perm R') :
    crossL L R = crossL L R' := by
  unfold crossL
  congr 1
  apply List.map_congr_left
  intro x _
  exact h.countP_eq _

theorem mergeL_nil_right (L : List Int) : mergeL L [] = L := by
  cases L <;> simp [mergeL]

theorem mergeCnt_nil_right (L : List Int) : mergeCnt L [] = 0 := by
  cases L <;> simp [mergeCnt]

theorem mergeL_perm (L R : List Int) : (mergeL L R).Perm (L ++ R) := by
  induction L generalizing R with
  | nil => simp [mergeL]
  | cons x L ihL =>
    induction R with
    | nil => simp [mergeL]
    | cons y R ihR =>
      rw [mergeL]
      split
      · exact (ihL (y :: R)).cons x
      · exact (ihR.cons y).trans (List.perm_middle.symm)

theorem mergeL_length (L R : List Int) : (mergeL L R).length = L.length + R.length := by
  rw [(mergeL_perm L R).length_eq, List.length_append]

theorem mergeL_sorted (L R : List Int) (hL : L.Sorted (· ≤ ·)) (hR : R.Sorted (· ≤ ·)) :
    (mergeL L R).Sorted (· ≤ ·) := by
  induction L generalizing R with
  | nil => simpa [mergeL] using hR
  | cons x L ihL =>
    induction R with
    | nil => simpa [mergeL] using hL
    | cons y R ihR =>
      rw [mergeL]
      have hL' := List.sorted_cons.1 hL
      have hR' := List.sorted_cons.1 hR
      split
      · rename_i hxy
        refine List.sorted_cons.2 ⟨?_, ihL (y :: R) hL'.2 hR⟩
        intro z hz
        rcases List.mem_append.1 ((mergeL_perm L (y :: R)).subset hz) with h | h
        · exact hL'.1 z h
        · rcases List.mem_cons.1 h with h | h
          · exact h ▸ hxy
          · exact le_trans hxy (hR'.1 z h)
      · rename_i hxy
        have hyx : y ≤ x := le_of_lt (not_le.1 hxy)
        refine List.sorted_cons.2 ⟨?_, ihR hR'.2⟩
        intro z hz
        rcases List.mem_append.1 ((mergeL_perm (x :: L) R).subset hz) with h | h
        · rcases List.mem_cons.1 h with h | h
          · exact h ▸ hyx
          · exact le_trans hyx (hL'.1 z h)
        · exact hR'.1 z h

theorem countP_eq_zero_of_forall_le (x : Int) (R : List Int) (h : ∀ z ∈ R, x ≤ z) :
    R.countP (fun y => y < x) = 0 := by
  rw [List.countP_eq_zero]
  intro z hz
  simpa using h z hz

theorem crossL_cons_right_of_lt (y : Int) (L R : List Int) (h : ∀ z ∈ L, y < z) :
    crossL L (y :: R) = crossL L R + L.length := by
  induction L with
  | nil => simp [crossL]
  | cons x L ih =>
    have h3 : ∀ R', crossL (x :: L) R' = R'.countP (fun y => y < x) + crossL L R' := fun _ => rfl
    have hx : y < x := h x (List.mem_cons_self _ _)
    rw [h3, h3, ih (fun z hz => h z (List.mem_cons_of_mem _ hz)), List.countP_cons]
    simp [hx]
    omega

theorem mergeCnt_eq_crossL (L R : List Int) (hL : L.Sorted (· ≤ ·)) (hR : R.Sorted (· ≤ ·)) :
    mergeCnt L R = crossL L R := by
  induction L generalizing R with
  | nil => simp [mergeCnt, crossL]
  | cons x L ihL =>
    induction R with
    | nil => simp [mergeCnt, crossL]
    | cons y R ihR =>
      rw [mergeCnt]
      have hL' := List.sorted_cons.1 hL
      have hR' := List.sorted_cons.1 hR
      split
      · rename_i hxy
        have h3 : crossL (x :: L) (y :: R)
            = (y :: R).countP (fun z => z < x) + crossL L (y :: R) := rfl
        rw [h3, ihL (y :: R) hL'.2 hR, countP_eq_zero_of_forall_le, Nat.zero_add]
        intro z hz
        rcases List.mem_cons.1 hz with h | h
        · exact h ▸ hxy
        · exact le_trans hxy (hR'.1 z h)
      · rename_i hxy
        have hyx : y < x := not_le.1 hxy
        rw [ihR hR'.2, crossL_cons_right_of_lt y (x :: L) R, List.length_cons]
        intro z hz
        rcases List.mem_cons.1 hz with h | h
        · exact h ▸ hyx
        · exact lt_of_lt_of_le hyx (hL'.1 z h)

theorem getD_append_cons {α : Type} (A R : List α) (x d : α) (i : Nat) (hi : i = A.length) :
    (A ++ x :: R).getD i d = x := by
  subst hi
  induction A with
  | nil => rfl
  | cons b A ih => simpa using ih

theorem set_append_cons (A R : List Int) (t x : Int) (k : Nat) (hk : k = A.length) :
    (A ++ t :: R).set k x = A ++ x :: R := by
  subst hk
  simp

theorem copyLeft_spec (L : List Int) : ∀ (fuel : Nat) (a A C T1 T2 T3 : List Int)
    (m i j k : Nat) (tmp : List Int) (inv : Int),
    a = A ++ L ++ C → m = A.length + L.length → i = A.length → k = T1.length →
    tmp = T1 ++ T2 ++ T3 → T2.length = L.length → L.length ≤ fuel →
    copyLeft a m fuel ⟨i, j, k, tmp, inv⟩ = ⟨m, j, k + L.length, T1 ++ L ++ T3, inv⟩ := by
  induction L with
  | nil =>
    intro fuel a A C T1 T2 T3 m i j k tmp inv ha hm hi hk ht hT hf
    have hT2 : T2 = [] := List.length_eq_zero.1 hT
    subst hT2
    have him : m = i := by simp [hm, hi]
    subst him
    cases fuel <;> simp [copyLeft, ht]
  | cons x L ih =>
    intro fuel a A C T1 T2 T3 m i j k tmp inv ha hm hi hk ht hT hf
    cases fuel with
    | zero => simp at hf
    | succ fuel =>
      cases T2 with
      | nil => simp at hT
      | cons t T2 =>
        have him : i < m := by simp [hm, hi]
        have hx : a.getD i 0 = x := by
          rw [ha, List.append_assoc, List.cons_append]
          exact getD_append_cons A _ x 0 i hi
        have hset : tmp.set k x = (T1 ++ [x]) ++ T2 ++ T3 := by
          rw [ht, List.append_assoc, List.cons_append, set_append_cons _ _ _ _ _ hk]
          simp
        rw [copyLeft, if_pos him]
        simp only [hx]
        rw [ih fuel a (A ++ [x]) C (T1 ++ [x]) T2 T3 m (i + 1) j (k + 1) _ inv
          (by simp [ha]) (by simp [hm]; omega) (by simp [hi]) (by simp [hk]) hset
          (by simpa using hT) (by simpa using hf)]
        simp
        omega

theorem copyRight_spec (R : List Int) : ∀ (fuel : Nat) (a A C T1 T2 T3 : List Int)
    (r i j k : Nat) (tmp : List Int) (inv : Int),
    a = A ++ R ++ C → r = A.length + R.length → j = A.length → k = T1.length →
    tmp = T1 ++ T2 ++ T3 → T2.length = R.length → R.length ≤ fuel →
    copyRight a r fuel ⟨i, j, k, tmp, inv⟩ = ⟨i, r, k + R.length, T1 ++ R ++ T3, inv⟩ := by
  induction R with
  | nil =>
    intro fuel a A C T1 T2 T3 r i j k tmp inv ha hr hj hk ht hT hf
    have hT2 : T2 = [] := List.length_eq_zero.1 hT
    subst hT2
    have hjr : r = j := by simp [hr, hj]
    subst hjr
    cases fuel <;> simp [copyRight, ht]
  | cons x R ih =>
    intro fuel a A C T1 T2 T3 r i j k tmp inv ha hr hj hk ht hT hf
    cases fuel with
    | zero => simp at hf
    | succ fuel =>
      cases T2 with
      | nil => simp at hT
      | cons t T2 =>
        have hjr : j < r := by simp [hr, hj]
        have hx : a.getD j 0 = x := by
          rw [ha, List.append_assoc, List.cons_append]
          exact getD_append_cons A _ x 0 j hj
        have hset : tmp.set k x = (T1 ++ [x]) ++ T2 ++ T3 := by
          rw [ht, List.append_assoc, List.cons_append, set_append_cons _ _ _ _ _ hk]
          simp
        rw [copyRight, if_pos hjr]
        simp only [hx]
        rw [ih fuel a (A ++ [x]) C (T1 ++ [x]) T2 T3 r i (j + 1) (k + 1) _ inv
          (by simp [ha]) (by simp [hr]; omega) (by simp [hj]) (by simp [hk]) hset
          (by simpa using hT) (by simpa using hf)]
        simp
        omega

theorem copyBack_spec (M : List Int) : ∀ (fuel : Nat) (tmp T1 T3 a A X C : List Int) (r t : Nat),
    tmp = T1 ++ M ++ T3 → t = T1.length → r = T1.length + M.length →
    a = A ++ X ++ C → A.length = T1.length → X.length = M.length → M.length ≤ fuel →
    copyBack tmp r fuel t a = A ++ M ++ C := by
  induction M with
  | nil =>
    intro fuel tmp T1 T3 a A X C r t htmp ht hr ha hA hX hf
    have hX2 : X = [] := List.length_eq_zero.1 hX
    subst hX2
    have htr : r = t := by simp [hr, ht]
    subst htr
    cases fuel <;> simp [copyBack, ha]
  | cons x M ih =>
    intro fuel tmp T1 T3 a A X C r t htmp ht hr ha hA hX hf
    cases fuel with
    | zero => simp at hf
    | succ fuel =>
      cases X with
      | nil => simp at hX
      | cons y X =>
        have htr : t < r := by simp [hr, ht]
        have hx : tmp.getD t 0 = x := by
          rw [htmp, List.append_assoc, List.cons_append]
          exact getD_append_cons T1 _ x 0 t ht
        have hset : a.set t x = (A ++ [x]) ++ X ++ C := by
          rw [ha, List.append_assoc, List.cons_append, set_append_cons _ _ _ _ _ (ht.trans hA.symm)]
          simp
        rw [copyBack, if_pos htr, hx]
        rw [ih fuel tmp (T1 ++ [x]) T3 _ (A ++ [x]) X C r (t + 1)
          (by simp [htmp]) (by simp [ht]) (by simp [hr]; omega) hset (by simp [hA])
          (by simpa using hX) (by simpa using hf)]
        simp

theorem merge_step_spec : ∀ (f1 : Nat) (L R : List Int) (f2 f3 : Nat)
    (a A B C T1 T2 T3 : List Int) (m r i j k : Nat) (tmp : List Int) (inv : Int),
    a = A ++ L ++ B ++ R ++ C → m = A.length + L.length → i = A.length →
    j = A.length + L.length + B.length → r = j + R.length → k = T1.length →
    tmp = T1 ++ T2 ++ T3 → T2.length = L.length + R.length →
    L.length + R.length ≤ f1 → L.length ≤ f2 → R.length ≤ f3 →
    copyRight a r f3 (copyLeft a m f2 (mergeLoop a m r f1 ⟨i, j, k, tmp, inv⟩))
      = ⟨m, r, k + (L.length + R.length), T1 ++ mergeL L R ++ T3, inv + (mergeCnt L R : Int)⟩ := by
  intro f1
  induction f1 with
  | zero =>
    intro L R f2 f3 a A B C T1 T2 T3 m r i j k tmp inv ha hm hi hj hr hk ht hT h1 h2 h3
    have hL : L = [] := List.length_eq_zero.1 (by omega)
    have hR : R = [] := List.length_eq_zero.1 (by omega)
    subst hL hR
    have hT2 : T2 = [] := List.length_eq_zero.1 (by simpa using hT)
    subst hT2
    simp only [mergeLoop]
    rw [copyLeft_spec [] f2 a A (B ++ C) T1 [] T3 m i j k tmp inv (by simp [ha]) hm hi hk ht rfl h2]
    rw [copyRight_spec [] f3 a (A ++ B) C T1 [] T3 r m j (k + ([] : List Int).length) _ inv
      (by simp [ha]) (by simp [hr, hj]) (by simp [hj]) (by simp [hk]) (by simp) rfl h3]
    simp [mergeL, mergeCnt]
  | succ f1 ih =>
    intro L R f2 f3 a A B C T1 T2 T3 m r i j k tmp inv ha hm hi hj hr hk ht hT h1 h2 h3
    cases L with
    | nil =>
      have him : ¬ (i < m ∧ j < r) := by simp [hm, hi]
      rw [mergeLoop]
      simp only [him, if_false]
      rw [copyLeft_spec [] f2 a A (B ++ R ++ C) T1 [] (T2 ++ T3) m i j k tmp inv
        (by simp [ha]) hm hi hk (by simp [ht]) rfl h2]
      rw [copyRight_spec R f3 a (A ++ B) C T1 T2 T3 r m j (k + ([] : List Int).length) _ inv
        (by simp [ha]) (by simp [hr, hj]) (by simp [hj]) (by simp [hk]) (by simp)
        (by simpa using hT) h3]
      simp [mergeL, mergeCnt]
    | cons x L =>
      cases R with
      | nil =>
        have hjr : ¬ (i < m ∧ j < r) := by simp [hr]
        rw [mergeLoop]
        simp only [hjr, if_false]
        rw [copyLeft_spec (x :: L) f2 a A (B ++ C) T1 T2 T3 m i j k tmp inv
          (by simp [ha]) hm hi hk ht (by simpa using hT) h2]
        rw [copyRight_spec [] f3 a (A ++ (x :: L) ++ B) C (T1 ++ (x :: L)) [] T3 r m j _ _ inv
          (by simp [ha]) (by simp [hr, hj]; omega) (by simp [hj]; omega) (by simp [hk])
          (by simp) rfl (by simp)]
        simp [mergeL_nil_right, mergeCnt_nil_right]
      | cons y R =>
        cases T2 with
        | nil => simp at hT; omega
        | cons t T2 =>
          have hc : i < m ∧ j < r := by
            constructor
            · simp [hm, hi]
            · simp [hr]
          have hx : a.getD i 0 = x := by
            rw [ha]
            simp only [List.append_assoc, List.cons_append]
            exact getD_append_cons A _ x 0 i hi
          have hy : a.getD j 0 = y := by
            rw [ha]
            have : A ++ x :: L ++ B ++ y :: R ++ C = (A ++ x :: L ++ B) ++ y :: (R ++ C) := by
              simp
            rw [this]
            exact getD_append_cons _ _ y 0 j (by simp [hj]; omega)
          rw [mergeLoop, if_pos hc]
          simp only [hx, hy]
          by_cases hxy : x ≤ y
          · rw [if_pos hxy]
            rw [ih L (y :: R) f2 f3 a (A ++ [x]) B C (T1 ++ [x]) T2 T3 m r (i + 1) j (k + 1) _ inv
              (by simp [ha]) (by simp [hm]; omega) (by simp [hi]) (by simp [hj]; omega) hr
              (by simp [hk])
              (by rw [ht, List.append_assoc, List.cons_append, set_append_cons _ _ _ _ _ hk]; simp)
              (by simp at hT ⊢; omega) (by simp at h1 ⊢; omega) (by simp at h2; omega) h3]
            simp [mergeL, mergeCnt, hxy]
            omega
          · rw [if_neg hxy]
            rw [ih (x :: L) R f2 f3 a A (B ++ [y]) C (T1 ++ [y]) T2 T3 m r i (j + 1) (k + 1) _ _
              (by simp [ha]) hm hi (by simp [hj]; omega) (by simp [hr]; omega)
              (by simp [hk])
              (by rw [ht, List.append_assoc, List.cons_append, set_append_cons _ _ _ _ _ hk]; simp)
              (by simp at hT ⊢; omega) (by simp at h1 ⊢; omega) h2 (by simp at h3; omega)]
            simp [mergeL, mergeCnt, hxy, hm, hi]
            constructor
            · omega
            · omega

theorem invL_of_length_le_one (X : List Int) (h : X.length ≤ 1) : invL X = 0 := by
  match X, h with
  | [], _ => rfl
  | [_], _ => rfl

theorem sorted_of_length_le_one (X : List Int) (h : X.length ≤ 1) : X.Sorted (· ≤ ·) := by
  match X, h with
  | [], _ => exact List.sorted_nil
  | [_], _ => exact List.sorted_singleton _

theorem split_three (T : List Int) (l r : Nat) (h : l ≤ r) :
    T = T.take l ++ (T.drop l).take (r - l) ++ T.drop r := by
  have hd : T.drop r = (T.drop l).drop (r - l) := by
    rw [List.drop_drop]
    congr 1
    omega
  rw [hd, List.append_assoc, List.take_append_drop, List.take_append_drop]

theorem merge_count_rec_spec : ∀ (fuel : Nat) (P X Q tmp a : List Int) (l r : Nat),
    a = P ++ X ++ Q → l = P.length → r = P.length + X.length → tmp.length = a.length →
    X.length ≤ fuel + 1 →
    ∃ s tmp', merge_count_rec fuel l r a tmp = ((invL X : Int), P ++ s ++ Q, tmp') ∧
      s.Perm X ∧ s.Sorted (· ≤ ·) ∧ tmp'.length = tmp.length := by
  intro fuel
  induction fuel with
  | zero =>
    intro P X Q tmp a l r ha hl hr ht hX
    refine ⟨X, tmp, ?_, List.Perm.refl _, sorted_of_length_le_one X (by omega), rfl⟩
    simp [merge_count_rec, invL_of_length_le_one X (by omega), ha]
  | succ fuel ih =>
    intro P X Q tmp a l r ha hl hr ht hX
    by_cases hsmall : r - l ≤ 1
    · have hX1 : X.length ≤ 1 := by omega
      refine ⟨X, tmp, ?_, List.Perm.refl _, sorted_of_length_le_one X hX1, rfl⟩
      simp [merge_count_rec, hsmall, invL_of_length_le_one X hX1, ha]
    · have hX2 : 2 ≤ X.length := by omega
      have hm : (l + r) / 2 = P.length + X.length / 2 := by omega
      have hsplit : X.take (X.length / 2) ++ X.drop (X.length / 2) = X := List.take_append_drop _ _
      have hlen1 : (X.take (X.length / 2)).length = X.length / 2 := by
        rw [List.length_take]; omega
      have hlen2 : (X.drop (X.length / 2)).length = X.length - X.length / 2 := by
        rw [List.length_drop]
      obtain ⟨s1, tmp1, e1, p1, o1, t1⟩ := ih P (X.take (X.length / 2))
        (X.drop (X.length / 2) ++ Q) tmp a l ((l + r) / 2)
        (by rw [ha]; conv_lhs => rw [← hsplit]
            simp only [List.append_assoc]) hl
        (by rw [hm, hlen1]) ht (by omega)
      have hs1 : s1.length = X.length / 2 := by rw [p1.length_eq, hlen1]
      obtain ⟨s2, tmp2, e2, p2, o2, t2⟩ := ih (P ++ s1) (X.drop (X.length / 2)) Q tmp1
        (P ++ s1 ++ (X.drop (X.length / 2) ++ Q)) ((l + r) / 2) r
        (by simp) (by rw [hm, List.length_append, hs1])
        (by rw [hr, List.length_append, hs1, hlen2]; omega)
        (by rw [t1, ht, ha]; simp [hs1]; omega) (by omega)
      have hs2 : s2.length = X.length - X.length / 2 := by rw [p2.length_eq, hlen2]
      have htl : tmp2.length = P.length + X.length + Q.length := by
        rw [t2, t1, ht, ha]; simp; omega
      have hmerge := merge_step_spec (r - l) s1 s2 (r - l) (r - l) (P ++ s1 ++ s2 ++ Q)
        P [] Q (tmp2.take l) ((tmp2.drop l).take (r - l)) (tmp2.drop r)
        ((l + r) / 2) r l ((l + r) / 2) l tmp2 ((invL (X.take (X.length / 2)) : Int)
          + (invL (X.drop (X.length / 2)) : Int))
        (by simp) (by rw [hm, hs1]) hl (by rw [hm, hs1]; simp)
        (by rw [hm, hs2, hr]; omega) (by rw [List.length_take]; omega)
        (split_three tmp2 l r (by omega))
        (by rw [List.length_take, List.length_drop, hs1, hs2]; omega)
        (by rw [hs1, hs2]; omega) (by rw [hs1]; omega) (by rw [hs2]; omega)
      have hback := copyBack_spec (mergeL s1 s2) (r - l)
        (tmp2.take l ++ mergeL s1 s2 ++ tmp2.drop r) (tmp2.take l) (tmp2.drop r)
        (P ++ s1 ++ s2 ++ Q) P (s1 ++ s2) Q r l rfl (by rw [List.length_take]; omega)
        (by rw [List.length_take, mergeL_length, hs1, hs2]; omega) (by simp)
        (by rw [List.length_take]; omega) (by rw [mergeL_length, List.length_append])
        (by rw [mergeL_length, hs1, hs2]; omega)
      refine ⟨mergeL s1 s2, tmp2.take l ++ mergeL s1 s2 ++ tmp2.drop r, ?_, ?_,
        mergeL_sorted s1 s2 o1 o2, ?_⟩
      · rw [merge_count_rec, if_neg hsmall]
        simp only [e1, e2, hmerge, hback]
        congr 1
        rw [mergeCnt_eq_crossL s1 s2 o1 o2, crossL_perm_left p1, crossL_perm_right _ p2]
        conv_rhs => rw [← hsplit, invL_append]
        push_cast
        ring
      · exact (mergeL_perm s1 s2).trans ((p1.append p2).trans (by rw [hsplit]))
      · simp only [List.length_append, List.length_take, List.length_drop, mergeL_length, hs1, hs2]
        omega

theorem merge_count_eq_invL (a : List Int) : merge_count a = (invL a : Int) := by
  obtain ⟨s, tmp', e, -, -, -⟩ := merge_count_rec_spec a.length [] a [] (List.replicate a.length 0)
    a 0 a.length (by simp) rfl (by simp) (by simp) (by omega)
  rw [merge_count, e]

/-- C1: for every sequence `a` of integers, duplicates allowed, `merge_count(a)` is the number
of index pairs `i < j` with `a[i] > a[j]`; a pair of equal values is not counted. -/
theorem merge_count_eq_inversions (a : List Int) : merge_count a = (inversions a : Int) := by
  rw [merge_count_eq_invL, inversions_eq_invL]
/-! ## Theorems on the Fenwick counter -/

theorem lowbit_zero : lowbit 0 = 0 := by
  simp [lowbit, Int.land]

theorem lowbit_succ (k : Nat) : lowbit (k + 1) = Nat.ldiff (k + 1) k := by
  have h : (-((k + 1 : Nat) : Int)) = Int.negSucc k := rfl
  unfold lowbit
  rw [h]
  rfl

theorem ldiff_self (q : Nat) : Nat.ldiff q q = 0 := by
  apply Nat.eq_of_testBit_eq
  intro i
  simp [Nat.testBit_ldiff]

theorem lowbit_odd (q : Nat) : lowbit (2 * q + 1) = 1 := by
  rw [lowbit_succ]
  have h1 : Nat.ldiff (Nat.bit true q) (Nat.bit false q) = 1 := by
    rw [Nat.ldiff_bit, ldiff_self]
    rfl
  simpa [Nat.bit_val] using h1

theorem lowbit_even (q : Nat) (hq : 0 < q) : lowbit (2 * q) = 2 * lowbit q := by
  obtain ⟨p, rfl⟩ : ∃ p, q = p + 1 := ⟨q - 1, by omega⟩
  have e : 2 * (p + 1) = (2 * p + 1) + 1 := by ring
  rw [e, lowbit_succ, lowbit_succ]
  have h1 : Nat.ldiff (Nat.bit false (p + 1)) (Nat.bit true p) = 2 * Nat.ldiff (p + 1) p := by
    rw [Nat.ldiff_bit]
    simp [Nat.bit_val]
  have e1 : Nat.bit false (p + 1) = 2 * p + 1 + 1 := by simp [Nat.bit_val]; ring
  have e2 : Nat.bit true p = 2 * p + 1 := by simp [Nat.bit_val]
  rw [e1, e2] at h1
  exact h1

theorem lowbit_pos : ∀ (i : Nat), 0 < i → 0 < lowbit i := by
  intro i
  induction i using Nat.strong_induction_on with
  | _ i ih =>
    intro hi
    rcases Nat.even_or_odd' i with ⟨q, rfl | rfl⟩
    · rw [lowbit_even q (by omega)]
      have := ih q (by omega) (by omega)
      omega
    · rw [lowbit_odd]
      omega

theorem lowbit_le : ∀ (i : Nat), lowbit i ≤ i := by
  intro i
  induction i using Nat.strong_induction_on with
  | _ i ih =>
    rcases Nat.even_or_odd' i with ⟨q, rfl | rfl⟩
    · rcases Nat.eq_zero_or_pos q with h | h
      · subst h
        simp [lowbit_zero]
      · rw [lowbit_even q h]
        have := ih q (by omega)
        omega
    · rw [lowbit_odd]
      omega


theorem even_sub_lowbit (j : Nat) : 2 ∣ (j - lowbit j) := by
  rcases Nat.even_or_odd' j with ⟨q, rfl | rfl⟩
  · rcases Nat.eq_zero_or_pos q with h | h
    · subst h
      simp
    · rw [lowbit_even q h]
      have := lowbit_le q
      omega
  · rw [lowbit_odd]
    omega

theorem covers_step : ∀ (j i : Nat), 0 < i → i < j → (covers j i ↔ covers j (i + lowbit i)) := by
  intro j
  induction j using Nat.strong_induction_on with
  | _ j ih =>
    intro i hi hij
    rcases Nat.even_or_odd' i with ⟨p, rfl | rfl⟩
    · have hp : 0 < p := by omega
      rw [lowbit_even p hp]
      rcases Nat.even_or_odd' j with ⟨q, rfl | rfl⟩
      · have hq : 0 < q := by omega
        have hlq := lowbit_le q
        have hlp := lowbit_le p
        have := ih q (by omega) p hp (by omega)
        unfold covers at this ⊢
        rw [lowbit_even q hq]
        constructor
        · intro h
          have := this.1 (by omega)
          omega
        · intro h
          have := this.2 (by omega)
          omega
      · unfold covers
        rw [lowbit_odd]
        have hlp := lowbit_pos p hp
        omega
    · rw [lowbit_odd]
      unfold covers
      have h2 := even_sub_lowbit j
      omega
theorem prefixSum_zero (arr : Nat → Int) : prefixSum arr 0 = 0 := by
  simp [prefixSum]

theorem prefixSum_split (arr : Nat → Int) (i : Nat) :
    prefixSum arr (i - lowbit i) + nodeSum arr i = prefixSum arr i := by
  unfold prefixSum nodeSum
  exact Finset.sum_Ioc_consecutive arr (Nat.zero_le _) (Nat.sub_le _ _)

theorem sumLoop_spec (n : Nat) (f : List Int) (arr : Nat → Int) (h : Represents n f arr) :
    ∀ (fuel i : Nat) (s : Int), i ≤ n → i ≤ fuel →
      BIT.sumLoop f fuel i s = s + prefixSum arr i := by
  intro fuel
  induction fuel with
  | zero =>
    intro i s _ hf
    have : i = 0 := by omega
    subst this
    simp [BIT.sumLoop, prefixSum_zero]
  | succ fuel ih =>
    intro i s hin hf
    rw [BIT.sumLoop]
    by_cases hi : i > 0
    · rw [if_pos hi]
      have hl := lowbit_pos i hi
      rw [ih (i - lowbit i) _ (by omega) (by omega), h.2 i hi hin, ← prefixSum_split arr i]
      ring
    · rw [if_neg hi]
      have : i = 0 := by omega
      subst this
      simp [prefixSum_zero]

theorem nodeSum_update (arr : Nat → Int) (i₀ : Nat) (v : Int) (j : Nat) :
    nodeSum (Function.update arr i₀ (arr i₀ + v)) j
      = nodeSum arr j + (if covers j i₀ then v else 0) := by
  unfold nodeSum covers
  by_cases hc : j - lowbit j < i₀ ∧ i₀ ≤ j
  · rw [if_pos hc]
    have hmem : i₀ ∈ Finset.Ioc (j - lowbit j) j := Finset.mem_Ioc.2 hc
    rw [Finset.sum_update_of_mem hmem, ← Finset.add_sum_erase _ arr hmem]
    rw [Finset.sdiff_singleton_eq_erase]
    ring
  · rw [if_neg hc, add_zero]
    apply Finset.sum_congr rfl
    intro t ht
    have : t ≠ i₀ := by
      rintro rfl
      exact hc (Finset.mem_Ioc.1 ht)
    simp [Function.update, this]

theorem addLoop_spec (n : Nat) (v : Int) (arr : Nat → Int) (i₀ : Nat) :
    ∀ (fuel i : Nat) (f : List Int), 0 < i → n + 1 - i ≤ fuel →
      (∀ j, i ≤ j → (covers j i₀ ↔ covers j i)) → f.length = n + 1 →
      (∀ j, 0 < j → j ≤ n → f.getD j 0 = nodeSum arr j + (if covers j i₀ ∧ j < i then v else 0)) →
      Represents n (BIT.addLoop n v fuel i f) (Function.update arr i₀ (arr i₀ + v)) := by
  intro fuel
  induction fuel with
  | zero =>
    intro i f hi hf hP hlen hQ
    refine ⟨by simpa [BIT.addLoop] using hlen, ?_⟩
    intro j hj hjn
    rw [BIT.addLoop, hQ j hj hjn, nodeSum_update]
    have : j < i := by omega
    simp [this]
  | succ fuel ih =>
    intro i f hi hf hP hlen hQ
    rw [BIT.addLoop]
    by_cases hin : i ≤ n
    · rw [if_pos hin]
      have hl := lowbit_pos i hi
      apply ih (i + lowbit i) _ (by omega) (by omega)
      · intro j hj
        rw [hP j (by omega)]
        exact covers_step j i hi (by omega)
      · simpa using hlen
      · intro j hj hjn
        by_cases hji : j = i
        · subst hji
          have hc : covers j i₀ := (hP j (le_refl _)).2 ⟨by omega, le_refl _⟩
          rw [List.getD_eq_getElem?_getD, List.getElem?_set_self (by omega)]
          simp only [Option.getD_some]
          rw [hQ j hj hjn]
          simp [hc, hl]
        · rw [List.getD_eq_getElem?_getD, List.getElem?_set_ne (Ne.symm hji),
            ← List.getD_eq_getElem?_getD, hQ j hj hjn]
          congr 1
          by_cases hlt : j < i
          · have : j < i + lowbit i := by omega
            simp [hlt, this]
          · have hij : i < j := by omega
            by_cases hc : covers j i₀
            · have h1 := (covers_step j i hi hij).1 ((hP j (by omega)).1 hc)
              have : ¬ j < i + lowbit i := Nat.not_lt.2 h1.2
              simp [hlt, this]
            · simp [hc]
    · rw [if_neg hin]
      refine ⟨hlen, ?_⟩
      intro j hj hjn
      rw [hQ j hj hjn, nodeSum_update]
      have : j < i := by omega
      simp [this]

theorem Represents_init (n : Nat) : Represents n (BIT.init n).f (fun _ => 0) := by
  refine ⟨by simp [BIT.init], ?_⟩
  intro j _ hjn
  simp [BIT.init, nodeSum, List.getD_eq_getElem?_getD]

theorem BIT_sum_spec (b : BIT) (arr : Nat → Int) (h : Represents b.n b.f arr) (i : Nat)
    (hi : i ≤ b.n) : b.sum i = prefixSum arr i := by
  rw [BIT.sum, sumLoop_spec b.n b.f arr h i i 0 hi (le_refl _), zero_add]

theorem BIT_add_spec (b : BIT) (arr : Nat → Int) (h : Represents b.n b.f arr) (i : Nat) (v : Int)
    (hi : 0 < i) (hin : i ≤ b.n) :
    Represents (b.add i v).n (b.add i v).f (Function.update arr i (arr i + v)) := by
  show Represents b.n (BIT.addLoop b.n v b.n i b.f) _
  apply addLoop_spec b.n v arr i b.n i b.f hi (by omega) (fun _ _ => Iff.rfl) h.1
  intro j hj hjn
  rw [h.2 j hj hjn]
  by_cases hc : covers j i
  · have : ¬ j < i := by
      unfold covers at hc
      omega
    simp [this]
  · simp [hc]

theorem countArr_cons (c : Nat) (S : List Nat) :
    countArr (c :: S) = Function.update (countArr S) c (countArr S c + 1) := by
  funext t
  unfold countArr
  by_cases h : t = c
  · subst h
    simp
  · have h' : c ≠ t := fun e => h e.symm
    simp [Function.update, h, List.count_cons, h']

theorem prefixSum_countArr (S : List Nat) (m : Nat) :
    prefixSum (countArr S) m = (S.countP (fun y => decide (0 < y ∧ y ≤ m)) : Int) := by
  induction S with
  | nil => simp [prefixSum, countArr]
  | cons c S ih =>
    have hsplit : prefixSum (countArr (c :: S)) m
        = prefixSum (countArr S) m + (if 0 < c ∧ c ≤ m then 1 else 0) := by
      unfold prefixSum countArr
      simp only [List.count_cons, Nat.cast_add, Finset.sum_add_distrib]
      congr 1
      by_cases hc : 0 < c ∧ c ≤ m
      · rw [if_pos hc]
        rw [Finset.sum_eq_single c]
        · simp
        · intro t _ htc
          simp [Ne.symm htc]
        · intro hn
          exact absurd (Finset.mem_Ioc.2 hc) hn
      · rw [if_neg hc]
        apply Finset.sum_eq_zero
        intro t ht
        have : c ≠ t := by
          rintro rfl
          exact hc (Finset.mem_Ioc.1 ht)
        simp [this]
    rw [hsplit, ih, List.countP_cons]
    by_cases hc : 0 < c ∧ c ≤ m
    · simp [hc]
    · simp [hc]

theorem sweep_spec (K : Nat) : ∀ (S : List Nat), (∀ c ∈ S, 0 < c ∧ c ≤ K) →
    (sweep K S).1.n = K ∧
    Represents K (sweep K S).1.f (countArr S) ∧
    (sweep K S).2 = (invLN S : Int) := by
  intro S
  induction S with
  | nil =>
    intro _
    refine ⟨rfl, ?_, rfl⟩
    have : countArr [] = fun _ => 0 := by
      funext t
      simp [countArr]
    rw [this]
    exact Represents_init K
  | cons c S ih =>
    intro hS
    obtain ⟨hn, hrep, hinv⟩ := ih (fun c' hc' => hS c' (List.mem_cons_of_mem _ hc'))
    have hc := hS c (List.mem_cons_self _ _)
    have hcons : sweep K (c :: S) = sweepStep c (sweep K S) := rfl
    rw [hcons]
    generalize hst : sweep K S = st at hn hrep hinv
    obtain ⟨b, inv⟩ := st
    simp only at hn hrep hinv
    subst hn
    refine ⟨rfl, ?_, ?_⟩
    · rw [countArr_cons]
      exact BIT_add_spec b (countArr S) hrep c 1 hc.1 hc.2
    · show inv + b.sum (c - 1) = _
      rw [BIT_sum_spec b (countArr S) hrep (c - 1) (by omega), prefixSum_countArr, hinv]
      have hcount : S.countP (fun y => decide (0 < y ∧ y ≤ c - 1))
          = S.countP (fun y => decide (y < c)) := by
        apply List.countP_congr
        intro y hy
        have := (hS y (List.mem_cons_of_mem _ hy)).1
        simp only [decide_eq_true_eq]
        omega
      rw [hcount]
      show _ = ((S.countP (fun y => decide (y < c)) + invLN S : Nat) : Int)
      push_cast
      ring

theorem invLN_map (rank : Int → Nat) : ∀ (a : List Int),
    (∀ x ∈ a, ∀ y ∈ a, (y < x ↔ rank y < rank x)) → invLN (a.map rank) = invL a := by
  intro a
  induction a with
  | nil => intro _; rfl
  | cons x a ih =>
    intro h
    have h1 : invLN ((x :: a).map rank)
        = (a.map rank).countP (fun y => decide (y < rank x)) + invLN (a.map rank) := rfl
    have h2 : invL (x :: a) = a.countP (fun y => decide (y < x)) + invL a := rfl
    rw [h1, h2, ih (fun u hu w hw => h u (List.mem_cons_of_mem _ hu) w (List.mem_cons_of_mem _ hw)),
      List.countP_map]
    congr 1
    apply List.countP_congr
    intro y hy
    simp only [Function.comp, decide_eq_true_eq]
    exact (h x (List.mem_cons_self _ _) y (List.mem_cons_of_mem _ hy)).symm

theorem sort_sorted (a : List Int) : (sort a).Sorted (· ≤ ·) :=
  List.sorted_insertionSort (fun x y : Int => x ≤ y) a

theorem sort_perm (a : List Int) : (sort a).Perm a :=
  List.perm_insertionSort (fun x y : Int => x ≤ y) a

theorem unique_sublist : ∀ (l : List Int), (unique l).Sublist l
  | [] => List.Sublist.refl _
  | [_] => List.Sublist.refl _
  | x :: y :: t => by
    rw [unique]
    split
    · exact (unique_sublist (y :: t)).cons x
    · exact (unique_sublist (y :: t)).cons₂ x

theorem mem_unique : ∀ (l : List Int) (z : Int), z ∈ unique l ↔ z ∈ l
  | [], z => by simp [unique]
  | [_], z => by simp [unique]
  | x :: y :: t, z => by
    rw [unique]
    have ih := mem_unique (y :: t) z
    split
    · rename_i hxy
      subst hxy
      rw [ih]
      simp
    · rw [List.mem_cons, ih, List.mem_cons (a := z) (b := x)]

theorem lower_bound_eq_countP (x : Int) : ∀ (v : List Int), v.Sorted (· ≤ ·) →
    lower_bound v x = v.countP (fun y => decide (y < x)) := by
  intro v
  induction v with
  | nil => intro _; rfl
  | cons y v ih =>
    intro hs
    have hs' := List.sorted_cons.1 hs
    unfold lower_bound at ih ⊢
    rw [List.findIdx_cons, List.countP_cons]
    by_cases hyx : y < x
    · simp [hyx, ih hs'.2]
    · have hz : v.countP (fun z => decide (z < x)) = 0 := by
        rw [List.countP_eq_zero]
        intro z hz
        have := hs'.1 z hz
        simp only [decide_eq_true_eq]
        omega
      simp [hyx, hz]

theorem countP_lt_mono (v : List Int) (x y : Int) (hy : y ∈ v) :
    (y < x ↔ v.countP (fun z => decide (z < y)) < v.countP (fun z => decide (z < x))) := by
  constructor
  · intro hyx
    induction v with
    | nil => simp at hy
    | cons w v ih =>
      have hmono : ∀ (u : List Int), u.countP (fun z => decide (z < y))
          ≤ u.countP (fun z => decide (z < x)) := by
        intro u
        apply List.countP_mono_left
        intro z _ hz
        simp only [decide_eq_true_eq] at hz ⊢
        omega
      rw [List.countP_cons, List.countP_cons]
      rcases List.mem_cons.1 hy with h | h
      · subst h
        have := hmono v
        simp [hyx]
        omega
      · have := ih h
        by_cases hwy : w < y
        · have hwx : w < x := by omega
          simp [hwy, hwx]
          exact this
        · simp only [hwy, decide_False, Bool.false_eq_true, if_false, add_zero]
          split <;> omega
  · intro hlt
    by_contra hn
    have hxy : x ≤ y := by omega
    have : v.countP (fun z => decide (z < x)) ≤ v.countP (fun z => decide (z < y)) := by
      apply List.countP_mono_left
      intro z _ hz
      simp only [decide_eq_true_eq] at hz ⊢
      omega
    omega

theorem countP_lt_length (v : List Int) (x : Int) (hx : x ∈ v) :
    v.countP (fun z => decide (z < x)) < v.length := by
  induction v with
  | nil => simp at hx
  | cons w v ih =>
    rw [List.countP_cons, List.length_cons]
    rcases List.mem_cons.1 hx with h | h
    · subst h
      have := List.countP_le_length (fun z => decide (z < x)) (l := v)
      simp
      omega
    · have := ih h
      split <;> omega

theorem mem_unique_sort (a : List Int) (x : Int) : x ∈ unique (sort a) ↔ x ∈ a := by
  rw [mem_unique, (sort_perm a).mem_iff]

theorem unique_sort_sorted (a : List Int) : (unique (sort a)).Sorted (· ≤ ·) :=
  (sort_sorted a).sublist (unique_sublist _)

theorem bit_count_inversions_eq_invL (a : List Int) :
    bit_count_inversions a = (invL a : Int) := by
  have hv := unique_sort_sorted a
  have hrank : ∀ x, lower_bound (unique (sort a)) x + 1
      = (unique (sort a)).countP (fun z => decide (z < x)) + 1 := by
    intro x
    rw [lower_bound_eq_countP x _ hv]
  have hbound : ∀ c ∈ compress a, 0 < c ∧ c ≤ (unique (sort a)).length := by
    intro c hc
    unfold compress at hc
    simp only [List.mem_map] at hc
    obtain ⟨x, hx, rfl⟩ := hc
    rw [hrank]
    have := countP_lt_length _ x ((mem_unique_sort a x).2 hx)
    omega
  have h := (sweep_spec (unique (sort a)).length (compress a) hbound).2.2
  unfold bit_count_inversions
  simp only
  rw [h]
  congr 1
  unfold compress
  simp only
  apply invLN_map
  intro x _ y hy
  rw [hrank, hrank, countP_lt_mono _ x y ((mem_unique_sort a y).2 hy)]
  omega

theorem drop_append_cons {α : Type} (A B : List α) (x : α) (k : Nat) (hk : k = A.length + 1) :
    (A ++ x :: B).drop k = B := by
  subst hk
  induction A with
  | nil => rfl
  | cons b A ih => simp

theorem rank_eq (a : List Int) (x : Int) : lower_bound (unique (sort a)) x + 1
    = (unique (sort a)).countP (fun z => decide (z < x)) + 1 := by
  rw [lower_bound_eq_countP x _ (unique_sort_sorted a)]

theorem compress_bound (a : List Int) :
    ∀ c ∈ compress a, 0 < c ∧ c ≤ (unique (sort a)).length := by
  intro c hc
  unfold compress at hc
  simp only [List.mem_map] at hc
  obtain ⟨x, hx, rfl⟩ := hc
  rw [rank_eq]
  have := countP_lt_length _ x ((mem_unique_sort a x).2 hx)
  omega

theorem rank_lt_iff (a : List Int) (x y : Int) (hy : y ∈ a) :
    (y < x ↔ lower_bound (unique (sort a)) y + 1 < lower_bound (unique (sort a)) x + 1) := by
  rw [rank_eq, rank_eq, countP_lt_mono _ x y ((mem_unique_sort a y).2 hy)]
  omega

theorem sweepAdded_eq (pre post : List Int) (x : Int) :
    sweepAdded (pre ++ x :: post) pre.length = (post.countP (fun y => decide (y < x)) : Int) := by
  generalize ha : pre ++ x :: post = a
  have hcomp : compress a = pre.map (fun y => lower_bound (unique (sort a)) y + 1)
      ++ (lower_bound (unique (sort a)) x + 1)
        :: post.map (fun y => lower_bound (unique (sort a)) y + 1) := by
    unfold compress
    simp only
    rw [← ha, List.map_append, List.map_cons]
  have hdrop : (compress a).drop (pre.length + 1)
      = post.map (fun y => lower_bound (unique (sort a)) y + 1) := by
    rw [hcomp]
    exact drop_append_cons _ _ _ _ (by simp)
  have hget : (compress a).getD pre.length 0 = lower_bound (unique (sort a)) x + 1 := by
    rw [hcomp]
    exact getD_append_cons _ _ _ _ _ (by simp)
  have hpost : ∀ y ∈ post, y ∈ a := by
    intro y hy
    rw [← ha]
    simp [hy]
  have hbound : ∀ c ∈ post.map (fun y => lower_bound (unique (sort a)) y + 1),
      0 < c ∧ c ≤ (unique (sort a)).length := by
    intro c hc
    apply compress_bound a c
    rw [hcomp]
    exact List.mem_append_right _ (List.mem_cons_of_mem _ hc)
  have hx : lower_bound (unique (sort a)) x + 1 ≤ (unique (sort a)).length :=
    (compress_bound a _ (by rw [hcomp]; simp)).2
  obtain ⟨hn, hrep, -⟩ := sweep_spec (unique (sort a)).length _ hbound
  unfold sweepAdded
  simp only
  rw [hdrop, hget]
  generalize hst : sweep (unique (sort a)).length
    (post.map (fun y => lower_bound (unique (sort a)) y + 1)) = st at hn hrep
  obtain ⟨b, inv⟩ := st
  simp only at hn hrep ⊢
  rw [← hn] at hrep hx
  rw [BIT_sum_spec b _ hrep _ (by omega), prefixSum_countArr, List.countP_map]
  congr 1
  apply List.countP_congr
  intro y hy
  simp only [Function.comp, decide_eq_true_eq]
  have := rank_lt_iff a x y (hpost y hy)
  omega

/-- C2: for every sequence `a` of integers, duplicates allowed, `bit_count_inversions(a)` is
the number of index pairs `i < j` with `a[i] > a[j]`; and at every position (the one of `x`
in `pre ++ x :: post`) the right-to-left sweep adds the number of values to its right that
are strictly smaller. -/
theorem bit_count_inversions_eq_inversions :
    (∀ a : List Int, bit_count_inversions a = (inversions a : Int)) ∧
    (∀ (pre post : List Int) (x : Int), sweepAdded (pre ++ x :: post) pre.length
      = (post.countP (fun y => decide (y < x)) : Int)) := by
  refine ⟨fun a => ?_, sweepAdded_eq⟩
  rw [bit_count_inversions_eq_invL, inversions_eq_invL]

theorem merge_count_eq_bit_count (a : List Int) : merge_count a = bit_count_inversions a := by
  rw [bit_count_inversions_eq_invL, merge_count_eq_invL]

/-- C3: for every permutation `a` of `1..n`, `n ≥ 0`, the merge-sort count and the Fenwick
count of `three_way_inv(a)` agree. (They agree on every sequence; the hypothesis is the one
of the claim.) -/
theorem three_way_inv_merge_eq_bit (n : Nat) (a : List Int) (_h : IsPermutation n a) :
    (three_way_inv a).merge_inv = (three_way_inv a).bit_inv :=
  merge_count_eq_bit_count a

/-- An instance of C3: the permutation `[2, 3, 1]` of `1..3`. -/
theorem three_way_inv_merge_eq_bit_witness :
    IsPermutation 3 [2, 3, 1] ∧
      (three_way_inv [2, 3, 1]).merge_inv = (three_way_inv [2, 3, 1]).bit_inv :=
  ⟨by decide, three_way_inv_merge_eq_bit 3 [2, 3, 1] (by decide)⟩
/-! ## Theorems on the quicksort-partition counter -/

theorem pivotPairs_eq_sum (p : Int) (a : List Int) :
    pivotPairs p a = ∑ i in Finset.range a.length, ∑ j in Finset.range a.length,
      if i < j ∧ a.getD i 0 > a.getD j 0 ∧ (a.getD i 0 = p ∨ a.getD j 0 = p) then 1 else 0 := by
  unfold pivotPairs
  rw [Finset.card_filter, Finset.sum_product]

theorem pivotPairs_eq_pivL (p : Int) (a : List Int) : pivotPairs p a = pivL p a := by
  induction a with
  | nil => simp [pivotPairs, pivL]
  | cons x xs ih =>
    rw [pivL, ← ih, pivotPairs_eq_sum, pivotPairs_eq_sum]
    rw [List.length_cons, Finset.sum_range_succ']
    simp only [Finset.sum_range_succ' _ xs.length]
    simp only [List.getD_cons_succ, List.getD_cons_zero, Nat.succ_lt_succ_iff, Nat.zero_lt_succ,
      lt_self_iff_false, false_and, if_false, add_zero, Nat.not_lt_zero, true_and,
      Finset.sum_const_zero]
    rw [add_comm]
    congr 1
    by_cases hx : x = p
    · subst hx
      rw [if_pos rfl, countP_eq_sum_range]
      apply Finset.sum_congr rfl
      intro j _
      generalize xs.getD j 0 = y
      simp only [decide_eq_true_eq]
      exact if_congr ⟨fun h => h.1, fun h => ⟨h, Or.inl trivial⟩⟩ rfl rfl
    · rw [if_neg hx]
      by_cases hg : x > p
      · rw [if_pos hg, countP_eq_sum_range]
        apply Finset.sum_congr rfl
        intro j _
        generalize xs.getD j 0 = y
        simp only [decide_eq_true_eq]
        exact if_congr (by omega) rfl rfl
      · rw [if_neg hg]
        apply Finset.sum_eq_zero
        intro j _
        generalize xs.getD j 0 = y
        rw [if_neg]
        omega

theorem countP_lt_split (x p : Int) (xs : List Int) :
    xs.countP (fun y => decide (y < x))
      = (xs.filter (fun y => decide (y < p))).countP (fun y => decide (y < x))
        + (xs.filter (fun y => decide (y > p))).countP (fun y => decide (y < x))
        + (if p < x then xs.countP (fun y => decide (y = p)) else 0) := by
  induction xs with
  | nil => simp
  | cons y ys ih =>
    simp only [List.filter_cons, List.countP_cons, decide_eq_true_eq]
    rw [ih]
    rcases lt_trichotomy y p with h | h | h
    · have h1 : ¬ y > p := by omega
      have h2 : ¬ y = p := by omega
      simp only [h, h1, h2, if_true, if_false, List.countP_cons, decide_eq_true_eq]
      split_ifs <;> omega
    · subst h
      simp only [lt_self_iff_false, gt_iff_lt, if_false, if_true]
      split_ifs <;> omega
    · have h1 : ¬ y < p := by omega
      have h2 : ¬ y = p := by omega
      simp only [h, h1, h2, gt_iff_lt, if_true, if_false, List.countP_cons, decide_eq_true_eq]
      split_ifs <;> omega

theorem countP_filter_zero (q r : Int → Bool) (xs : List Int) (h : ∀ y, q y = true → r y = false) :
    (xs.filter q).countP r = 0 := by
  rw [List.countP_eq_zero]
  intro y hy
  have := h y (List.mem_filter.1 hy).2
  simp [this]

theorem invL_partition (p : Int) (a : List Int) :
    invL a = invL (a.filter (fun y => decide (y < p))) + invL (a.filter (fun y => decide (y > p)))
      + crossGL p a + pivL p a := by
  induction a with
  | nil => rfl
  | cons x xs ih =>
    have h1 : invL (x :: xs) = xs.countP (fun y => decide (y < x)) + invL xs := rfl
    have h2 : crossGL p (x :: xs)
        = (if x > p then xs.countP (fun y => decide (y < p)) else 0) + crossGL p xs := rfl
    have h3 : pivL p (x :: xs) = (if x = p then xs.countP (fun y => decide (y < p))
      else if x > p then xs.countP (fun y => decide (y = p)) else 0) + pivL p xs := rfl
    have hinv : ∀ (z : Int) (zs : List Int),
        invL (z :: zs) = zs.countP (fun y => decide (y < z)) + invL zs := fun _ _ => rfl
    rw [h1, h2, h3, ih, countP_lt_split x p xs]
    simp only [List.filter_cons, decide_eq_true_eq]
    rcases lt_trichotomy x p with h | h | h
    · have e1 : ¬ x > p := by omega
      have e2 : ¬ x = p := by omega
      have e3 : ¬ p < x := by omega
      have z1 : (xs.filter (fun y => decide (y > p))).countP (fun y => decide (y < x)) = 0 :=
        countP_filter_zero _ _ _ (by intro y hy; simp at hy ⊢; omega)
      simp only [h, e1, e2, e3, if_true, if_false, hinv, z1]
      omega
    · subst h
      have z1 : (xs.filter (fun y => decide (y > x))).countP (fun y => decide (y < x)) = 0 :=
        countP_filter_zero _ _ _ (by intro y hy; simp at hy ⊢; omega)
      have z2 : (xs.filter (fun y => decide (y < x))).countP (fun y => decide (y < x))
          = xs.countP (fun y => decide (y < x)) := by
        rw [List.countP_filter]
        apply List.countP_congr
        intro y _
        simp
      simp only [lt_self_iff_false, gt_iff_lt, if_false, if_true, z1, z2]
      omega
    · have e1 : ¬ x < p := by omega
      have e2 : ¬ x = p := by omega
      have z2 : (xs.filter (fun y => decide (y < p))).countP (fun y => decide (y < x))
          = xs.countP (fun y => decide (y < p)) := by
        rw [List.countP_filter]
        apply List.countP_congr
        intro y _
        simp only [Bool.and_eq_true, decide_eq_true_eq]
        omega
      simp only [h, e1, e2, gt_iff_lt, if_true, if_false, hinv, z2]
      omega

theorem foldl_partStep (p : Int) : ∀ (a : List Int) (st : PartState),
    a.foldl (partStep p) st =
      { less := st.less ++ a.filter (fun y => decide (y < p)),
        equal := st.equal ++ a.filter (fun y => decide (y = p)),
        greater := st.greater ++ a.filter (fun y => decide (y > p)),
        seen_greater := st.seen_greater + (a.countP (fun y => decide (y > p)) : Int),
        cross := st.cross + st.seen_greater * (a.countP (fun y => decide (y < p)) : Int)
          + (crossGL p a : Int) } := by
  intro a
  induction a with
  | nil =>
    intro st
    simp [crossGL]
  | cons x xs ih =>
    intro st
    have h2 : crossGL p (x :: xs)
        = (if x > p then xs.countP (fun y => decide (y < p)) else 0) + crossGL p xs := rfl
    rw [List.foldl_cons, ih, h2]
    rcases lt_trichotomy x p with h | h | h
    · have e1 : ¬ x > p := by omega
      have e2 : ¬ x = p := by omega
      simp only [partStep, h, e1, e2, if_true, if_false, List.filter_cons, List.countP_cons,
        decide_True, decide_False, List.append_assoc, List.singleton_append, List.append_nil,
        Bool.false_eq_true]
      congr 1
      push_cast
      ring
    · subst h
      simp only [partStep, lt_self_iff_false, gt_iff_lt, if_true, if_false, List.filter_cons,
        List.countP_cons, decide_True, decide_False, List.append_assoc, List.singleton_append,
        List.append_nil, Bool.false_eq_true]
      congr 1
      push_cast
      ring
    · have e1 : ¬ x < p := by omega
      have e2 : ¬ x = p := by omega
      simp only [partStep, h, e1, e2, gt_iff_lt, if_true, if_false, List.filter_cons,
        List.countP_cons, decide_True, decide_False, List.append_assoc, List.singleton_append,
        List.append_nil, Bool.false_eq_true]
      congr 1 <;> (push_cast; ring)

theorem partition_eq (p : Int) (a : List Int) :
    partition p a =
      { less := a.filter (fun y => decide (y < p)),
        equal := a.filter (fun y => decide (y = p)),
        greater := a.filter (fun y => decide (y > p)),
        seen_greater := (a.countP (fun y => decide (y > p)) : Int),
        cross := (crossGL p a : Int) } := by
  unfold partition
  rw [foldl_partStep]
  simp

theorem quick_fuel_nil (fuel : Nat) : quick_partition_count_fuel fuel [] = 0 := by
  cases fuel <;> simp [quick_partition_count_fuel]

theorem pivot_inversions_fuel_nil (fuel : Nat) : pivot_inversions_fuel fuel [] = 0 := by
  cases fuel <;> simp [pivot_inversions_fuel]

theorem getD_mem_of_lt {α : Type} (a : List α) (i : Nat) (d : α) (h : i < a.length) :
    a.getD i d ∈ a := by
  rw [List.getD_eq_getElem _ _ h]
  exact List.getElem_mem _

theorem length_filter_lt_of_mem (q : Int → Bool) (a : List Int) (p : Int) (hp : p ∈ a)
    (hq : q p = false) : (a.filter q).length < a.length := by
  induction a with
  | nil => simp at hp
  | cons x xs ih =>
    rcases List.mem_cons.1 hp with h | h
    · subst h
      rw [List.filter_cons_of_neg (by simp [hq])]
      exact Nat.lt_succ_of_le (List.length_filter_le _ _)
    · have := ih h
      rw [List.filter_cons]
      split
      · simpa using this
      · simp only [List.length_cons]
        omega

theorem quick_fuel_spec : ∀ (fuel : Nat) (a : List Int), a.length ≤ fuel →
    quick_partition_count_fuel fuel a + (pivot_inversions_fuel fuel a : Int) = (invL a : Int) := by
  intro fuel
  induction fuel with
  | zero =>
    intro a ha
    have : a = [] := List.length_eq_zero.1 (by omega)
    subst this
    simp [quick_partition_count_fuel, pivot_inversions_fuel, invL]
  | succ fuel ih =>
    intro a ha
    by_cases hs : a.length ≤ 1
    · simp [quick_partition_count_fuel, pivot_inversions_fuel, hs, invL_of_length_le_one a hs]
    · have hmem : a.getD (a.length / 2) 0 ∈ a := getD_mem_of_lt a _ 0 (by omega)
      generalize hp : a.getD (a.length / 2) 0 = p at hmem
      have hl := length_filter_lt_of_mem (fun y => decide (y < p)) a p hmem (by simp)
      have hg := length_filter_lt_of_mem (fun y => decide (y > p)) a p hmem (by simp)
      have ihl := ih (a.filter (fun y => decide (y < p))) (by omega)
      have ihg := ih (a.filter (fun y => decide (y > p))) (by omega)
      have hq : quick_partition_count_fuel (fuel + 1) a = (crossGL p a : Int)
          + quick_partition_count_fuel fuel (a.filter (fun y => decide (y < p)))
          + quick_partition_count_fuel fuel (a.filter (fun y => decide (y > p))) := by
        rw [quick_partition_count_fuel, if_neg hs]
        simp only [hp, partition_eq]
        by_cases h1 : a.filter (fun y => decide (y < p)) = []
        · by_cases h2 : a.filter (fun y => decide (y > p)) = []
          · simp [h1, h2, quick_fuel_nil]
          · simp [h1, h2, quick_fuel_nil]
        · by_cases h2 : a.filter (fun y => decide (y > p)) = []
          · simp [h1, h2, quick_fuel_nil]
          · simp [h1, h2]
      have hm : pivot_inversions_fuel (fuel + 1) a = pivL p a
          + pivot_inversions_fuel fuel (a.filter (fun y => decide (y < p)))
          + pivot_inversions_fuel fuel (a.filter (fun y => decide (y > p))) := by
        rw [pivot_inversions_fuel, if_neg hs]
        simp only [hp, pivotPairs_eq_pivL]
      rw [hq, hm, invL_partition p a]
      push_cast
      linarith

/-- The form of C4 that holds: on every sequence `a` of integers, so also on every permutation
of `1..N`, `quick_partition_count(a)` and the number of inverted pairs that involve a pivot of
its recursion add up to the number of index pairs `i < j` with `a[i] > a[j]`, which is
`merge_count(a)`; the counter leaves out exactly the inverted pairs with a pivot. -/
theorem quick_partition_count_add_pivot_inversions (a : List Int) :
    quick_partition_count a + (pivot_inversions a : Int) = (inversions a : Int) ∧
    quick_partition_count a + (pivot_inversions a : Int) = merge_count a := by
  have h : quick_partition_count a + (pivot_inversions a : Int) = (invL a : Int) := by
    rw [quick_partition_count, pivot_inversions, quick_fuel_spec a.length a (le_refl _)]
  exact ⟨by rw [h, inversions_eq_invL], by rw [h, merge_count_eq_invL]⟩

/-- C4 fails as stated: `[2, 1]` is a permutation of `1..2` without duplicate values, it has
one inversion, which `merge_count` reports, and `quick_partition_count` returns `0`. -/
theorem quick_partition_count_ne_inversions :
    IsPermutation 2 [2, 1] ∧ ([2, 1] : List Int).Nodup ∧
      quick_partition_count [2, 1] = 0 ∧ (inversions [2, 1] : Int) = 1 ∧
      merge_count [2, 1] = 1 ∧
      quick_partition_count [2, 1] ≠ (inversions [2, 1] : Int) ∧
      quick_partition_count [2, 1] ≠ merge_count [2, 1] := by
  decide
/-! ## Theorems on the pipeline of `main` -/

section PipelineTheorems

set_option linter.unusedSectionVars false
variable {ι : Type} [LinearOrder ι] {β : Type} {D : Type} [LinearOrder D]

theorem umap_find_assign (m : List (ι × β)) (k k' : ι) (v : β) :
    umap_find (umap_assign m k v) k' = if k = k' then some v else umap_find m k' := by
  induction m with
  | nil => simp [umap_assign, umap_find]
  | cons e t ih =>
    obtain ⟨k₀, v₀⟩ := e
    by_cases h : k₀ = k
    · subst h
      by_cases h' : k₀ = k' <;> simp [umap_assign, umap_find, h']
    · by_cases h' : k₀ = k'
      · subst h'
        simp [umap_assign, umap_find, h, Ne.symm h]
      · simp [umap_assign, umap_find, h, h', ih]

theorem umap_find_eq_none (m : List (ι × β)) (k : ι) :
    umap_find m k = none ↔ k ∉ umap_keys m := by
  induction m with
  | nil => simp [umap_find, umap_keys]
  | cons e t ih =>
    obtain ⟨k₀, v₀⟩ := e
    by_cases h : k₀ = k
    · simp [umap_find, umap_keys, h]
    · have h' : ¬ k = k₀ := fun e => h e.symm
      simp only [umap_find, h, if_false, ih, umap_keys, List.map_cons, List.mem_cons, h',
        false_or]

theorem umap_keys_assign_nodup (m : List (ι × β)) (k : ι) (v : β) (h : (umap_keys m).Nodup) :
    (umap_keys (umap_assign m k v)).Nodup ∧
      ∀ k', k' ∈ umap_keys (umap_assign m k v) ↔ k' = k ∨ k' ∈ umap_keys m := by
  induction m with
  | nil => simp [umap_assign, umap_keys]
  | cons e t ih =>
    obtain ⟨k₀, v₀⟩ := e
    have hn : k₀ ∉ umap_keys t ∧ (umap_keys t).Nodup := by
      simpa [umap_keys] using h
    obtain ⟨ih1, ih2⟩ := ih hn.2
    by_cases hk : k₀ = k
    · subst hk
      constructor
      · simpa [umap_assign, umap_keys] using h
      · intro k'
        simp [umap_assign, umap_keys]
    · constructor
      · have : k₀ ∉ umap_keys (umap_assign t k v) := by
          rw [ih2]
          simp [hk, hn.1]
        simp only [umap_assign, hk, if_false, umap_keys, List.map_cons, List.nodup_cons]
        exact ⟨this, ih1⟩
      · intro k'
        have := ih2 k'
        simp only [umap_keys] at this
        simp only [umap_assign, hk, if_false, umap_keys, List.map_cons, List.mem_cons, this]
        tauto

theorem mem_foldl_uset_insert (list : List ι) : ∀ (u : List ι) (x : ι),
    x ∈ list.foldl uset_insert u ↔ x ∈ u ∨ x ∈ list := by
  induction list with
  | nil => simp
  | cons y rest ih =>
    intro u x
    rw [List.foldl_cons, ih]
    unfold uset_insert
    split
    · rename_i hy
      simp only [List.mem_cons]
      constructor
      · rintro (h | h)
        · exact Or.inl h
        · exact Or.inr (Or.inr h)
      · rintro (h | h | h)
        · exact Or.inl h
        · exact Or.inl (h ▸ hy)
        · exact Or.inr h
    · simp only [List.mem_append, List.mem_singleton, List.mem_cons]
      tauto

theorem nodup_foldl_uset_insert (list : List ι) : ∀ (u : List ι), u.Nodup →
    (list.foldl uset_insert u).Nodup := by
  induction list with
  | nil => simp
  | cons y rest ih =>
    intro u hu
    rw [List.foldl_cons]
    apply ih
    unfold uset_insert
    split
    · exact hu
    · rename_i hy
      rw [List.nodup_append]
      refine ⟨hu, List.nodup_singleton _, ?_⟩
      intro a ha hb
      rw [List.mem_singleton] at hb
      exact hy (hb ▸ ha)

theorem universe_foldl (src : List (List ι)) : ∀ (u : List ι), u.Nodup →
    (src.foldl (fun u list => list.foldl uset_insert u) u).Nodup ∧
    ∀ x, x ∈ src.foldl (fun u list => list.foldl uset_insert u) u ↔ x ∈ u ∨ ∃ l ∈ src, x ∈ l := by
  induction src with
  | nil => intro u hu; simp [hu]
  | cons l rest ih =>
    intro u hu
    rw [List.foldl_cons]
    obtain ⟨h1, h2⟩ := ih (l.foldl uset_insert u) (nodup_foldl_uset_insert l u hu)
    refine ⟨h1, ?_⟩
    intro x
    rw [h2, mem_foldl_uset_insert]
    simp only [List.mem_cons, exists_eq_or_imp]
    tauto

theorem universe_nodup (src : List (List ι)) : (universe_set src).Nodup :=
  (universe_foldl src [] List.nodup_nil).1

theorem mem_universe (src : List (List ι)) (x : ι) :
    x ∈ universe_set src ↔ ∃ l ∈ src, x ∈ l := by
  unfold universe_set
  rw [(universe_foldl src [] List.nodup_nil).2]
  simp

theorem foldl_assign_const (c : β) (L : List ι) : ∀ (m : List (ι × β)), (umap_keys m).Nodup →
    (umap_keys (L.foldl (fun m item => umap_assign m item c) m)).Nodup ∧
    ∀ x, umap_find (L.foldl (fun m item => umap_assign m item c) m) x
      = if x ∈ L then some c else umap_find m x := by
  induction L with
  | nil => intro m hm; simp [hm]
  | cons y rest ih =>
    intro m hm
    rw [List.foldl_cons]
    obtain ⟨h1, h2⟩ := ih (umap_assign m y c) (umap_keys_assign_nodup m y c hm).1
    refine ⟨h1, ?_⟩
    intro x
    rw [h2, umap_find_assign]
    by_cases hx : x ∈ rest
    · simp [hx]
    · by_cases hy : y = x
      · simp [hy]
      · have : ¬ x = y := fun e => hy e.symm
        simp [hx, hy, this]

theorem ranks_init_find (src : List (List ι)) (x : ι) :
    umap_find (ranks_init src) x = if x ∈ universe_set src
      then some (List.replicate src.length (missing_rank src)) else none := by
  unfold ranks_init
  rw [(foldl_assign_const _ (universe_set src) [] (by simp [umap_keys])).2]
  rfl

theorem ranks_init_keys_nodup (src : List (List ι)) : (umap_keys (ranks_init src)).Nodup := by
  unfold ranks_init
  exact (foldl_assign_const _ (universe_set src) [] (by simp [umap_keys])).1

theorem rank_set_find (m : List (ι × List Int)) (item x : ι) (s : Nat) (v : Int) :
    umap_find (rank_set m item s v) x =
      if item = x then some (match umap_find m item with
        | some vec => vec.set s v
        | none => [])
      else umap_find m x := by
  unfold rank_set
  cases h : umap_find m item with
  | none => simp [umap_find_assign]
  | some vec => simp [umap_find_assign]

theorem rank_set_keys_nodup (m : List (ι × List Int)) (item : ι) (s : Nat) (v : Int)
    (h : (umap_keys m).Nodup) : (umap_keys (rank_set m item s v)).Nodup := by
  unfold rank_set
  cases umap_find m item with
  | none => exact (umap_keys_assign_nodup m item _ h).1
  | some vec => exact (umap_keys_assign_nodup m item _ h).1

theorem fill_source_keys_nodup (s : Nat) (list : List ι) : ∀ (i : Nat) (m : List (ι × List Int)),
    (umap_keys m).Nodup → (umap_keys (fill_source s i list m)).Nodup := by
  induction list with
  | nil => intro i m h; exact h
  | cons y rest ih =>
    intro i m h
    exact ih (i + 1) _ (rank_set_keys_nodup m y s _ h)

theorem fill_all_keys_nodup (rest : List (List ι)) : ∀ (s : Nat) (m : List (ι × List Int)),
    (umap_keys m).Nodup → (umap_keys (fill_all s rest m)).Nodup := by
  induction rest with
  | nil => intro s m h; exact h
  | cons l rest ih =>
    intro s m h
    exact ih (s + 1) _ (fill_source_keys_nodup s l 0 m h)

theorem fill_source_find (s : Nat) (list : List ι) : ∀ (i : Nat) (m : List (ι × List Int)) (x : ι)
    (vec : List Int), umap_find m x = some vec →
    umap_find (fill_source s i list m) x
      = some (if x ∈ list then vec.set s ((i : Int) + (lastIdx x list : Int) + 1) else vec) := by
  induction list with
  | nil => intro i m x vec h; simpa [fill_source] using h
  | cons y rest ih =>
    intro i m x vec h
    rw [fill_source]
    by_cases hy : y = x
    · subst hy
      have h1 : umap_find (rank_set m y s ((i : Int) + 1)) y
          = some (vec.set s ((i : Int) + 1)) := by
        rw [rank_set_find, h]
        simp
      rw [ih (i + 1) _ y _ h1]
      by_cases hr : y ∈ rest
      · simp only [hr, if_true, List.mem_cons, true_or, lastIdx, List.set_set]
        congr 2
        push_cast
        ring
      · simp [hr, lastIdx]
    · have h1 : umap_find (rank_set m y s ((i : Int) + 1)) x = some vec := by
        rw [rank_set_find, if_neg hy, h]
      rw [ih (i + 1) _ x _ h1]
      have hxy : ¬ x = y := fun e => hy e.symm
      by_cases hr : x ∈ rest
      · simp only [hr, if_true, List.mem_cons, or_true, lastIdx]
        congr 2
        push_cast
        ring
      · simp [hr, hxy]

theorem fill_source_find_none (s : Nat) (list : List ι) : ∀ (i : Nat) (m : List (ι × List Int))
    (x : ι), x ∉ list → umap_find (fill_source s i list m) x = umap_find m x := by
  induction list with
  | nil => intro i m x _; rfl
  | cons y rest ih =>
    intro i m x hx
    rw [fill_source, ih (i + 1) _ x (fun h => hx (List.mem_cons_of_mem _ h)), rank_set_find,
      if_neg (fun e : y = x => hx (e ▸ List.mem_cons_self _ _))]

theorem getD_set (vec : List Int) (k s : Nat) (v d : Int) :
    (vec.set k v).getD s d = if s = k ∧ k < vec.length then v else vec.getD s d := by
  rw [List.getD_eq_getElem?_getD, List.getD_eq_getElem?_getD, List.getElem?_set]
  by_cases h : k = s
  · subst h
    by_cases h2 : k < vec.length
    · simp [h2]
    · simp [h2]
      rw [List.getElem?_eq_none (by omega)]
      rfl
  · have : ¬ s = k := fun e => h e.symm
    simp [h, this]

theorem fill_all_find (rest : List (List ι)) : ∀ (s₀ : Nat) (m : List (ι × List Int)) (x : ι)
    (vec : List Int), umap_find m x = some vec →
    ∃ vec', umap_find (fill_all s₀ rest m) x = some vec' ∧ vec'.length = vec.length ∧
      ∀ s, vec'.getD s 0 = if s₀ ≤ s ∧ s < vec.length ∧ x ∈ rest.getD (s - s₀) []
        then (lastIdx x (rest.getD (s - s₀) []) : Int) + 1 else vec.getD s 0 := by
  induction rest with
  | nil =>
    intro s₀ m x vec h
    exact ⟨vec, h, rfl, by simp⟩
  | cons l rest ih =>
    intro s₀ m x vec h
    have h1 := fill_source_find s₀ l 0 m x vec h
    obtain ⟨vec', e, hl, hg⟩ := ih (s₀ + 1) _ x _ h1
    refine ⟨vec', e, ?_, ?_⟩
    · rw [hl]
      split <;> simp
    · intro s
      rw [hg s]
      have hlen : (if x ∈ l then vec.set s₀ (((0 : Nat) : Int) + (lastIdx x l : Int) + 1)
          else vec).length = vec.length := by
        split <;> simp
      rw [hlen]
      rcases Nat.lt_trichotomy s s₀ with hs | hs | hs
      · have c1 : ¬ (s₀ + 1 ≤ s ∧ s < vec.length ∧ x ∈ rest.getD (s - (s₀ + 1)) []) := by omega
        have c2 : ¬ (s₀ ≤ s ∧ s < vec.length ∧ x ∈ (l :: rest).getD (s - s₀) []) := by omega
        rw [if_neg c1, if_neg c2]
        split
        · rw [getD_set, if_neg (by omega)]
        · rfl
      · subst hs
        have c1 : ¬ (s + 1 ≤ s ∧ s < vec.length ∧ x ∈ rest.getD (s - (s + 1)) []) := by omega
        rw [if_neg c1]
        simp only [Nat.sub_self, List.getD_cons_zero, le_refl, true_and]
        by_cases hx : x ∈ l
        · rw [if_pos hx, getD_set]
          by_cases hv : s < vec.length
          · simp [hv, hx]
          · simp [hv]
        · simp [hx]
      · have e1 : s - s₀ = (s - (s₀ + 1)) + 1 := by omega
        have e2 : (l :: rest).getD (s - s₀) [] = rest.getD (s - (s₀ + 1)) [] := by
          rw [e1, List.getD_cons_succ]
        rw [e2]
        have e3 : (if x ∈ l then vec.set s₀ (((0 : Nat) : Int) + (lastIdx x l : Int) + 1)
            else vec).getD s 0 = vec.getD s 0 := by
          split
          · rw [getD_set, if_neg (by omega)]
          · rfl
        rw [e3]
        have e4 : (s₀ + 1 ≤ s ∧ s < vec.length ∧ x ∈ rest.getD (s - (s₀ + 1)) [])
            ↔ (s₀ ≤ s ∧ s < vec.length ∧ x ∈ rest.getD (s - (s₀ + 1)) []) := by
          constructor
          · rintro ⟨_, b, c⟩
            exact ⟨by omega, b, c⟩
          · rintro ⟨_, b, c⟩
            exact ⟨by omega, b, c⟩
        exact if_congr e4 rfl rfl

theorem fill_all_find_none (rest : List (List ι)) : ∀ (s₀ : Nat) (m : List (ι × List Int)) (x : ι),
    (∀ l ∈ rest, x ∉ l) → umap_find (fill_all s₀ rest m) x = umap_find m x := by
  induction rest with
  | nil => intro s₀ m x _; rfl
  | cons l rest ih =>
    intro s₀ m x hx
    rw [fill_all, ih (s₀ + 1) _ x (fun l' hl' => hx l' (List.mem_cons_of_mem _ hl')),
      fill_source_find_none s₀ l 0 m x (hx l (List.mem_cons_self _ _))]

theorem lastIdx_eq_indexOf (x : ι) (l : List ι) (hx : x ∈ l) (hl : l.Nodup) :
    lastIdx x l = l.indexOf x := by
  induction l with
  | nil => simp at hx
  | cons y rest ih =>
    have hn := List.nodup_cons.1 hl
    rw [lastIdx]
    by_cases hr : x ∈ rest
    · have hxy : y ≠ x := fun e => hn.1 (e ▸ hr)
      rw [if_pos hr, ih hr hn.2, List.indexOf_cons_ne _ hxy]
    · have hxy : x = y := by
        rcases List.mem_cons.1 hx with h | h
        · exact h
        · exact absurd h hr
      subst hxy
      rw [if_neg hr, List.indexOf_cons_self]

theorem foldl_max_len {α : Type} (src : List (List α)) : ∀ (m₀ : Nat),
    m₀ ≤ src.foldl (fun m list => max m list.length) m₀ ∧
    (∀ l ∈ src, l.length ≤ src.foldl (fun m list => max m list.length) m₀) ∧
    (src.foldl (fun m list => max m list.length) m₀ = m₀ ∨
      ∃ l ∈ src, l.length = src.foldl (fun m list => max m list.length) m₀) := by
  induction src with
  | nil => intro m₀; simp
  | cons l rest ih =>
    intro m₀
    rw [List.foldl_cons]
    obtain ⟨h1, h2, h3⟩ := ih (max m₀ l.length)
    refine ⟨le_trans (le_max_left _ _) h1, ?_, ?_⟩
    · intro l' hl'
      rcases List.mem_cons.1 hl' with h | h
      · subst h
        exact le_trans (le_max_right _ _) h1
      · exact h2 l' h
    · rcases h3 with h | ⟨l', hl', h⟩
      · rcases le_total m₀ l.length with hm | hm
        · right
          refine ⟨l, List.mem_cons_self _ _, ?_⟩
          rw [h, max_eq_right hm]
        · left
          rw [h, max_eq_left hm]
      · exact Or.inr ⟨l', List.mem_cons_of_mem _ hl', h⟩

theorem max_len_spec {α : Type} (src : List (List α)) (hS : 1 ≤ src.length) :
    (∀ l ∈ src, l.length ≤ max_len src) ∧ ∃ l ∈ src, l.length = max_len src := by
  obtain ⟨-, h2, h3⟩ := foldl_max_len src 0
  refine ⟨h2, ?_⟩
  rcases h3 with h | h
  · obtain ⟨l, rest, rfl⟩ : ∃ l rest, src = l :: rest := by
      cases src with
      | nil => simp at hS
      | cons l rest => exact ⟨l, rest, rfl⟩
    refine ⟨l, List.mem_cons_self _ _, ?_⟩
    have := h2 l (List.mem_cons_self _ _)
    unfold max_len
    omega
  · exact h

theorem ranks_find (src : List (List ι)) (x : ι) (hx : x ∈ universe_set src) :
    ∃ vec, umap_find (ranks src) x = some vec ∧ vec.length = src.length ∧
      ∀ s, s < src.length → vec.getD s 0 = if x ∈ src.getD s []
        then (lastIdx x (src.getD s []) : Int) + 1 else missing_rank src := by
  have h0 := ranks_init_find src x
  rw [if_pos hx] at h0
  obtain ⟨vec, e, hl, hg⟩ := fill_all_find src 0 (ranks_init src) x _ h0
  refine ⟨vec, e, by simpa using hl, ?_⟩
  intro s hs
  rw [hg s]
  simp only [Nat.zero_le, true_and, List.length_replicate, Nat.sub_zero, hs]
  by_cases hxs : x ∈ src.getD s []
  · rw [if_pos hxs, if_pos hxs]
  · rw [if_neg hxs, if_neg hxs, List.getD_eq_getElem _ _ (by simpa using hs)]
    simp

theorem ranks_find_none (src : List (List ι)) (x : ι) (hx : x ∉ universe_set src) :
    umap_find (ranks src) x = none := by
  unfold ranks
  rw [fill_all_find_none src 0 _ x, ranks_init_find, if_neg hx]
  intro l hl hxl
  exact hx ((mem_universe src x).2 ⟨l, hl, hxl⟩)

/-- C10: for `S ≥ 1` sources without a repeated item, `ranks[x][s]` is the 1-based index of
`x` in source `s` when `x` occurs there and `missing_rank = max_len + 1` otherwise, `max_len`
being the greatest length of a source; the universe, which has no item twice, holds exactly
the items of the sources, and exactly its items have a rank vector, of `S` cells. -/
theorem ranks_spec (src_items : List (List ι)) (hS : 1 ≤ src_items.length)
    (hnd : ∀ l ∈ src_items, l.Nodup) :
    ((universe_set src_items).Nodup ∧ ∀ x, x ∈ universe_set src_items ↔ ∃ l ∈ src_items, x ∈ l) ∧
    ((∀ l ∈ src_items, l.length ≤ max_len src_items) ∧
      (∃ l ∈ src_items, l.length = max_len src_items) ∧
      missing_rank src_items = (max_len src_items : Int) + 1) ∧
    (∀ x, x ∉ universe_set src_items → umap_find (ranks src_items) x = none) ∧
    ∀ x, x ∈ universe_set src_items → ∃ vec, umap_find (ranks src_items) x = some vec ∧
      vec.length = src_items.length ∧
      ∀ s, s < src_items.length → vec.getD s 0 = if x ∈ src_items.getD s []
        then ((src_items.getD s []).indexOf x : Int) + 1 else missing_rank src_items := by
  refine ⟨⟨universe_nodup src_items, mem_universe src_items⟩,
    ⟨(max_len_spec src_items hS).1, (max_len_spec src_items hS).2, rfl⟩,
    ranks_find_none src_items, ?_⟩
  intro x hx
  obtain ⟨vec, e, hl, hg⟩ := ranks_find src_items x hx
  refine ⟨vec, e, hl, ?_⟩
  intro s hs
  rw [hg s hs]
  by_cases hxs : x ∈ src_items.getD s []
  · have hmem : src_items.getD s [] ∈ src_items := by
      rw [List.getD_eq_getElem _ _ hs]
      exact List.getElem_mem _
    rw [if_pos hxs, if_pos hxs, lastIdx_eq_indexOf x _ hxs (hnd _ hmem)]
  · rw [if_neg hxs, if_neg hxs]

/-- An instance of C10: two sources, and the rank of `z`, absent from the second one. -/
theorem ranks_spec_witness :
    (1 ≤ [['x', 'y', 'z'], ['y', 'x']].length ∧ ∀ l ∈ [['x', 'y', 'z'], ['y', 'x']], l.Nodup) ∧
    ∃ vec, umap_find (ranks [['x', 'y', 'z'], ['y', 'x']]) 'z' = some vec ∧ vec.getD 1 0 = 4 := by
  have hS : 1 ≤ [['x', 'y', 'z'], ['y', 'x']].length := by decide
  have hnd : ∀ l ∈ [['x', 'y', 'z'], ['y', 'x']], l.Nodup := by decide
  obtain ⟨vec, e, -, hg⟩ := (ranks_spec [['x', 'y', 'z'], ['y', 'x']] hS hnd).2.2.2 'z' (by decide)
  exact ⟨⟨hS, hnd⟩, vec, e, by rw [hg 1 (by decide)]; decide⟩

theorem agg_less_iff (a b : Agg ι D) : agg_less a b = true ↔
    a.sum < b.sum ∨ (a.sum = b.sum ∧ (a.avg < b.avg ∨ (a.avg = b.avg ∧ a.item < b.item))) := by
  unfold agg_less
  by_cases h1 : a.sum = b.sum
  · by_cases h2 : a.avg = b.avg
    · simp [h1, h2]
    · simp [h1, h2]
  · simp [h1]

theorem agg_less_iff_key (a b : Agg ι D) : agg_less a b = true ↔
    toLex (a.sum, toLex (a.avg, a.item)) < toLex (b.sum, toLex (b.avg, b.item)) := by
  rw [agg_less_iff, Prod.Lex.lt_iff]
  simp only [Prod.Lex.lt_iff]

theorem agg_le_iff_key (a b : Agg ι D) : agg_less b a = false ↔
    toLex (a.sum, toLex (a.avg, a.item)) ≤ toLex (b.sum, toLex (b.avg, b.item)) := by
  rw [← not_lt, ← agg_less_iff_key]
  simp

theorem agg_le_total : IsTotal (Agg ι D) (fun a b => agg_less b a = false) :=
  ⟨fun a b => by
    simp only [agg_le_iff_key]
    exact le_total _ _⟩

theorem agg_le_trans : IsTrans (Agg ι D) (fun a b => agg_less b a = false) :=
  ⟨fun a b c => by
    simp only [agg_le_iff_key]
    exact le_trans⟩

theorem agg_le_antisymm : IsAntisymm (Agg ι D) (fun a b => agg_less b a = false) :=
  ⟨fun a b => by
    simp only [agg_le_iff_key]
    intro h1 h2
    have h := le_antisymm h1 h2
    obtain ⟨ai, as, aa⟩ := a
    obtain ⟨bi, bs, ba⟩ := b
    simp only [EmbeddingLike.apply_eq_iff_eq, Prod.mk.injEq] at h
    obtain ⟨e1, e2, e3⟩ := h
    subst e1 e2 e3
    rfl⟩

theorem sort_agg_sorted (l : List (Agg ι D)) :
    (sort_agg l).Sorted (fun a b => agg_less b a = false) := by
  haveI := @agg_le_total ι _ D _
  haveI := @agg_le_trans ι _ D _
  exact List.sorted_insertionSort _ l

theorem sort_agg_perm (l : List (Agg ι D)) : (sort_agg l).Perm l :=
  List.perm_insertionSort _ l

theorem sorted_agg_unique (l₁ l₂ : List (Agg ι D)) (h : l₁.Perm l₂)
    (h₁ : l₁.Sorted (fun a b => agg_less b a = false))
    (h₂ : l₂.Sorted (fun a b => agg_less b a = false)) : l₁ = l₂ := by
  haveI := @agg_le_antisymm ι _ D _
  exact List.eq_of_perm_of_sorted h h₁ h₂

/-- C9: the consensus does not depend on the order in which the entries of the rank table are
enumerated: for two enumerations `e₁`, `e₂` of the same entries the sorted vector `agg` and
the map `pos_combined` are the same, and they are what any arrangement of the entries that
the comparator accepts as sorted gives. -/
theorem consensus_order_independent (avgOf : Int → Nat → D) (S : Nat)
    (e₁ e₂ : List (ι × List Int)) (h : e₁.Perm e₂) :
    aggregate avgOf S e₁ = aggregate avgOf S e₂ ∧
    pos_combined (aggregate avgOf S e₁) = pos_combined (aggregate avgOf S e₂) ∧
    ∀ out : List (Agg ι D), out.Perm (agg_unsorted avgOf S e₂) →
      out.Sorted (fun a b => agg_less b a = false) →
      out = aggregate avgOf S e₁ ∧ pos_combined out = pos_combined (aggregate avgOf S e₁) := by
  have key : ∀ out : List (Agg ι D), out.Perm (agg_unsorted avgOf S e₂) →
      out.Sorted (fun a b => agg_less b a = false) → out = aggregate avgOf S e₁ := by
    intro out hp hs
    apply sorted_agg_unique out _ _ hs (sort_agg_sorted _)
    exact hp.trans (((h.map _).symm).trans (sort_agg_perm _).symm)
  have e := key (aggregate avgOf S e₂) (sort_agg_perm _) (sort_agg_sorted _)
  refine ⟨e.symm, by rw [e], ?_⟩
  intro out hp hs
  have := key out hp hs
  exact ⟨this, by rw [this]⟩

/-- An instance of C9: the two enumerations of a rank table of two entries. -/
theorem consensus_order_independent_witness :
    [('x', [1, 2]), ('y', [2, 1])].Perm [('y', [2, 1]), ('x', [1, 2])] ∧
    aggregate (fun s S => (s : ℚ) / S) 2 [('x', [1, 2]), ('y', [2, 1])]
      = aggregate (fun s S => (s : ℚ) / S) 2 [('y', [2, 1]), ('x', [1, 2])] :=
  ⟨by decide, (consensus_order_independent (fun s S => (s : ℚ) / S) 2
    [('x', [1, 2]), ('y', [2, 1])] [('y', [2, 1]), ('x', [1, 2])] (by decide)).1⟩

theorem ranks_keys_nodup (src : List (List ι)) : (umap_keys (ranks src)).Nodup :=
  fill_all_keys_nodup src 0 _ (ranks_init_keys_nodup src)

theorem mem_ranks_keys (src : List (List ι)) (x : ι) :
    x ∈ umap_keys (ranks src) ↔ x ∈ universe_set src := by
  constructor
  · intro h
    by_contra hx
    exact (umap_find_eq_none _ x).1 (ranks_find_none src x hx) h
  · intro hx
    by_contra h
    obtain ⟨vec, e, -⟩ := ranks_find src x hx
    rw [(umap_find_eq_none _ x).2 h] at e
    exact Option.noConfusion e

theorem consensus_items_perm (avgOf : Int → Nat → D) (src : List (List ι)) :
    ((consensus avgOf src).map Agg.item).Perm (universe_set src) := by
  have h1 : ((consensus avgOf src).map Agg.item).Perm (umap_keys (ranks src)) := by
    unfold consensus aggregate
    refine ((sort_agg_perm _).map _).trans ?_
    unfold agg_unsorted umap_keys
    rw [List.map_map]
    exact List.Perm.refl _
  refine h1.trans ?_
  rw [List.perm_ext_iff_of_nodup (ranks_keys_nodup src) (universe_nodup src)]
  exact mem_ranks_keys src

theorem consensus_items_nodup (avgOf : Int → Nat → D) (src : List (List ι)) :
    ((consensus avgOf src).map Agg.item).Nodup :=
  (consensus_items_perm avgOf src).nodup_iff.2 (universe_nodup src)

theorem consensus_length (avgOf : Int → Nat → D) (src : List (List ι)) :
    (consensus avgOf src).length = (universe_set src).length := by
  rw [← (consensus_items_perm avgOf src).length_eq, List.length_map]

theorem pos_combined_from_find (ag : List (Agg ι D)) : ∀ (i : Nat) (m : List (ι × Int)) (x : ι),
    (ag.map Agg.item).Nodup →
    umap_find (pos_combined_from i ag m) x = if x ∈ ag.map Agg.item
      then some ((i : Int) + ((ag.map Agg.item).indexOf x : Int) + 1) else umap_find m x := by
  induction ag with
  | nil => intro i m x _; simp [pos_combined_from]
  | cons a rest ih =>
    intro i m x hnd
    rw [List.map_cons] at hnd
    have hn := List.nodup_cons.1 hnd
    rw [pos_combined_from, ih (i + 1) _ x hn.2, umap_find_assign]
    by_cases hr : x ∈ rest.map Agg.item
    · have hne : a.item ≠ x := fun e => hn.1 (e ▸ hr)
      rw [if_pos hr, List.map_cons, if_pos (List.mem_cons_of_mem _ hr),
        List.indexOf_cons_ne _ hne]
      congr 1
      push_cast
      ring
    · rw [if_neg hr]
      by_cases hx : a.item = x
      · rw [if_pos hx, List.map_cons, if_pos (by rw [hx]; exact List.mem_cons_self _ _), hx,
          List.indexOf_cons_self]
        simp
      · rw [if_neg hx, List.map_cons, if_neg]
        intro h
        rcases List.mem_cons.1 h with h | h
        · exact hx h.symm
        · exact hr h

theorem pos_combined_find (ag : List (Agg ι D)) (x : ι) (hnd : (ag.map Agg.item).Nodup) :
    umap_find (pos_combined ag) x = if x ∈ ag.map Agg.item
      then some (((ag.map Agg.item).indexOf x : Int) + 1) else none := by
  unfold pos_combined
  rw [pos_combined_from_find ag 0 [] x hnd]
  simp [umap_find]

theorem combined_position_find (avgOf : Int → Nat → D) (src : List (List ι)) (x : ι) :
    umap_find (combined_position avgOf src) x = if x ∈ universe_set src
      then some ((((consensus avgOf src).map Agg.item).indexOf x : Int) + 1) else none := by
  unfold combined_position
  rw [pos_combined_find _ x (consensus_items_nodup avgOf src)]
  by_cases hx : x ∈ universe_set src
  · rw [if_pos hx, if_pos ((consensus_items_perm avgOf src).mem_iff.2 hx)]
  · rw [if_neg hx, if_neg (fun h => hx ((consensus_items_perm avgOf src).mem_iff.1 h))]

/-- C8: for every input, `pos_combined` is a bijection from the universe onto `{1..N}`,
`N = agg.size()` being the size of the universe: every item of the universe, and no other
string, has a position; the positions lie in `1..N`; two items with the same position are
equal; every integer of `1..N` is the position of an item of the universe. -/
theorem combined_position_bijective (avgOf : Int → Nat → D) (src_items : List (List ι)) :
    (consensus avgOf src_items).length = (universe_set src_items).length ∧
    (∀ x, x ∈ universe_set src_items →
      ∃ p, umap_find (combined_position avgOf src_items) x = some p ∧
        1 ≤ p ∧ p ≤ ((consensus avgOf src_items).length : Int)) ∧
    (∀ x, x ∉ universe_set src_items → umap_find (combined_position avgOf src_items) x = none) ∧
    (∀ x y p, umap_find (combined_position avgOf src_items) x = some p →
      umap_find (combined_position avgOf src_items) y = some p → x = y) ∧
    (∀ p : Int, 1 ≤ p → p ≤ ((consensus avgOf src_items).length : Int) →
      ∃ x, x ∈ universe_set src_items ∧
        umap_find (combined_position avgOf src_items) x = some p) := by
  have hperm := consensus_items_perm avgOf src_items
  have hnd := consensus_items_nodup avgOf src_items
  refine ⟨consensus_length avgOf src_items, ?_, ?_, ?_, ?_⟩
  · intro x hx
    refine ⟨_, by rw [combined_position_find, if_pos hx], by omega, ?_⟩
    have := List.indexOf_lt_length.2 (hperm.mem_iff.2 hx)
    rw [List.length_map] at this
    omega
  · intro x hx
    rw [combined_position_find, if_neg hx]
  · intro x y p hx hy
    rw [combined_position_find] at hx hy
    by_cases hxu : x ∈ universe_set src_items
    · by_cases hyu : y ∈ universe_set src_items
      · rw [if_pos hxu] at hx
        rw [if_pos hyu] at hy
        have e : ((consensus avgOf src_items).map Agg.item).indexOf x
            = ((consensus avgOf src_items).map Agg.item).indexOf y := by
          have hx' := Option.some.inj hx
          have hy' := Option.some.inj hy
          omega
        exact (List.indexOf_inj (hperm.mem_iff.2 hxu) (hperm.mem_iff.2 hyu)).1 e
      · rw [if_neg hyu] at hy
        exact Option.noConfusion hy
    · rw [if_neg hxu] at hx
      exact Option.noConfusion hx
  · intro p h1 h2
    have hlt : (p - 1).toNat < ((consensus avgOf src_items).map Agg.item).length := by
      rw [List.length_map]
      omega
    refine ⟨((consensus avgOf src_items).map Agg.item)[(p - 1).toNat], ?_, ?_⟩
    · exact hperm.mem_iff.1 (List.getElem_mem _)
    · rw [combined_position_find, if_pos (hperm.mem_iff.1 (List.getElem_mem _))]
      rw [List.indexOf_getElem hnd]
      congr 1
      omega

theorem rank_sum_take (vec : List Int) : ∀ (n : Nat), n ≤ vec.length →
    rank_sum n vec = (vec.take n).sum := by
  intro n
  induction n with
  | zero => intro _; simp [rank_sum]
  | succ n ih =>
    intro hn
    have h := ih (by omega)
    unfold rank_sum at h ⊢
    rw [List.range_succ, List.foldl_append, h, List.sum_take_succ vec n (by omega)]
    simp only [List.foldl_cons, List.foldl_nil]
    rw [List.getD_eq_getElem vec 0 (by omega)]

theorem rank_sum_eq_sum (vec : List Int) : rank_sum vec.length vec = vec.sum := by
  rw [rank_sum_take vec vec.length (le_refl _), List.take_length]

theorem umap_find_of_mem (m : List (ι × β)) (k : ι) (v : β) (hnd : (umap_keys m).Nodup)
    (h : (k, v) ∈ m) : umap_find m k = some v := by
  induction m with
  | nil => simp at h
  | cons e t ih =>
    obtain ⟨k₀, v₀⟩ := e
    have hn : k₀ ∉ umap_keys t ∧ (umap_keys t).Nodup := by
      simpa [umap_keys] using hnd
    rcases List.mem_cons.1 h with h | h
    · have e1 : k = k₀ := congrArg Prod.fst h
      have e2 : v = v₀ := congrArg Prod.snd h
      subst e1 e2
      simp [umap_find]
    · have hk : k₀ ≠ k := by
        intro e
        apply hn.1
        rw [e]
        exact List.mem_map.2 ⟨(k, v), h, rfl⟩
      rw [umap_find, if_neg hk]
      exact ih hn.2 h

theorem consensus_entry (avgOf : Int → Nat → D) (src : List (List ι)) (a : Agg ι D)
    (ha : a ∈ consensus avgOf src) :
    ∃ vec, umap_find (ranks src) a.item = some vec ∧ a.sum = rank_sum src.length vec ∧
      a.avg = avgOf a.sum src.length := by
  have h1 : a ∈ agg_unsorted avgOf src.length (ranks src) := (sort_agg_perm _).mem_iff.1 ha
  unfold agg_unsorted at h1
  obtain ⟨kv, hkv, rfl⟩ := List.mem_map.1 h1
  exact ⟨kv.2, umap_find_of_mem _ _ _ (ranks_keys_nodup src) hkv, rfl, rfl⟩

theorem rel_of_indexOf_lt {α κ : Type} [DecidableEq κ] (r : α → α → Prop) (f : α → κ) :
    ∀ (l : List α), l.Pairwise r → (l.map f).Nodup → ∀ a ∈ l, ∀ b ∈ l,
      (l.map f).indexOf (f a) < (l.map f).indexOf (f b) → r a b := by
  intro l
  induction l with
  | nil => intro _ _ a ha; simp at ha
  | cons c rest ih =>
    intro hp hnd a ha b hb hlt
    rw [List.map_cons] at hnd hlt
    have hn := List.nodup_cons.1 hnd
    have hp' := List.pairwise_cons.1 hp
    have hbc : f c ≠ f b := by
      intro e
      rw [e, List.indexOf_cons_self] at hlt
      omega
    have hb' : b ∈ rest := by
      rcases List.mem_cons.1 hb with h | h
      · exact absurd (congrArg f h).symm hbc
      · exact h
    by_cases hac : f c = f a
    · have : a = c := by
        rcases List.mem_cons.1 ha with h | h
        · exact h
        · exact absurd (hac ▸ List.mem_map.2 ⟨a, h, rfl⟩) hn.1
      subst this
      exact hp'.1 b hb'
    · have ha' : a ∈ rest := by
        rcases List.mem_cons.1 ha with h | h
        · exact absurd (congrArg f h).symm hac
        · exact h
      rw [List.indexOf_cons_ne _ hac, List.indexOf_cons_ne _ hbc] at hlt
      exact ih hp'.2 hn.2 a ha' b hb' (by omega)

theorem exists_mem_of_item (ag : List (Agg ι D)) (x : ι) (hx : x ∈ ag.map Agg.item) :
    ∃ a ∈ ag, a.item = x := by
  obtain ⟨a, ha, e⟩ := List.mem_map.1 hx
  exact ⟨a, ha, e⟩

/-- C7: for two distinct items `x`, `y` of the universe, `combined_position(x)` is less than
`combined_position(y)` exactly when the sum of the ranks of `x` is less than that of `y`, or
the sums are equal and `x < y` as strings; the sums are those of all `S` cells of the rank
vectors. The key `avg` never decides. -/
theorem combined_position_lt_iff (avgOf : Int → Nat → D) (src_items : List (List ι)) (x y : ι)
    (hx : x ∈ universe_set src_items) (hy : y ∈ universe_set src_items) (hxy : x ≠ y) :
    ∃ px py vx vy, umap_find (combined_position avgOf src_items) x = some px ∧
      umap_find (combined_position avgOf src_items) y = some py ∧
      umap_find (ranks src_items) x = some vx ∧ umap_find (ranks src_items) y = some vy ∧
      rank_sum src_items.length vx = vx.sum ∧ rank_sum src_items.length vy = vy.sum ∧
      (px < py ↔ rank_sum src_items.length vx < rank_sum src_items.length vy ∨
        (rank_sum src_items.length vx = rank_sum src_items.length vy ∧ x < y)) := by
  have hperm := consensus_items_perm avgOf src_items
  have hnd := consensus_items_nodup avgOf src_items
  obtain ⟨a, ha, rfl⟩ := exists_mem_of_item _ x (hperm.mem_iff.2 hx)
  obtain ⟨b, hb, rfl⟩ := exists_mem_of_item _ y (hperm.mem_iff.2 hy)
  obtain ⟨vx, ex, sx, ax⟩ := consensus_entry avgOf src_items a ha
  obtain ⟨vy, ey, sy, ay⟩ := consensus_entry avgOf src_items b hb
  obtain ⟨vx', ex', lx, -⟩ := ranks_find src_items a.item hx
  obtain ⟨vy', ey', ly, -⟩ := ranks_find src_items b.item hy
  have e1 : vx' = vx := Option.some.inj (ex'.symm.trans ex)
  have e2 : vy' = vy := Option.some.inj (ey'.symm.trans ey)
  subst e1 e2
  refine ⟨_, _, vx', vy', by rw [combined_position_find, if_pos hx],
    by rw [combined_position_find, if_pos hy], ex, ey, by rw [← lx, rank_sum_eq_sum],
    by rw [← ly, rank_sum_eq_sum], ?_⟩
  rw [← sx, ← sy]
  have hsorted : (consensus avgOf src_items).Pairwise (fun a b => agg_less b a = false) :=
    sort_agg_sorted _
  have hless : ∀ u v : Agg ι D, u.avg = avgOf u.sum src_items.length →
      v.avg = avgOf v.sum src_items.length →
      (agg_less u v = true ↔ u.sum < v.sum ∨ (u.sum = v.sum ∧ u.item < v.item)) := by
    intro u v hu hv
    rw [agg_less_iff]
    constructor
    · rintro (h | ⟨h1, h2 | ⟨_, h3⟩⟩)
      · exact Or.inl h
      · rw [hu, hv, h1] at h2
        exact absurd h2 (lt_irrefl _)
      · exact Or.inr ⟨h1, h3⟩
    · rintro (h | ⟨h1, h3⟩)
      · exact Or.inl h
      · exact Or.inr ⟨h1, Or.inr ⟨by rw [hu, hv, h1], h3⟩⟩
  rw [← hless a b ax ay]
  constructor
  · intro hlt
    have hidx : ((consensus avgOf src_items).map Agg.item).indexOf a.item
        < ((consensus avgOf src_items).map Agg.item).indexOf b.item := by omega
    have hab := rel_of_indexOf_lt _ Agg.item _ hsorted hnd a ha b hb hidx
    -- `b` is not less than `a`, and they differ
    by_contra hn
    have hba : agg_less a b = false := by simpa using hn
    have := (@agg_le_antisymm ι _ D _).antisymm a b hab hba
    exact hxy (congrArg Agg.item this)
  · intro hlt
    by_contra hn
    have hne : ((consensus avgOf src_items).map Agg.item).indexOf a.item
        ≠ ((consensus avgOf src_items).map Agg.item).indexOf b.item := by
      intro e
      exact hxy ((List.indexOf_inj (hperm.mem_iff.2 hx) (hperm.mem_iff.2 hy)).1 e)
    have hidx : ((consensus avgOf src_items).map Agg.item).indexOf b.item
        < ((consensus avgOf src_items).map Agg.item).indexOf a.item := by omega
    have hba := rel_of_indexOf_lt _ Agg.item _ hsorted hnd b hb a ha hidx
    rw [hlt] at hba
    exact Bool.noConfusion hba

/-- An instance of C7: the sources `[x, y, z]` and `[y, x, z]`, and the items `x` and `y`. -/
theorem combined_position_lt_iff_witness :
    ('x' ∈ universe_set [['x', 'y', 'z'], ['y', 'x', 'z']] ∧
      'y' ∈ universe_set [['x', 'y', 'z'], ['y', 'x', 'z']] ∧ 'x' ≠ 'y') ∧
    ∃ px py vx vy,
      umap_find (combined_position (fun s S => (s : ℚ) / S) [['x', 'y', 'z'], ['y', 'x', 'z']]) 'x'
        = some px ∧
      umap_find (combined_position (fun s S => (s : ℚ) / S) [['x', 'y', 'z'], ['y', 'x', 'z']]) 'y'
        = some py ∧
      umap_find (ranks [['x', 'y', 'z'], ['y', 'x', 'z']]) 'x' = some vx ∧
      umap_find (ranks [['x', 'y', 'z'], ['y', 'x', 'z']]) 'y' = some vy ∧
      rank_sum 2 vx = vx.sum ∧ rank_sum 2 vy = vy.sum ∧
      (px < py ↔ rank_sum 2 vx < rank_sum 2 vy ∨ (rank_sum 2 vx = rank_sum 2 vy ∧ 'x' < 'y')) :=
  ⟨by decide, combined_position_lt_iff (fun s S => (s : ℚ) / S) [['x', 'y', 'z'], ['y', 'x', 'z']]
    'x' 'y' (by decide) (by decide) (by decide)⟩

theorem filterMap_eq_map_of_some {α γ : Type} (f : α → Option γ) (g : α → γ) :
    ∀ (l : List α), (∀ x ∈ l, f x = some (g x)) → l.filterMap f = l.map g := by
  intro l
  induction l with
  | nil => intro _; rfl
  | cons x rest ih =>
    intro h
    rw [List.filterMap_cons, h x (List.mem_cons_self _ _), List.map_cons,
      ih (fun y hy => h y (List.mem_cons_of_mem _ hy))]

theorem map_indexOf_self {κ : Type} [DecidableEq κ] (l : List κ) (hnd : l.Nodup) :
    l.map (fun x => ((l.indexOf x : Nat) : Int) + 1)
      = (List.range' 1 l.length).map (fun k : Nat => (k : Int)) := by
  apply List.ext_getElem
  · simp
  · intro i h1 h2
    simp only [List.getElem_map, List.getElem_range']
    rw [List.indexOf_getElem hnd]
    push_cast
    ring

theorem filter_mem_perm {κ : Type} [DecidableEq κ] (items src : List κ) (hi : items.Nodup)
    (hnd : src.Nodup) (hsub : ∀ x ∈ src, x ∈ items) :
    (items.filter (fun x => decide (x ∈ src))).Perm src := by
  rw [List.perm_ext_iff_of_nodup (hi.filter _) hnd]
  intro x
  rw [List.mem_filter]
  constructor
  · intro h
    simpa using h.2
  · intro h
    exact ⟨hsub x h, by simpa using h⟩

theorem append_filter_not_mem_perm {κ : Type} [DecidableEq κ] (items src : List κ)
    (hi : items.Nodup) (hnd : src.Nodup) (hsub : ∀ x ∈ src, x ∈ items) :
    (src ++ items.filter (fun x => decide (x ∉ src))).Perm items := by
  have h := List.filter_append_perm (fun x => decide (x ∈ src)) items
  refine List.Perm.trans ?_ h
  apply List.Perm.append (filter_mem_perm items src hi hnd hsub).symm
  have : items.filter (fun x => decide (x ∉ src)) = items.filter (fun x => !decide (x ∈ src)) := by
    apply List.filter_congr
    intro x _
    simp
  rw [this]

theorem position_sequence_eq (agg : List (Agg ι D)) (src : List ι)
    (hagg : (agg.map Agg.item).Nodup) (hnd : src.Nodup)
    (hsub : ∀ x ∈ src, x ∈ agg.map Agg.item) :
    position_sequence agg (pos_combined agg) src
      = src.map (fun x => (((agg.map Agg.item).indexOf x : Nat) : Int) + 1)
        ++ ((agg.map Agg.item).filter (fun x => decide (x ∉ src))).map
          (fun x => (((agg.map Agg.item).indexOf x : Nat) : Int) + 1) ∧
    src.length + ((agg.map Agg.item).filter (fun x => decide (x ∉ src))).length = agg.length := by
  have h1 : src.filterMap (fun it => umap_find (pos_combined agg) it)
      = src.map (fun x => (((agg.map Agg.item).indexOf x : Nat) : Int) + 1) := by
    apply filterMap_eq_map_of_some
    intro x hx
    rw [pos_combined_find agg x hagg, if_pos (hsub x hx)]
  have h2 : (agg.filter (fun ag => decide (ag.item ∉ src))).map
      (fun ag => (umap_find (pos_combined agg) ag.item).getD 0)
      = ((agg.map Agg.item).filter (fun x => decide (x ∉ src))).map
        (fun x => (((agg.map Agg.item).indexOf x : Nat) : Int) + 1) := by
    rw [List.filter_map, List.map_map]
    apply List.map_congr_left
    intro ag hag
    have hmem : ag.item ∈ agg.map Agg.item :=
      List.mem_map.2 ⟨ag, (List.mem_filter.1 hag).1, rfl⟩
    simp only [Function.comp]
    rw [pos_combined_find agg _ hagg, if_pos hmem]
    rfl
  have hlen : src.length + ((agg.map Agg.item).filter (fun x => decide (x ∉ src))).length
      = agg.length := by
    have := (append_filter_not_mem_perm _ src hagg hnd hsub).length_eq
    rw [List.length_append, List.length_map] at this
    exact this
  refine ⟨?_, hlen⟩
  unfold position_sequence
  simp only [h1, h2, List.length_map]
  split
  · rfl
  · have : ((agg.map Agg.item).filter (fun x => decide (x ∉ src))) = [] :=
      List.length_eq_zero.1 (by omega)
    rw [this]
    simp

/-- C5: for `S ≥ 1` sources without a repeated item and every source `src` among them, the
position sequence built for `src` has length `N`, the size of the universe, whatever the
length of `src`, and is a permutation of `1..N`. -/
theorem positions_of_perm (avgOf : Int → Nat → D) (src_items : List (List ι))
    (_hS : 1 ≤ src_items.length) (hnd : ∀ l ∈ src_items, l.Nodup) (src : List ι)
    (hs : src ∈ src_items) :
    (positions_of avgOf src_items src).length = (consensus avgOf src_items).length ∧
    (consensus avgOf src_items).length = (universe_set src_items).length ∧
    IsPermutation (consensus avgOf src_items).length (positions_of avgOf src_items src) := by
  have hperm := consensus_items_perm avgOf src_items
  have hnd' := consensus_items_nodup avgOf src_items
  have hsub : ∀ x ∈ src, x ∈ (consensus avgOf src_items).map Agg.item :=
    fun x hx => hperm.mem_iff.2 ((mem_universe src_items x).2 ⟨src, hs, hx⟩)
  obtain ⟨heq, hlen⟩ := position_sequence_eq (consensus avgOf src_items) src hnd' (hnd src hs) hsub
  have heq' : positions_of avgOf src_items src = _ := heq
  refine ⟨?_, consensus_length avgOf src_items, ?_⟩
  · rw [heq', List.length_append, List.length_map, List.length_map, hlen]
  · unfold IsPermutation
    rw [heq', ← List.map_append]
    have := map_indexOf_self _ hnd'
    rw [List.length_map] at this
    rw [← this]
    exact (append_filter_not_mem_perm _ src hnd' (hnd src hs) hsub).map _

/-- An instance of C5: three sources over the universe `x, y, z, w`, and the source `[w]`. -/
theorem positions_of_perm_witness :
    (1 ≤ [['x', 'y', 'z'], ['y', 'x'], ['w']].length ∧
      (∀ l ∈ [['x', 'y', 'z'], ['y', 'x'], ['w']], l.Nodup) ∧
      ['w'] ∈ [['x', 'y', 'z'], ['y', 'x'], ['w']]) ∧
    (positions_of (fun s S => (s : ℚ) / S) [['x', 'y', 'z'], ['y', 'x'], ['w']] ['w']).length
      = (consensus (fun s S => (s : ℚ) / S) [['x', 'y', 'z'], ['y', 'x'], ['w']]).length ∧
    (consensus (fun s S => (s : ℚ) / S) [['x', 'y', 'z'], ['y', 'x'], ['w']]).length
      = (universe_set [['x', 'y', 'z'], ['y', 'x'], ['w']]).length ∧
    IsPermutation (consensus (fun s S => (s : ℚ) / S) [['x', 'y', 'z'], ['y', 'x'], ['w']]).length
      (positions_of (fun s S => (s : ℚ) / S) [['x', 'y', 'z'], ['y', 'x'], ['w']] ['w']) :=
  ⟨by decide, positions_of_perm (fun s S => (s : ℚ) / S) [['x', 'y', 'z'], ['y', 'x'], ['w']]
    (by decide) (by decide) ['w'] (by decide)⟩

/-- C6: for a source `src` without a repeated item and the map `pos_combined` of a vector
`agg` of distinct items that include those of `src`, the position sequence consists of the
combined positions of the items of `src`, in the order of `src`, and then of `N - |src|`
further entries, in strictly ascending order, which are the combined positions of exactly
the items of `agg`, the universe, that are absent from `src`. -/
theorem position_sequence_structure (agg : List (Agg ι D)) (src : List ι)
    (hagg : (agg.map Agg.item).Nodup) (hnd : src.Nodup)
    (hsub : ∀ x ∈ src, x ∈ agg.map Agg.item) :
    List.Forall₂ (fun x p => umap_find (pos_combined agg) x = some p) src
      ((position_sequence agg (pos_combined agg) src).take src.length) ∧
    ((position_sequence agg (pos_combined agg) src).drop src.length).length
      = agg.length - src.length ∧
    ((position_sequence agg (pos_combined agg) src).drop src.length).Sorted (· < ·) ∧
    ∀ p, p ∈ (position_sequence agg (pos_combined agg) src).drop src.length ↔
      ∃ x, x ∈ agg.map Agg.item ∧ x ∉ src ∧ umap_find (pos_combined agg) x = some p := by
  obtain ⟨heq, hlen⟩ := position_sequence_eq agg src hagg hnd hsub
  have htake : (position_sequence agg (pos_combined agg) src).take src.length
      = src.map (fun x => (((agg.map Agg.item).indexOf x : Nat) : Int) + 1) := by
    rw [heq, List.take_left' (by simp)]
  have hdrop : (position_sequence agg (pos_combined agg) src).drop src.length
      = ((agg.map Agg.item).filter (fun x => decide (x ∉ src))).map
        (fun x => (((agg.map Agg.item).indexOf x : Nat) : Int) + 1) := by
    rw [heq, List.drop_left' (by simp)]
  refine ⟨?_, ?_, ?_, ?_⟩
  · rw [htake, List.forall₂_map_right_iff]
    apply List.forall₂_same.2
    intro x hx
    rw [pos_combined_find agg x hagg, if_pos (hsub x hx)]
  · rw [hdrop, List.length_map]
    omega
  · rw [hdrop]
    have hsl : (((agg.map Agg.item).filter (fun x => decide (x ∉ src))).map
        (fun x => (((agg.map Agg.item).indexOf x : Nat) : Int) + 1)).Sublist
        ((agg.map Agg.item).map
        (fun x => (((agg.map Agg.item).indexOf x : Nat) : Int) + 1)) :=
      (List.filter_sublist _).map _
    refine List.Pairwise.sublist hsl ?_
    rw [map_indexOf_self _ hagg]
    apply List.Pairwise.map _ _ (List.pairwise_lt_range' 1 _)
    intro a b hab
    exact_mod_cast hab
  · intro p
    rw [hdrop, List.mem_map]
    constructor
    · rintro ⟨x, hx, rfl⟩
      obtain ⟨hx1, hx2⟩ := List.mem_filter.1 hx
      refine ⟨x, hx1, by simpa using hx2, ?_⟩
      rw [pos_combined_find agg x hagg, if_pos hx1]
    · rintro ⟨x, hx1, hx2, hx3⟩
      rw [pos_combined_find agg x hagg, if_pos hx1] at hx3
      exact ⟨x, List.mem_filter.2 ⟨hx1, by simpa using hx2⟩, Option.some.inj hx3⟩

/-- An instance of C6: the consensus `x, y, z` with sums `3, 3, 6`, and the source `[z]`,
whose position sequence is `[3, 1, 2]`. -/
theorem position_sequence_structure_witness :
    ((([⟨'x', 3, 3⟩, ⟨'y', 3, 3⟩, ⟨'z', 6, 6⟩] : List (Agg Char Int)).map Agg.item).Nodup ∧
      ['z'].Nodup ∧
      ∀ x ∈ ['z'],
        x ∈ ([⟨'x', 3, 3⟩, ⟨'y', 3, 3⟩, ⟨'z', 6, 6⟩] : List (Agg Char Int)).map Agg.item) ∧
    position_sequence ([⟨'x', 3, 3⟩, ⟨'y', 3, 3⟩, ⟨'z', 6, 6⟩] : List (Agg Char Int))
      (pos_combined ([⟨'x', 3, 3⟩, ⟨'y', 3, 3⟩, ⟨'z', 6, 6⟩] : List (Agg Char Int))) ['z']
      = [3, 1, 2] ∧
    ((position_sequence ([⟨'x', 3, 3⟩, ⟨'y', 3, 3⟩, ⟨'z', 6, 6⟩] : List (Agg Char Int))
      (pos_combined ([⟨'x', 3, 3⟩, ⟨'y', 3, 3⟩, ⟨'z', 6, 6⟩] : List (Agg Char Int))) ['z']).drop
        ['z'].length).Sorted (· < ·) :=
  ⟨by decide, by decide, (position_sequence_structure
    ([⟨'x', 3, 3⟩, ⟨'y', 3, 3⟩, ⟨'z', 6, 6⟩] : List (Agg Char Int)) ['z']
    (by decide) (by decide) (by decide)).2.2.1⟩

end PipelineTheorems

/-! ## Theorems on the scoring and on the run of `main` -/

theorem max_inv_natCast (n : Nat) : max_inv (n : Int) = ((n * (n - 1) / 2 : Nat) : Int) := by
  unfold max_inv
  cases n with
  | zero => simp
  | succ k =>
    have h : ((k + 1 : Nat) : Int) * (((k + 1 : Nat) : Int) - 1) = (((k + 1) * k : Nat) : Int) := by
      push_cast
      ring
    rw [h, Nat.add_sub_cancel]
    exact (Int.ofNat_tdiv _ _).symm

theorem two_mul_pairs (n : Nat) : 2 * (n * (n - 1) / 2) = n * (n - 1) := by
  have h : 2 ∣ n * (n - 1) := by
    cases n with
    | zero => simp
    | succ k =>
      rw [Nat.add_sub_cancel, Nat.mul_comm]
      exact (Nat.even_mul_succ_self k).two_dvd
  exact Nat.mul_div_cancel' h

theorem pairs_succ (n : Nat) : (n + 1) * (n + 1 - 1) / 2 = n + n * (n - 1) / 2 := by
  have h1 := two_mul_pairs (n + 1)
  have h2 := two_mul_pairs n
  have h3 : (n + 1) * (n + 1 - 1) = 2 * n + n * (n - 1) := by
    cases n with
    | zero => simp
    | succ k =>
      simp only [Nat.add_sub_cancel]
      ring
  omega

theorem max_inv_pos (n : Nat) (h : 2 ≤ n) : 0 < max_inv (n : Int) := by
  rw [max_inv_natCast]
  have h1 := pairs_succ (n - 1)
  have e : n - 1 + 1 = n := by omega
  rw [e] at h1
  have : 0 < n * (n - 1) / 2 := by omega
  exact_mod_cast this

theorem invL_le_pairs (a : List Int) : invL a ≤ a.length * (a.length - 1) / 2 := by
  induction a with
  | nil => simp [invL]
  | cons x xs ih =>
    have h : invL (x :: xs) = xs.countP (fun y => decide (y < x)) + invL xs := rfl
    rw [h, List.length_cons, pairs_succ]
    have := List.countP_le_length (fun y => decide (y < x)) (l := xs)
    omega

theorem reliability_of_pos (inv m : Int) (hm : 0 < m) :
    reliability inv m = some (1 - (inv : ℚ) / (m : ℚ)) := by
  unfold reliability double_div
  rw [if_neg (by omega)]
  rfl

theorem reliability_zero_divisor (inv : Int) : reliability inv 0 = none := by
  unfold reliability double_div
  rfl

/-- C11: for every sequence `a` of integers of length `n ≥ 2`,
`0 ≤ merge_count(a) ≤ n(n-1)/2 = max_inv`, and the reliability `1 - inv_merge/max_inv`, in
exact rational arithmetic, is a number of the interval `[0, 1]`. -/
theorem merge_count_bounds (a : List Int) (h : 2 ≤ a.length) :
    0 ≤ merge_count a ∧ merge_count a ≤ max_inv (a.length : Int) ∧
    max_inv (a.length : Int) = ((a.length * (a.length - 1) / 2 : Nat) : Int) ∧
    ∃ r, reliability (merge_count a) (max_inv (a.length : Int)) = some r ∧ 0 ≤ r ∧ r ≤ 1 := by
  have hpos := max_inv_pos a.length h
  have hle : merge_count a ≤ max_inv (a.length : Int) := by
    rw [merge_count_eq_invL, max_inv_natCast]
    exact_mod_cast invL_le_pairs a
  have h0 : 0 ≤ merge_count a := by
    rw [merge_count_eq_invL]
    exact Int.natCast_nonneg _
  refine ⟨h0, hle, max_inv_natCast _, _, reliability_of_pos _ _ hpos, ?_, ?_⟩
  · have hq : (merge_count a : ℚ) / (max_inv (a.length : Int) : ℚ) ≤ 1 := by
      rw [div_le_one (by exact_mod_cast hpos)]
      exact_mod_cast hle
    linarith
  · have hq : 0 ≤ (merge_count a : ℚ) / (max_inv (a.length : Int) : ℚ) :=
      div_nonneg (by exact_mod_cast h0) (by exact_mod_cast hpos.le)
    linarith

/-- An instance of C11: the sequence `[3, 1, 2]`. -/
theorem merge_count_bounds_witness :
    2 ≤ [3, 1, 2].length ∧ 0 ≤ merge_count [3, 1, 2] ∧
      merge_count [3, 1, 2] ≤ max_inv (([3, 1, 2] : List Int).length : Int) :=
  ⟨by decide, (merge_count_bounds [3, 1, 2] (by decide)).1,
    (merge_count_bounds [3, 1, 2] (by decide)).2.1⟩

/-- C15: for fixed `n ≥ 2` and inversion counts `i₁ ≤ i₂`, the reliability
`1 - i/(n(n-1)/2)` of `i₁` is at least that of `i₂`. -/
theorem reliability_antitone (n : Nat) (hn : 2 ≤ n) (i₁ i₂ : Int) (h : i₁ ≤ i₂) :
    ∃ r₁ r₂, reliability i₁ (max_inv (n : Int)) = some r₁ ∧
      reliability i₂ (max_inv (n : Int)) = some r₂ ∧
      r₁ = 1 - (i₁ : ℚ) / ((n * (n - 1) / 2 : Nat) : ℚ) ∧
      r₂ = 1 - (i₂ : ℚ) / ((n * (n - 1) / 2 : Nat) : ℚ) ∧ r₂ ≤ r₁ := by
  have hpos := max_inv_pos n hn
  have hm : ((max_inv (n : Int) : Int) : ℚ) = ((n * (n - 1) / 2 : Nat) : ℚ) := by
    rw [max_inv_natCast]
    norm_cast
  refine ⟨_, _, reliability_of_pos _ _ hpos, reliability_of_pos _ _ hpos, by rw [hm], by rw [hm],
    ?_⟩
  have hq : (i₁ : ℚ) / (max_inv (n : Int) : ℚ) ≤ (i₂ : ℚ) / (max_inv (n : Int) : ℚ) :=
    div_le_div_of_nonneg_right (by exact_mod_cast h) (by exact_mod_cast hpos.le)
  linarith

/-- An instance of C15: `n = 3` and the counts `1 ≤ 2`. -/
theorem reliability_antitone_witness :
    (2 ≤ 3 ∧ (1 : Int) ≤ 2) ∧
    ∃ r₁ r₂, reliability 1 (max_inv ((3 : Nat) : Int)) = some r₁ ∧
      reliability 2 (max_inv ((3 : Nat) : Int)) = some r₂ ∧
      r₁ = 1 - ((1 : Int) : ℚ) / ((3 * (3 - 1) / 2 : Nat) : ℚ) ∧
      r₂ = 1 - ((2 : Int) : ℚ) / ((3 * (3 - 1) / 2 : Nat) : ℚ) ∧ r₂ ≤ r₁ :=
  ⟨by decide, reliability_antitone 3 (by decide) 1 2 (by decide)⟩

theorem invL_eq_zero_of_sorted (a : List Int) (h : a.Sorted (· ≤ ·)) : invL a = 0 := by
  induction a with
  | nil => rfl
  | cons x xs ih =>
    have hc := List.sorted_cons.1 h
    have e : invL (x :: xs) = xs.countP (fun y => decide (y < x)) + invL xs := rfl
    rw [e, ih hc.2, countP_eq_zero_of_forall_le x xs hc.1]

theorem invL_of_decreasing (a : List Int) (h : a.Pairwise (fun x y => y < x)) :
    invL a = a.length * (a.length - 1) / 2 := by
  induction a with
  | nil => rfl
  | cons x xs ih =>
    have hc := List.pairwise_cons.1 h
    have e : invL (x :: xs) = xs.countP (fun y => decide (y < x)) + invL xs := rfl
    have hcount : xs.countP (fun y => decide (y < x)) = xs.length := by
      rw [List.countP_eq_length]
      intro y hy
      simpa using hc.1 y hy
    rw [e, ih hc.2, hcount, List.length_cons, pairs_succ]

theorem identity_increasing (n : Nat) : (identity_permutation n).Pairwise (fun x y => x < y) := by
  unfold identity_permutation
  apply List.Pairwise.map _ _ (List.pairwise_lt_range' 1 _)
  intro a b hab
  exact_mod_cast hab

theorem identity_length (n : Nat) : (identity_permutation n).length = n := by
  simp [identity_permutation]

theorem invL_identity (n : Nat) : invL (identity_permutation n) = 0 :=
  invL_eq_zero_of_sorted _ ((identity_increasing n).imp (fun h => le_of_lt h))

theorem invL_reversed (n : Nat) : invL (reversed_permutation n) = n * (n - 1) / 2 := by
  have h : (reversed_permutation n).Pairwise (fun x y => y < x) := by
    unfold reversed_permutation
    rw [List.pairwise_reverse]
    exact identity_increasing n
  rw [invL_of_decreasing _ h]
  simp [reversed_permutation, identity_length]

/-- C13: for every `n ≥ 0`, `merge_count` and `bit_count_inversions` return `0` on the identity
permutation `(1, 2, ..., n)`, which is a permutation of `1..n`, and for `n ≥ 2` the reliability
computed from that count is exactly `1`. -/
theorem counters_identity (n : Nat) :
    IsPermutation n (identity_permutation n) ∧
    merge_count (identity_permutation n) = 0 ∧
    bit_count_inversions (identity_permutation n) = 0 ∧
    (2 ≤ n → reliability (merge_count (identity_permutation n)) (max_inv (n : Int)) = some 1) := by
  have hm : merge_count (identity_permutation n) = 0 := by
    rw [merge_count_eq_invL, invL_identity]
    rfl
  have hb : bit_count_inversions (identity_permutation n) = 0 := by
    rw [bit_count_inversions_eq_invL, invL_identity]
    rfl
  refine ⟨List.Perm.refl _, hm, hb, ?_⟩
  intro hn
  rw [hm, reliability_of_pos _ _ (max_inv_pos n hn)]
  simp

/-- An instance of C13: `n = 3`. -/
theorem counters_identity_witness :
    2 ≤ 3 ∧ identity_permutation 3 = [1, 2, 3] ∧
      reliability (merge_count (identity_permutation 3)) (max_inv ((3 : Nat) : Int)) = some 1 :=
  ⟨by decide, by decide, (counters_identity 3).2.2.2 (by decide)⟩

/-- C14: for every `n ≥ 0`, `merge_count` and `bit_count_inversions` return `n(n-1)/2`, which is
`max_inv`, on the reversed permutation `(n, ..., 2, 1)`, which is a permutation of `1..n`, and
for `n ≥ 2` the reliability computed from that count is exactly `0`. -/
theorem counters_reversed (n : Nat) :
    IsPermutation n (reversed_permutation n) ∧
    merge_count (reversed_permutation n) = ((n * (n - 1) / 2 : Nat) : Int) ∧
    bit_count_inversions (reversed_permutation n) = ((n * (n - 1) / 2 : Nat) : Int) ∧
    max_inv (n : Int) = ((n * (n - 1) / 2 : Nat) : Int) ∧
    (2 ≤ n → reliability (merge_count (reversed_permutation n)) (max_inv (n : Int)) = some 0) := by
  have hm : merge_count (reversed_permutation n) = ((n * (n - 1) / 2 : Nat) : Int) := by
    rw [merge_count_eq_invL, invL_reversed]
  have hb : bit_count_inversions (reversed_permutation n) = ((n * (n - 1) / 2 : Nat) : Int) := by
    rw [bit_count_inversions_eq_invL, invL_reversed]
  refine ⟨List.reverse_perm _, hm, hb, max_inv_natCast n, ?_⟩
  intro hn
  have hpos := max_inv_pos n hn
  rw [hm, ← max_inv_natCast, reliability_of_pos _ _ hpos]
  have : ((max_inv (n : Int) : Int) : ℚ) ≠ 0 := by exact_mod_cast hpos.ne'
  rw [div_self this, sub_self]

/-- An instance of C14: `n = 3`. -/
theorem counters_reversed_witness :
    2 ≤ 3 ∧ reversed_permutation 3 = [3, 2, 1] ∧
      reliability (merge_count (reversed_permutation 3)) (max_inv ((3 : Nat) : Int)) = some 0 :=
  ⟨by decide, by decide, (counters_reversed 3).2.2.2.2 (by decide)⟩

theorem summary_row_small (N : Nat) (hN : N ≤ 1) (a : List Int) :
    (summary_row N a).max_inv = 0 ∧ (summary_row N a).reliability = none := by
  have h0 : max_inv (N : Int) = 0 := by
    interval_cases N <;> decide
  constructor
  · exact h0
  · show reliability _ (max_inv (N : Int)) = none
    rw [h0, reliability_zero_divisor]

/-- C12: on the single source file with the single line `x`, so that the universe has `N = 1`
items, `main` returns `0` with `max_inv = 0` and the row `1, 0, 0, 0, 0`, whose reliability
is the result of the division of `0.0` by `0.0`, which is no number and not `1`; the same
holds of the single empty file, `N = 0`, and of every row of every run whose universe has at
most one item. -/
theorem reliability_divides_by_zero :
    (main (fun s S => (s : ℚ) / S) true [some ['x']]
        = .ok (pipeline (fun s S => (s : ℚ) / S) [['x']]) ∧
      (pipeline (fun s S => (s : ℚ) / S) [['x']]).agg.length = 1 ∧
      (pipeline (fun s S => (s : ℚ) / S) [['x']]).positions = [[1]] ∧
      (pipeline (fun s S => (s : ℚ) / S) [['x']]).summary
        = [{ n := 1, inv_merge := 0, inv_bit := 0, inv_quick := 0, max_inv := 0,
             reliability := none }] ∧
      double_div 0 0 = none) ∧
    (main (fun s S => (s : ℚ) / S) true [some ([] : List Char)]
        = .ok (pipeline (fun s S => (s : ℚ) / S) [[]]) ∧
      (pipeline (fun s S => (s : ℚ) / S) [([] : List Char)]).agg.length = 0 ∧
      (pipeline (fun s S => (s : ℚ) / S) [([] : List Char)]).summary
        = [{ n := 0, inv_merge := 0, inv_bit := 0, inv_quick := 0, max_inv := 0,
             reliability := none }]) ∧
    ∀ src_items : List (List Char),
      (consensus (fun s S => (s : ℚ) / S) src_items).length ≤ 1 →
      ∀ r ∈ (pipeline (fun s S => (s : ℚ) / S) src_items).summary,
        r.max_inv = 0 ∧ r.reliability = none ∧ r.reliability ≠ some 1 := by
  refine ⟨⟨rfl, by decide, by decide, by decide, rfl⟩, ⟨rfl, by decide, by decide⟩, ?_⟩
  intro src_items h r hr
  simp only [pipeline, List.mem_map] at hr
  obtain ⟨a, -, rfl⟩ := hr
  have := summary_row_small _ h a
  exact ⟨this.1, this.2, by rw [this.2]; exact fun e => Option.noConfusion e⟩

section Examples

set_option linter.unusedSectionVars false

variable {ι : Type} [LinearOrder ι] {D : Type} [LinearOrder D]

theorem ex_rows : summary_row 3 [1, 2, 3] = ⟨3, 0, 0, 0, 3, some 1⟩ ∧
    summary_row 3 [2, 1, 3] = ⟨3, 1, 1, 0, 3, some (2 / 3)⟩ := by
  have m1 : merge_count [1, 2, 3] = 0 := by decide
  have m2 : merge_count [2, 1, 3] = 1 := by decide
  have b1 : bit_count_inversions [1, 2, 3] = 0 := by
    rw [← merge_count_eq_bit_count]; decide
  have b2 : bit_count_inversions [2, 1, 3] = 1 := by
    rw [← merge_count_eq_bit_count]; decide
  have q1 : quick_partition_count [1, 2, 3] = 0 := by decide
  have q2 : quick_partition_count [2, 1, 3] = 0 := by decide
  have hm : max_inv ((3 : Nat) : Int) = 3 := by decide
  have r1 : reliability 0 3 = some 1 := by
    rw [reliability_of_pos _ _ (by decide)]; norm_num
  have r2 : reliability 1 3 = some (2 / 3) := by
    rw [reliability_of_pos _ _ (by decide)]; norm_num
  constructor
  · simp only [summary_row, three_way_inv, m1, b1, q1, hm, r1]
    rfl
  · simp only [summary_row, three_way_inv, m2, b2, q2, hm, r2]
    rfl

theorem ex_ranks_distinct (a b c : ι) (h1 : a ≠ b) (h2 : b ≠ c) (h3 : a ≠ c) :
    ranks [[a, b, c], [b, a, c]] = [(a, [1, 2]), (b, [2, 1]), (c, [3, 3])] := by
  have hu : universe_set [[a, b, c], [b, a, c]] = [a, b, c] := by
    simp [universe_set, uset_insert, h1, h2, h3, h1.symm, h2.symm, h3.symm]
  have hm : missing_rank [[a, b, c], [b, a, c]] = 4 := by
    simp [missing_rank, max_len]
  have hi : ranks_init [[a, b, c], [b, a, c]] = [(a, [4, 4]), (b, [4, 4]), (c, [4, 4])] := by
    rw [ranks_init, hu, hm]
    simp [umap_assign, h1, h2, h3, h1.symm, h2.symm, h3.symm, List.replicate]
  rw [ranks, hi]
  simp only [fill_all, fill_source, rank_set, umap_find, umap_assign, h1, h2, h3, h1.symm, h2.symm,
    h3.symm, if_true, if_false, List.set_cons_zero, List.set_cons_succ]
  norm_num

theorem ex_unsorted (avgOf : Int → Nat → D) (a b c : ι) :
    agg_unsorted avgOf 2 [(a, [1, 2]), (b, [2, 1]), (c, [3, 3])]
      = [⟨a, 3, avgOf 3 2⟩, ⟨b, 3, avgOf 3 2⟩, ⟨c, 6, avgOf 6 2⟩] := by
  have hs1 : rank_sum 2 [1, 2] = 3 := by decide
  have hs2 : rank_sum 2 [2, 1] = 3 := by decide
  have hs3 : rank_sum 2 [3, 3] = 6 := by decide
  simp only [agg_unsorted, List.map_cons, List.map_nil, hs1, hs2, hs3]

theorem ex_tie_break (avgOf : Int → Nat → D) (x y : ι) (hxy : x < y) :
    agg_less (⟨x, 3, avgOf 3 2⟩ : Agg ι D) ⟨y, 3, avgOf 3 2⟩ = true ∧
    agg_less (⟨y, 3, avgOf 3 2⟩ : Agg ι D) ⟨x, 3, avgOf 3 2⟩ = false := by
  simp [agg_less, hxy, hxy.not_lt]

theorem ex_target_sorted (avgOf : Int → Nat → D) (x y z : ι) (hxy : x < y) :
    ([⟨x, 3, avgOf 3 2⟩, ⟨y, 3, avgOf 3 2⟩, ⟨z, 6, avgOf 6 2⟩] : List (Agg ι D)).Sorted
      (fun a b => agg_less b a = false) := by
  simp [List.Sorted, agg_less, hxy.not_lt, hxy.le]

theorem ex_sort_any (avgOf : Int → Nat → D) (x y z : ι) (hxy : x < y)
    (out : List (Agg ι D))
    (hp : out.Perm [⟨x, 3, avgOf 3 2⟩, ⟨y, 3, avgOf 3 2⟩, ⟨z, 6, avgOf 6 2⟩])
    (hs : out.Sorted (fun a b => agg_less b a = false)) :
    out = [⟨x, 3, avgOf 3 2⟩, ⟨y, 3, avgOf 3 2⟩, ⟨z, 6, avgOf 6 2⟩] :=
  sorted_agg_unique out _ hp hs (ex_target_sorted avgOf x y z hxy)

theorem ex_aggregate_any (avgOf : Int → Nat → D) (x y z : ι) (hxy : x < y)
    (entries : List (ι × List Int))
    (h : entries.Perm [(x, [1, 2]), (y, [2, 1]), (z, [3, 3])]) :
    aggregate avgOf 2 entries
      = [⟨x, 3, avgOf 3 2⟩, ⟨y, 3, avgOf 3 2⟩, ⟨z, 6, avgOf 6 2⟩] := by
  apply ex_sort_any avgOf x y z hxy _ _ (sort_agg_sorted _)
  refine (sort_agg_perm _).trans ?_
  rw [← ex_unsorted avgOf x y z]
  exact h.map _

theorem ex_pos_target (x y z : ι) (h1 : x ≠ y) (h2 : y ≠ z) (h3 : x ≠ z) (sx sy sz : Int)
    (ax ay az : D) :
    pos_combined [(⟨x, sx, ax⟩ : Agg ι D), ⟨y, sy, ay⟩, ⟨z, sz, az⟩]
      = [(x, 1), (y, 2), (z, 3)] := by
  simp only [pos_combined, pos_combined_from, umap_assign, h1, h2, h3, h1.symm, h2.symm,
    h3.symm, if_true, if_false]
  norm_num

theorem ex_sequences (x y z : ι) (h1 : x ≠ y) (h2 : y ≠ z) (h3 : x ≠ z) (sx sy sz : Int)
    (ax ay az : D) :
    position_sequence [(⟨x, sx, ax⟩ : Agg ι D), ⟨y, sy, ay⟩, ⟨z, sz, az⟩]
      [(x, 1), (y, 2), (z, 3)] [x, y, z] = [1, 2, 3] ∧
    position_sequence [(⟨x, sx, ax⟩ : Agg ι D), ⟨y, sy, ay⟩, ⟨z, sz, az⟩]
      [(x, 1), (y, 2), (z, 3)] [y, x, z] = [2, 1, 3] := by
  constructor
  · simp [position_sequence, umap_find, h1, h2, h3, h1.symm, h2.symm, h3.symm]
  · simp [position_sequence, umap_find, h1, h2, h3, h1.symm, h2.symm, h3.symm]

/-- C16: on the two sources `A = [x, y, z]` and `B = [y, x, z]`, `x < y < z` in the order of
strings, the rank vectors are `x = (1, 2)`, `y = (2, 1)`, `z = (3, 3)` and the sums `3, 3, 6`.
The comparator of the sort puts `x` before `y`, which have the same sum and average, because
`x` is the lesser string, so that in whatever order the entries of the rank table are
enumerated the sorted vector is `x, y, z`, at the positions `1, 2, 3`, and it is the only
arrangement that the comparator accepts as sorted. `main` returns `0` with the position
sequences `[1, 2, 3]` for `A` and `[2, 1, 3]` for `B`, the merge and Fenwick inversion counts
`0` and `1`, `max_inv = 3` and the reliabilities `1` and `2/3`; with the sources given in the
order `B`, `A` the consensus is the same, `x` before `y`, and so are the position sequence and
the row of each source. -/
theorem example_two_sources (avgOf : Int → Nat → D) (x y z : ι) (hxy : x < y) (hyz : y < z) :
    ranks [[x, y, z], [y, x, z]] = [(x, [1, 2]), (y, [2, 1]), (z, [3, 3])] ∧
    combined_position avgOf [[x, y, z], [y, x, z]] = [(x, 1), (y, 2), (z, 3)] ∧
    main avgOf true [some [x, y, z], some [y, x, z]]
      = .ok { agg := [⟨x, 3, avgOf 3 2⟩, ⟨y, 3, avgOf 3 2⟩, ⟨z, 6, avgOf 6 2⟩],
              positions := [[1, 2, 3], [2, 1, 3]],
              summary := [{ n := 3, inv_merge := 0, inv_bit := 0, inv_quick := 0, max_inv := 3,
                            reliability := some 1 },
                          { n := 3, inv_merge := 1, inv_bit := 1, inv_quick := 0, max_inv := 3,
                            reliability := some (2 / 3) }] } ∧
    (umap_find (ranks [[x, y, z], [y, x, z]]) x = some [1, 2] ∧
      umap_find (ranks [[x, y, z], [y, x, z]]) y = some [2, 1] ∧
      umap_find (ranks [[x, y, z], [y, x, z]]) z = some [3, 3]) ∧
    (agg_less (⟨x, 3, avgOf 3 2⟩ : Agg ι D) ⟨y, 3, avgOf 3 2⟩ = true ∧
      agg_less (⟨y, 3, avgOf 3 2⟩ : Agg ι D) ⟨x, 3, avgOf 3 2⟩ = false) ∧
    (∀ entries : List (ι × List Int), entries.Perm (ranks [[x, y, z], [y, x, z]]) →
      (aggregate avgOf 2 entries
          = [⟨x, 3, avgOf 3 2⟩, ⟨y, 3, avgOf 3 2⟩, ⟨z, 6, avgOf 6 2⟩] ∧
        pos_combined (aggregate avgOf 2 entries) = [(x, 1), (y, 2), (z, 3)] ∧
        position_sequence (aggregate avgOf 2 entries) (pos_combined (aggregate avgOf 2 entries))
          [x, y, z] = [1, 2, 3] ∧
        position_sequence (aggregate avgOf 2 entries) (pos_combined (aggregate avgOf 2 entries))
          [y, x, z] = [2, 1, 3]) ∧
      ∀ out : List (Agg ι D), out.Perm (agg_unsorted avgOf 2 entries) →
        out.Sorted (fun a b => agg_less b a = false) →
        out = [⟨x, 3, avgOf 3 2⟩, ⟨y, 3, avgOf 3 2⟩, ⟨z, 6, avgOf 6 2⟩]) ∧
    main avgOf true [some [y, x, z], some [x, y, z]]
      = .ok { agg := [⟨x, 3, avgOf 3 2⟩, ⟨y, 3, avgOf 3 2⟩, ⟨z, 6, avgOf 6 2⟩],
              positions := [[2, 1, 3], [1, 2, 3]],
              summary := [{ n := 3, inv_merge := 1, inv_bit := 1, inv_quick := 0, max_inv := 3,
                            reliability := some (2 / 3) },
                          { n := 3, inv_merge := 0, inv_bit := 0, inv_quick := 0, max_inv := 3,
                            reliability := some 1 }] } := by
  have h1 : x ≠ y := hxy.ne
  have h2 : y ≠ z := hyz.ne
  have h3 : x ≠ z := (hxy.trans hyz).ne
  have hr := ex_ranks_distinct x y z h1 h2 h3
  have hpos := ex_pos_target x y z h1 h2 h3 3 3 6 (avgOf 3 2) (avgOf 3 2) (avgOf 6 2)
  have hseq := ex_sequences x y z h1 h2 h3 3 3 6 (avgOf 3 2) (avgOf 3 2) (avgOf 6 2)
  have hagg := ex_aggregate_any avgOf x y z hxy
  have hc : consensus avgOf [[x, y, z], [y, x, z]]
      = [⟨x, 3, avgOf 3 2⟩, ⟨y, 3, avgOf 3 2⟩, ⟨z, 6, avgOf 6 2⟩] := by
    rw [consensus, hr]
    exact hagg _ (List.Perm.refl _)
  have hc' : consensus avgOf [[y, x, z], [x, y, z]]
      = [⟨x, 3, avgOf 3 2⟩, ⟨y, 3, avgOf 3 2⟩, ⟨z, 6, avgOf 6 2⟩] := by
    rw [consensus, ex_ranks_distinct y x z h1.symm h3 h2, aggregate]
    apply ex_sort_any avgOf x y z hxy _ _ (sort_agg_sorted _)
    refine (sort_agg_perm _).trans ?_
    rw [show [[y, x, z], [x, y, z]].length = 2 from rfl, ex_unsorted avgOf y x z]
    exact List.Perm.swap _ _ _
  refine ⟨hr, by rw [combined_position, hc, hpos], ?_, ?_, ex_tie_break avgOf x y hxy, ?_, ?_⟩
  · have hm : main avgOf true [some [x, y, z], some [y, x, z]]
        = .ok (pipeline avgOf [[x, y, z], [y, x, z]]) := rfl
    rw [hm, pipeline]
    simp only [List.map_cons, List.map_nil, positions_of, combined_position, hc, hpos, hseq.1,
      hseq.2, List.length_cons, List.length_nil, ex_rows.1, ex_rows.2]
  · rw [hr]
    simp [umap_find, h1, h2, h3, h1.symm, h2.symm, h3.symm]
  · intro entries he
    rw [hr] at he
    refine ⟨?_, ?_⟩
    · rw [hagg entries he, hpos]
      exact ⟨rfl, rfl, hseq.1, hseq.2⟩
    · intro out hp hs
      apply ex_sort_any avgOf x y z hxy out _ hs
      refine hp.trans ?_
      rw [← ex_unsorted avgOf x y z]
      exact he.map _
  · have hm : main avgOf true [some [y, x, z], some [x, y, z]]
        = .ok (pipeline avgOf [[y, x, z], [x, y, z]]) := rfl
    rw [hm, pipeline]
    simp only [List.map_cons, List.map_nil, positions_of, combined_position, hc', hpos, hseq.1,
      hseq.2, List.length_cons, List.length_nil, ex_rows.1, ex_rows.2]

/-- An instance of C16: the items are the characters `x`, `y`, `z`, and the average is the
rational quotient; the rank table is enumerated in the order `y`, `z`, `x`. -/
theorem example_two_sources_witness :
    ('x' < 'y' ∧ 'y' < 'z') ∧
    (∃ out, main (fun s S => (s : ℚ) / S) true [some ['x', 'y', 'z'], some ['y', 'x', 'z']]
        = .ok out ∧
      out.positions = [[1, 2, 3], [2, 1, 3]] ∧
      out.summary.map Row.reliability = [some 1, some (2 / 3)]) ∧
    [('y', [2, 1]), ('z', [3, 3]), ('x', [1, 2])].Perm
      (ranks [['x', 'y', 'z'], ['y', 'x', 'z']]) ∧
    (aggregate (fun s S => (s : ℚ) / S) 2 [('y', [2, 1]), ('z', [3, 3]), ('x', [1, 2])]).map
      Agg.item = ['x', 'y', 'z'] := by
  have h := example_two_sources (fun s S => (s : ℚ) / S) 'x' 'y' 'z' (by decide) (by decide)
  have hp : [('y', [2, 1]), ('z', [3, 3]), ('x', [1, 2])].Perm
      (ranks [['x', 'y', 'z'], ['y', 'x', 'z']]) := by decide
  refine ⟨⟨by decide, by decide⟩, ⟨_, h.2.2.1, rfl, rfl⟩, hp, ?_⟩
  rw [(h.2.2.2.2.2.1 _ hp).1.1]
  rfl

/-- C17: when `agg` holds the items `x`, `y`, `z` in this order, so that the combined
positions are `x = 1`, `y = 2`, `z = 3`, the position mapper gives `[3, 1, 2]` for the source
`C = [z]`: the position of `z`, then those of the absent items `x` and `y` in ascending
position; on it the merge and Fenwick counters return `2`, `max_inv` is `3` and the
reliability is `1/3`. -/
theorem example_partial_source (x y z : ι) (hxy : x ≠ y) (hyz : y ≠ z) (hxz : x ≠ z)
    (sx sy sz : Int) (ax ay az : D) :
    pos_combined [(⟨x, sx, ax⟩ : Agg ι D), ⟨y, sy, ay⟩, ⟨z, sz, az⟩]
      = [(x, 1), (y, 2), (z, 3)] ∧
    position_sequence [(⟨x, sx, ax⟩ : Agg ι D), ⟨y, sy, ay⟩, ⟨z, sz, az⟩]
      (pos_combined [(⟨x, sx, ax⟩ : Agg ι D), ⟨y, sy, ay⟩, ⟨z, sz, az⟩]) [z] = [3, 1, 2] ∧
    merge_count [3, 1, 2] = 2 ∧ bit_count_inversions [3, 1, 2] = 2 ∧
    max_inv (([(⟨x, sx, ax⟩ : Agg ι D), ⟨y, sy, ay⟩, ⟨z, sz, az⟩].length : Nat) : Int) = 3 ∧
    summary_row [(⟨x, sx, ax⟩ : Agg ι D), ⟨y, sy, ay⟩, ⟨z, sz, az⟩].length [3, 1, 2]
      = { n := 3, inv_merge := 2, inv_bit := 2, inv_quick := 0, max_inv := 3,
          reliability := some (1 / 3) } := by
  have hp : pos_combined [(⟨x, sx, ax⟩ : Agg ι D), ⟨y, sy, ay⟩, ⟨z, sz, az⟩]
      = [(x, 1), (y, 2), (z, 3)] := by
    simp only [pos_combined, pos_combined_from, umap_assign, hxy, hyz, hxz, hxy.symm, hyz.symm,
      hxz.symm, if_true, if_false]
    norm_num
  have m : merge_count [3, 1, 2] = 2 := by decide
  have b : bit_count_inversions [3, 1, 2] = 2 := by
    rw [← merge_count_eq_bit_count]; decide
  have q : quick_partition_count [3, 1, 2] = 0 := by decide
  have hm : max_inv ((3 : Nat) : Int) = 3 := by decide
  have r : reliability 2 3 = some (1 / 3) := by
    rw [reliability_of_pos _ _ (by decide)]; norm_num
  refine ⟨hp, ?_, m, b, hm, ?_⟩
  · rw [hp]
    simp [position_sequence, umap_find, hxy, hyz, hxz, hxy.symm, hyz.symm, hxz.symm]
  · simp only [summary_row, three_way_inv, m, b, q, List.length_cons, List.length_nil]
    rw [show (0 + 1 + 1 + 1 : Nat) = 3 from rfl, hm, r]
    rfl

/-- An instance of C17: the items are the characters `x`, `y`, `z`, with the sums and averages
of three sources `[x, y, z]`. -/
theorem example_partial_source_witness :
    ('x' ≠ 'y' ∧ 'y' ≠ 'z' ∧ 'x' ≠ 'z') ∧
    position_sequence [(⟨'x', 3, 1⟩ : Agg Char ℚ), ⟨'y', 6, 2⟩, ⟨'z', 9, 3⟩]
      (pos_combined [(⟨'x', 3, 1⟩ : Agg Char ℚ), ⟨'y', 6, 2⟩, ⟨'z', 9, 3⟩]) ['z'] = [3, 1, 2] :=
  ⟨⟨by decide, by decide, by decide⟩,
    (example_partial_source 'x' 'y' 'z' (by decide) (by decide) (by decide) 3 6 9
      (1 : ℚ) 2 3).2.1⟩

theorem read_files_some (l : List (List ι)) : ∀ acc : List (List ι),
    read_files (l.map some) acc = .ok (acc ++ l) := by
  induction l with
  | nil => intro acc; simp [read_files]
  | cons a rest ih =>
    intro acc
    rw [List.map_cons, read_files, ih]
    simp

/-- The counterexample to C18: on the single source with the lines `x`, `y`, `x`, in which `x`
occurs twice, `main` returns `0` and reports no error: the rank of `x` is `3`, that of its
later occurrence, the consensus order is `y`, `x`, the position sequence `[2, 1, 2]` has three
entries for a universe of two items, and the row is `3, 1, 1, 0, 1` with the reliability
`0`. -/
theorem duplicate_item_not_detected :
    ¬ ['x', 'y', 'x'].Nodup ∧
    ranks [['x', 'y', 'x']] = [('x', [3]), ('y', [2])] ∧
    main (fun s S => (s : ℚ) / S) true [some ['x', 'y', 'x']]
      = .ok (pipeline (fun s S => (s : ℚ) / S) [['x', 'y', 'x']]) ∧
    (pipeline (fun s S => (s : ℚ) / S) [['x', 'y', 'x']]).agg.map Agg.item = ['y', 'x'] ∧
    (pipeline (fun s S => (s : ℚ) / S) [['x', 'y', 'x']]).positions = [[2, 1, 2]] ∧
    (pipeline (fun s S => (s : ℚ) / S) [['x', 'y', 'x']]).summary
      = [{ n := 3, inv_merge := 1, inv_bit := 1, inv_quick := 0, max_inv := 1,
           reliability := some 0 }] := by
  have hp : (pipeline (fun s S => (s : ℚ) / S) [['x', 'y', 'x']]).positions = [[2, 1, 2]] := by
    decide
  have hl : (consensus (fun s S => (s : ℚ) / S) [['x', 'y', 'x']]).length = 2 := by decide
  have m : merge_count [2, 1, 2] = 1 := by decide
  have b : bit_count_inversions [2, 1, 2] = 1 := by
    rw [← merge_count_eq_bit_count]; decide
  have q : quick_partition_count [2, 1, 2] = 0 := by decide
  have hm : max_inv ((2 : Nat) : Int) = 1 := by decide
  have r : reliability 1 1 = some 0 := by
    rw [reliability_of_pos _ _ (by decide)]; norm_num
  refine ⟨by decide, by decide, rfl, by decide, hp, ?_⟩
  have hs : (pipeline (fun s S => (s : ℚ) / S) [['x', 'y', 'x']]).summary
      = (pipeline (fun s S => (s : ℚ) / S) [['x', 'y', 'x']]).positions.map
          (fun a => summary_row (consensus (fun s S => (s : ℚ) / S) [['x', 'y', 'x']]).length a) :=
    rfl
  rw [hs, hp, hl]
  simp only [List.map_cons, List.map_nil, summary_row, three_way_inv, m, b, q, hm, r]
  rfl

/-- C18, amended: no source list is detected as invalid. For every non-empty list of files
that can be opened, `main`, called with `--out`, returns `0` with the consensus, the position
sequences and the rows of the pipeline, whether or not a source holds an item more than
once; the rank of an item in a source that holds it is the 1-based index of its last
occurrence there, a later occurrence overwriting the entry of an earlier one. -/
theorem main_accepts_repeated_items (avgOf : Int → Nat → D) (src_items : List (List ι))
    (h : src_items ≠ []) :
    main avgOf true (src_items.map some) = .ok (pipeline avgOf src_items) ∧
    ∀ x, x ∈ universe_set src_items → ∃ vec, umap_find (ranks src_items) x = some vec ∧
      ∀ s, s < src_items.length → x ∈ src_items.getD s [] →
        vec.getD s 0 = (lastIdx x (src_items.getD s []) : Int) + 1 := by
  constructor
  · unfold main
    have h1 : ¬ ((if true = true then 2 else 0) + (src_items.map some).length + 1 < 3) := by
      simp
    have h2 : (!true || (src_items.map some).isEmpty) = false := by
      cases src_items with
      | nil => exact absurd rfl h
      | cons a rest => rfl
    rw [if_neg h1, h2, read_files_some]
    rfl
  · intro x hx
    obtain ⟨vec, e, -, hg⟩ := ranks_find src_items x hx
    refine ⟨vec, e, ?_⟩
    intro s hs hxs
    rw [hg s hs, if_pos hxs]

/-- An instance of the amended C18: the single source `x`, `y`, `x`. -/
theorem main_accepts_repeated_items_witness :
    [['x', 'y', 'x']] ≠ [] ∧
    main (fun s S => (s : ℚ) / S) true ([['x', 'y', 'x']].map some)
      = .ok (pipeline (fun s S => (s : ℚ) / S) [['x', 'y', 'x']]) :=
  ⟨by decide, (main_accepts_repeated_items (fun s S => (s : ℚ) / S) [['x', 'y', 'x']]
    (by decide)).1⟩

end Examples


theorem addLoop_succ_fuel (n : Nat) (v : Int) : ∀ (fuel i : Nat) (f : List Int),
    0 < i → n + 1 - i ≤ fuel → BIT.addLoop n v (fuel + 1) i f = BIT.addLoop n v fuel i f := by
  intro fuel
  induction fuel with
  | zero =>
    intro i f hi hf
    have : ¬ i ≤ n := by omega
    simp [BIT.addLoop, this]
  | succ fuel ih =>
    intro i f hi hf
    rw [BIT.addLoop]
    by_cases h : i ≤ n
    · have hl := lowbit_pos i hi
      rw [if_pos h, ih _ _ (by omega) (by omega)]
      conv_rhs => rw [BIT.addLoop, if_pos h]
    · rw [if_neg h]
      conv_rhs => rw [BIT.addLoop, if_neg h]

theorem addLoop_more_fuel (n : Nat) (v : Int) (i : Nat) (f : List Int) (hi : 0 < i) :
    ∀ k, BIT.addLoop n v (n + k) i f = BIT.addLoop n v n i f := by
  intro k
  induction k with
  | zero => rfl
  | succ k ih => rw [← ih, ← Nat.add_assoc, addLoop_succ_fuel n v (n + k) i f hi (by omega)]

theorem sumLoop_succ_fuel (f : List Int) : ∀ (fuel i : Nat) (s : Int),
    i ≤ fuel → BIT.sumLoop f (fuel + 1) i s = BIT.sumLoop f fuel i s := by
  intro fuel
  induction fuel with
  | zero =>
    intro i s hf
    have : ¬ i > 0 := by omega
    simp [BIT.sumLoop, this]
  | succ fuel ih =>
    intro i s hf
    rw [BIT.sumLoop]
    by_cases h : i > 0
    · have hl := lowbit_pos i h
      rw [if_pos h, ih _ _ (by omega)]
      conv_rhs => rw [BIT.sumLoop, if_pos h]
    · rw [if_neg h]
      conv_rhs => rw [BIT.sumLoop, if_neg h]

theorem sumLoop_more_fuel (f : List Int) (i : Nat) (s : Int) :
    ∀ k, BIT.sumLoop f (i + k) i s = BIT.sumLoop f i i s := by
  intro k
  induction k with
  | zero => rfl
  | succ k ih => rw [← ih, ← Nat.add_assoc, sumLoop_succ_fuel f (i + k) i s (by omega)]

theorem addIndices_range (n : Nat) : ∀ (fuel i : Nat), 0 < i →
    ∀ j ∈ BIT.addIndices n fuel i, i ≤ j ∧ j ≤ n := by
  intro fuel
  induction fuel with
  | zero => intro i _ j hj; simp [BIT.addIndices] at hj
  | succ fuel ih =>
    intro i hi j hj
    rw [BIT.addIndices] at hj
    by_cases h : i ≤ n
    · rw [if_pos h] at hj
      rcases List.mem_cons.1 hj with e | hj
      · subst e; exact ⟨le_refl _, h⟩
      · have := ih (i + lowbit i) (by omega) j hj
        omega
    · rw [if_neg h] at hj
      simp at hj

theorem sumIndices_range : ∀ (fuel i : Nat), ∀ j ∈ BIT.sumIndices fuel i, 0 < j ∧ j ≤ i := by
  intro fuel
  induction fuel with
  | zero => intro i j hj; simp [BIT.sumIndices] at hj
  | succ fuel ih =>
    intro i j hj
    rw [BIT.sumIndices] at hj
    by_cases h : i > 0
    · rw [if_pos h] at hj
      rcases List.mem_cons.1 hj with e | hj
      · subst e; exact ⟨h, le_refl _⟩
      · have := ih (i - lowbit i) j hj
        omega
    · rw [if_neg h] at hj
      simp at hj

theorem arrOf_append (calls : List (Nat × Int)) (i : Nat) (v : Int) :
    arrOf (calls ++ [(i, v)]) = Function.update (arrOf calls) i (arrOf calls i + v) := by
  funext t
  unfold arrOf
  by_cases h : t = i
  · subst h
    simp [List.filter_append]
  · have h2 : ¬ i = t := fun e => h e.symm
    rw [Function.update_noteq h]
    simp [List.filter_append, h2]

theorem afterCalls_represents (n : Nat) (calls : List (Nat × Int))
    (h : ∀ c ∈ calls, 1 ≤ c.1 ∧ c.1 ≤ n) :
    (BIT.afterCalls n calls).n = n ∧
      Represents n (BIT.afterCalls n calls).f (arrOf calls) := by
  induction calls using List.reverseRecOn with
  | nil =>
    refine ⟨rfl, ?_⟩
    have : arrOf [] = fun _ => 0 := by funext t; simp [arrOf]
    rw [this]
    exact Represents_init n
  | append_singleton calls c ih =>
    obtain ⟨hn, hrep⟩ := ih (fun c hc => h c (List.mem_append_left _ hc))
    have hc := h c (List.mem_append_right _ (List.mem_singleton_self c))
    have e : BIT.afterCalls n (calls ++ [c]) = (BIT.afterCalls n calls).add c.1 c.2 := by
      simp [BIT.afterCalls, List.foldl_append]
    rw [e]
    refine ⟨hn, ?_⟩
    have := BIT_add_spec (BIT.afterCalls n calls) (arrOf calls) (by rw [hn]; exact hrep) c.1 c.2
      (by omega) (by rw [hn]; exact hc.2)
    rw [show c = (c.1, c.2) from rfl, arrOf_append]
    have hn2 : ((BIT.afterCalls n calls).add c.1 c.2).n = n := hn
    rw [hn2] at this
    exact this

theorem prefixSum_arrOf (calls : List (Nat × Int)) (h : ∀ c ∈ calls, 1 ≤ c.1) (i : Nat) :
    prefixSum (arrOf calls) i
      = ((calls.filter (fun c => decide (c.1 ≤ i))).map Prod.snd).sum := by
  induction calls with
  | nil => simp [prefixSum, arrOf]
  | cons c calls ih =>
    have hc := h c (List.mem_cons_self _ _)
    have hsplit : prefixSum (arrOf (c :: calls)) i
        = (if c.1 ≤ i then c.2 else 0) + prefixSum (arrOf calls) i := by
      unfold prefixSum arrOf
      simp only [List.filter_cons, decide_eq_true_eq]
      have : ∀ t, (List.map Prod.snd (if c.1 = t then
            c :: List.filter (fun c => decide (c.1 = t)) calls
          else List.filter (fun c => decide (c.1 = t)) calls)).sum
          = (if c.1 = t then c.2 else 0)
            + (List.map Prod.snd (List.filter (fun c => decide (c.1 = t)) calls)).sum := by
        intro t
        by_cases e : c.1 = t
        · simp [e]
        · simp [e]
      simp only [this, Finset.sum_add_distrib]
      congr 1
      rw [Finset.sum_ite_eq]
      simp only [Finset.mem_Ioc]
      by_cases e : c.1 ≤ i
      · rw [if_pos e, if_pos ⟨by omega, e⟩]
      · rw [if_neg e, if_neg (fun hh => e hh.2)]
    rw [hsplit, ih (fun c hc => h c (List.mem_cons_of_mem _ hc))]
    by_cases e : c.1 ≤ i
    · simp [List.filter_cons, e]
    · simp [List.filter_cons, e]

/-- C24: for a `BIT` of size `n` that starts from all zeros and any sequence of calls
`add(i_k, v_k)` with `1 ≤ i_k ≤ n`, `sum(i)` returns, for every `0 ≤ i ≤ n`, the sum of the
`v_k` over all `k` with `i_k ≤ i`. Both loops end by their condition, a greater bound on the
number of iterations changing nothing, and the loop of `add` touches only cells of
`f[i..n]`, that of `sum(i)` only cells of `f[1..i]`, all within `f[1..n]` of the `n + 1`
cells. -/
theorem bit_prefix_sums (n : Nat) (calls : List (Nat × Int))
    (h : ∀ c ∈ calls, 1 ≤ c.1 ∧ c.1 ≤ n) :
    (∀ i, i ≤ n → (BIT.afterCalls n calls).sum i
      = ((calls.filter (fun c => decide (c.1 ≤ i))).map Prod.snd).sum) ∧
    ((BIT.afterCalls n calls).n = n ∧ (BIT.afterCalls n calls).f.length = n + 1) ∧
    (∀ (i : Nat) (v : Int) (f : List Int), 1 ≤ i →
      (∀ k, BIT.addLoop n v (n + k) i f = BIT.addLoop n v n i f) ∧
      ∀ j ∈ BIT.addIndices n n i, 1 ≤ j ∧ j ≤ n) ∧
    (∀ (i : Nat) (s : Int) (f : List Int), i ≤ n →
      (∀ k, BIT.sumLoop f (i + k) i s = BIT.sumLoop f i i s) ∧
      ∀ j ∈ BIT.sumIndices i i, 1 ≤ j ∧ j ≤ n) := by
  obtain ⟨hn, hrep⟩ := afterCalls_represents n calls h
  refine ⟨?_, ⟨hn, hrep.1⟩, ?_, ?_⟩
  · intro i hi
    rw [BIT_sum_spec _ (arrOf calls) (by rw [hn]; exact hrep) i (by rw [hn]; exact hi),
      prefixSum_arrOf calls (fun c hc => (h c hc).1)]
  · intro i v f hi
    refine ⟨addLoop_more_fuel n v i f hi, ?_⟩
    intro j hj
    have := addIndices_range n n i hi j hj
    omega
  · intro i s f hi
    refine ⟨sumLoop_more_fuel f i s, ?_⟩
    intro j hj
    have := sumIndices_range i i j hj
    omega

/-- An instance of C24: a tree of size `4` after `add(2, 5)`, `add(4, -1)`, `add(2, 3)`. -/
theorem bit_prefix_sums_witness :
    (∀ c ∈ [((2 : Nat), (5 : Int)), (4, -1), (2, 3)], 1 ≤ c.1 ∧ c.1 ≤ 4) ∧
    (BIT.afterCalls 4 [(2, 5), (4, -1), (2, 3)]).sum 3 = 8 :=
  ⟨by decide, by
    rw [(bit_prefix_sums 4 [(2, 5), (4, -1), (2, 3)] (by decide)).1 3 (by decide)]
    decide⟩

section LastOccurrence

set_option linter.unusedSectionVars false

variable {ι : Type} [LinearOrder ι] {D : Type} [LinearOrder D]

theorem lastIdx_spec (x : ι) : ∀ (l : List ι), x ∈ l →
    lastIdx x l < l.length ∧ l[lastIdx x l]? = some x ∧
      (∀ j, lastIdx x l < j → l[j]? ≠ some x) ∧ l.indexOf x ≤ lastIdx x l ∧
      (2 ≤ l.count x → l.indexOf x < lastIdx x l) := by
  intro l
  induction l with
  | nil => intro h; simp at h
  | cons y rest ih =>
    intro h
    rw [lastIdx]
    by_cases hr : x ∈ rest
    · obtain ⟨h1, h2, h3, h4, h5⟩ := ih hr
      rw [if_pos hr]
      refine ⟨by simpa using h1, by simpa using h2, ?_, ?_, ?_⟩
      · intro j hj
        cases j with
        | zero => omega
        | succ j =>
          rw [List.getElem?_cons_succ]
          exact h3 j (by omega)
      · rw [List.indexOf_cons]
        by_cases e : y = x
        · simp [e]
        · have : (y == x) = false := by simpa using e
          rw [this]
          simp only [cond_false]
          omega
      · intro _
        rw [List.indexOf_cons]
        by_cases e : y = x
        · simp [e]
        · have e2 : (y == x) = false := by simpa using e
          rw [e2]
          simp only [cond_false]
          have : 2 ≤ rest.count x := by
            rw [List.count_cons] at *
            simp only [e2] at *
            simpa using ‹2 ≤ _›
          have := h5 this
          omega
    · rw [if_neg hr]
      have e : y = x := by
        rcases List.mem_cons.1 h with e | e
        · exact e.symm
        · exact absurd e hr
      subst e
      refine ⟨by simp, by simp, ?_, by simp, ?_⟩
      · intro j hj
        cases j with
        | zero => omega
        | succ j =>
          rw [List.getElem?_cons_succ]
          intro hh
          exact hr (List.getElem?_mem hh)
      · intro hc
        rw [List.count_cons_self, List.count_eq_zero_of_not_mem hr] at hc
        omega

/-- C25: when an item `x` occurs in the source `s`, once or more than once, the rank recorded
for `x` in that source, `ranks[x][s]`, is the 1-based index of the last occurrence of `x` in
the source: `x` stands at that index and nowhere behind it, and when `x` occurs more than
once this is not the index of its first occurrence, whose entry was overwritten. -/
theorem rank_of_repeated_item (src_items : List (List ι)) (s : Nat) (x : ι)
    (hs : s < src_items.length) (hx : x ∈ src_items.getD s []) :
    ∃ (vec : List Int) (k : Nat), umap_find (ranks src_items) x = some vec ∧
      vec.getD s 0 = (k : Int) + 1 ∧
      k < (src_items.getD s []).length ∧ (src_items.getD s [])[k]? = some x ∧
      (∀ j, k < j → (src_items.getD s [])[j]? ≠ some x) ∧
      (2 ≤ (src_items.getD s []).count x → (src_items.getD s []).indexOf x < k) := by
  have hmem : src_items.getD s [] ∈ src_items := by
    rw [List.getD_eq_getElem _ _ hs]
    exact List.getElem_mem _
  obtain ⟨vec, e, -, hg⟩ := ranks_find src_items x ((mem_universe src_items x).2 ⟨_, hmem, hx⟩)
  obtain ⟨h1, h2, h3, -, h5⟩ := lastIdx_spec x _ hx
  exact ⟨vec, lastIdx x (src_items.getD s []), e, by rw [hg s hs, if_pos hx], h1, h2, h3, h5⟩

/-- An instance of C25: the source `x, y, x`, in which the rank of `x` is `3`. -/
theorem rank_of_repeated_item_witness :
    (0 < [['x', 'y', 'x']].length ∧ 'x' ∈ [['x', 'y', 'x']].getD 0 []) ∧
    ∃ (vec : List Int) (k : Nat), umap_find (ranks [['x', 'y', 'x']]) 'x' = some vec ∧
      vec.getD 0 0 = (k : Int) + 1 ∧ k = 2 := by
  have hs : 0 < [['x', 'y', 'x']].length := by decide
  have hx : 'x' ∈ [['x', 'y', 'x']].getD 0 [] := by decide
  obtain ⟨vec, k, e, hv, hk, hget, hlast, -⟩ := rank_of_repeated_item [['x', 'y', 'x']] 0 'x' hs hx
  refine ⟨⟨hs, hx⟩, vec, k, e, hv, ?_⟩
  have hk3 : k < 3 := hk
  by_contra hne
  have h2 := hlast 2 (by omega)
  exact h2 (by decide)

end LastOccurrence

theorem quick_fuel_nonneg : ∀ (fuel : Nat) (a : List Int),
    0 ≤ quick_partition_count_fuel fuel a := by
  intro fuel
  induction fuel with
  | zero => intro a; simp [quick_partition_count_fuel]
  | succ fuel ih =>
    intro a
    rw [quick_partition_count_fuel]
    by_cases h : a.length ≤ 1
    · rw [if_pos h]
    · rw [if_neg h]
      simp only [partition_eq]
      have h1 := ih (a.filter (fun y => decide (y < a.getD (a.length / 2) 0)))
      have h2 := ih (a.filter (fun y => decide (y > a.getD (a.length / 2) 0)))
      have h3 : (0 : Int) ≤ (crossGL (a.getD (a.length / 2) 0) a : Int) := Int.natCast_nonneg _
      split_ifs <;> omega

theorem quick_fuel_stable : ∀ (fuel : Nat) (a : List Int), a.length ≤ fuel →
    quick_partition_count_fuel (fuel + 1) a = quick_partition_count_fuel fuel a := by
  intro fuel
  induction fuel with
  | zero =>
    intro a ha
    have : a = [] := List.length_eq_zero.1 (by omega)
    subst this
    simp [quick_partition_count_fuel]
  | succ fuel ih =>
    intro a ha
    rw [quick_partition_count_fuel]
    conv_rhs => rw [quick_partition_count_fuel]
    by_cases h : a.length ≤ 1
    · rw [if_pos h, if_pos h]
    · rw [if_neg h, if_neg h]
      simp only [partition_eq]
      have hp : a.getD (a.length / 2) 0 ∈ a := getD_mem_of_lt a _ 0 (by omega)
      have l1 := length_filter_lt_of_mem (fun y => decide (y < a.getD (a.length / 2) 0)) a _ hp
        (by simp)
      have l2 := length_filter_lt_of_mem (fun y => decide (y > a.getD (a.length / 2) 0)) a _ hp
        (by simp)
      rw [ih _ (by omega), ih _ (by omega)]

theorem quick_more_fuel (a : List Int) :
    ∀ k, quick_partition_count_fuel (a.length + k) a = quick_partition_count a := by
  intro k
  induction k with
  | zero => rfl
  | succ k ih => rw [← ih, ← Nat.add_assoc, quick_fuel_stable (a.length + k) a (by omega)]

/-- C26: for every sequence `a` of integers, `quick_partition_count(a)` terminates, the
recursion going to the buckets `less` and `greater`, both shorter than `a`, so that a depth
of `a.size()` is enough and a greater bound changes nothing; and
`0 ≤ quick_partition_count(a) ≤` the number of index pairs `i < j` with `a[i] > a[j]`: what
it counts are inverted pairs, each once, namely all of them but those that involve a pivot,
`pivot_inversions(a)` many. -/
theorem quick_partition_count_bounds (a : List Int) :
    (0 ≤ quick_partition_count a ∧ quick_partition_count a ≤ (inversions a : Int)) ∧
    quick_partition_count a = (inversions a : Int) - (pivot_inversions a : Int) ∧
    (∀ k, quick_partition_count_fuel (a.length + k) a = quick_partition_count a) ∧
    (2 ≤ a.length →
      (partition (a.getD (a.length / 2) 0) a).less.length < a.length ∧
      (partition (a.getD (a.length / 2) 0) a).greater.length < a.length) := by
  have h : quick_partition_count a + (pivot_inversions a : Int) = (invL a : Int) := by
    rw [quick_partition_count, pivot_inversions, quick_fuel_spec a.length a (le_refl _)]
  have h0 : 0 ≤ quick_partition_count a := quick_fuel_nonneg _ _
  have hp : (0 : Int) ≤ (pivot_inversions a : Int) := Int.natCast_nonneg _
  rw [inversions_eq_invL]
  refine ⟨⟨h0, by omega⟩, by omega, quick_more_fuel a, ?_⟩
  intro h2
  have hp : a.getD (a.length / 2) 0 ∈ a := getD_mem_of_lt a _ 0 (by omega)
  rw [partition_eq]
  exact ⟨length_filter_lt_of_mem (fun y => decide (y < a.getD (a.length / 2) 0)) a _ hp (by simp),
    length_filter_lt_of_mem (fun y => decide (y > a.getD (a.length / 2) 0)) a _ hp (by simp)⟩

end RankReliability

namespace Project2

/-! ## Theorems on the graph and its topological sort -/

theorem getD_set_nat (l : List Nat) (k s v d : Nat) :
    (l.set k v).getD s d = if s = k ∧ k < l.length then v else l.getD s d := by
  rw [List.getD_eq_getElem?_getD, List.getD_eq_getElem?_getD, List.getElem?_set]
  by_cases h : k = s
  · subst h
    by_cases h2 : k < l.length
    · simp [h2]
    · simp [h2]
      rw [List.getElem?_eq_none (by omega)]
      rfl
  · have : ¬ s = k := fun e => h e.symm
    simp [h, this]

theorem Frame.refl (vis : List Nat) : Frame vis vis :=
  ⟨rfl, fun _ => Or.inl rfl⟩

theorem Frame.trans {a b c : List Nat} (h1 : Frame a b) (h2 : Frame b c) : Frame a c := by
  refine ⟨h2.1.trans h1.1, ?_⟩
  intro w
  rcases h1.2 w with e1 | ⟨e1, e1'⟩ <;> rcases h2.2 w with e2 | ⟨e2, e2'⟩
  · exact Or.inl (e2.trans e1)
  · exact Or.inr ⟨e1 ▸ e2, e2'⟩
  · exact Or.inr ⟨e1, e2.trans e1'⟩
  · omega

theorem Frame.colors {a b : List Nat} (h : Frame a b) (hc : Colors a) : Colors b := by
  intro w
  rcases h.2 w with e | ⟨_, e⟩
  · rw [e]; exact hc w
  · omega

theorem Frame.gray {a b : List Nat} (h : Frame a b) (w : Nat) :
    b.getD w 0 = 1 ↔ a.getD w 0 = 1 := by
  rcases h.2 w with e | ⟨e1, e2⟩
  · rw [e]
  · omega

theorem Frame.black {a b : List Nat} (h : Frame a b) (w : Nat) (hw : a.getD w 0 = 2) :
    b.getD w 0 = 2 := by
  rcases h.2 w with e | ⟨e1, e2⟩
  · rw [e]; exact hw
  · exact e2

theorem colors_set (vis : List Nat) (u c : Nat) (hc : Colors vis) (h : c ≤ 2) :
    Colors (vis.set u c) := by
  intro w
  rw [getD_set_nat]
  split
  · exact h
  · exact hc w

theorem stackInv_set_gray (adj : List (List Nat)) (vis st : List Nat) (u : Nat)
    (h : StackInv adj vis st) (hu : vis.getD u 0 ≠ 2) : StackInv adj (vis.set u 1) st := by
  refine ⟨h.1, ?_, h.2.2⟩
  intro w
  rw [h.2.1 w, getD_set_nat]
  by_cases hw : w = u ∧ u < vis.length
  · rw [if_pos hw]
    obtain ⟨rfl, _⟩ := hw
    constructor
    · intro e; exact absurd e hu
    · intro e; omega
  · rw [if_neg hw]

theorem dfsChildren_returned (adj : List (List Nat))
    (call : Nat → List Nat → List Nat → DfsResult) (n : Nat)
    (hcall : ∀ c vis st vis' st', vis.length = n → Colors vis → c < n →
      call c vis st = .returned vis' st' →
      Frame vis vis' ∧ vis'.getD c 0 = 2 ∧ (StackInv adj vis st → StackInv adj vis' st')) :
    ∀ cs vis st vis' st', vis.length = n → Colors vis → (∀ c ∈ cs, c < n) →
      dfsChildren call cs vis st = .returned vis' st' →
      Frame vis vis' ∧ (∀ c ∈ cs, vis'.getD c 0 = 2) ∧
        (StackInv adj vis st → StackInv adj vis' st') := by
  intro cs
  induction cs with
  | nil =>
    intro vis st vis' st' _ _ _ h
    simp only [dfsChildren, DfsResult.returned.injEq] at h
    obtain ⟨rfl, rfl⟩ := h
    exact ⟨Frame.refl _, by simp, id⟩
  | cons c rest ih =>
    intro vis st vis' st' hlen hcol hcs h
    rw [dfsChildren] at h
    cases hc : call c vis st with
    | returned v1 s1 =>
      rw [hc] at h
      simp only at h
      obtain ⟨f1, b1, i1⟩ := hcall c vis st v1 s1 hlen hcol (hcs c (List.mem_cons_self _ _)) hc
      obtain ⟨f2, b2, i2⟩ := ih v1 s1 vis' st' (f1.1.trans hlen) (f1.colors hcol)
        (fun c' hc' => hcs c' (List.mem_cons_of_mem _ hc')) h
      refine ⟨f1.trans f2, ?_, fun hi => i2 (i1 hi)⟩
      intro c' hc'
      rcases List.mem_cons.1 hc' with e | e
      · subst e
        exact f2.black _ b1
      · exact b2 c' e
    | thrown v1 =>
      rw [hc] at h
      simp at h
    | outOfFuel =>
      rw [hc] at h
      simp at h

theorem dfs_returned (adj : List (List Nat)) (hr : InRange adj) :
    ∀ fuel u vis st vis' st', vis.length = adj.length → Colors vis → u < adj.length →
      Graph.dfs adj fuel u vis st = .returned vis' st' →
      Frame vis vis' ∧ vis'.getD u 0 = 2 ∧ (StackInv adj vis st → StackInv adj vis' st') := by
  intro fuel
  induction fuel with
  | zero =>
    intro u vis st vis' st' _ _ _ h
    simp [Graph.dfs] at h
  | succ fuel ih =>
    intro u vis st vis' st' hlen hcol hu h
    rw [Graph.dfs] at h
    by_cases h1 : vis.getD u 0 = 1
    · rw [if_pos h1] at h
      simp at h
    · rw [if_neg h1] at h
      by_cases h2 : vis.getD u 0 = 2
      · rw [if_pos h2] at h
        simp only [DfsResult.returned.injEq] at h
        obtain ⟨rfl, rfl⟩ := h
        exact ⟨Frame.refl _, h2, id⟩
      · rw [if_neg h2] at h
        have h0 : vis.getD u 0 = 0 := by
          have := hcol u
          omega
        cases hc : dfsChildren (fun v vis s => Graph.dfs adj fuel v vis s) (adj.getD u [])
            (vis.set u 1) st with
        | returned v1 s1 =>
          rw [hc] at h
          simp only [DfsResult.returned.injEq] at h
          obtain ⟨rfl, rfl⟩ := h
          obtain ⟨f1, b1, i1⟩ := dfsChildren_returned adj _ adj.length
            (fun c vis st vis' st' a b c' d => ih c vis st vis' st' a b c' d)
            (adj.getD u []) (vis.set u 1) st v1 s1 (by simpa using hlen)
            (colors_set vis u 1 hcol (by omega)) (fun c hc' => hr u c hc') hc
          have hlen1 : v1.length = vis.length := by simpa using f1.1
          have hgray : v1.getD u 0 = 1 := by
            rw [f1.gray, getD_set_nat, if_pos ⟨rfl, by omega⟩]
          refine ⟨⟨by simpa using hlen1, ?_⟩, ?_, ?_⟩
          · intro w
            rw [getD_set_nat]
            by_cases hw : w = u
            · subst hw
              rw [if_pos ⟨rfl, by omega⟩]
              exact Or.inr ⟨h0, rfl⟩
            · rw [if_neg (fun e => hw e.1)]
              have := f1.2 w
              rw [getD_set_nat, if_neg (fun e => hw e.1)] at this
              exact this
          · rw [getD_set_nat, if_pos ⟨rfl, by omega⟩]
          · intro hinv
            have hinv1 := i1 (stackInv_set_gray adj vis st u hinv h2)
            have hnot : u ∉ s1 := by
              rw [hinv1.2.1 u, hgray]
              omega
            refine ⟨List.nodup_cons.2 ⟨hnot, hinv1.1⟩, ?_, ?_⟩
            · intro w
              by_cases hw : w = u
              · subst hw
                rw [getD_set_nat, if_pos ⟨rfl, by omega⟩]
                simp
              · rw [List.mem_cons, getD_set_nat, if_neg (fun e => hw e.1), hinv1.2.1 w]
                simp [hw]
            · exact ⟨fun v hv => (hinv1.2.1 v).2 (b1 v hv), hinv1.2.2⟩
        | thrown v1 =>
          rw [hc] at h
          simp at h
        | outOfFuel =>
          rw [hc] at h
          simp at h

theorem dfsChildren_thrown (adj : List (List Nat))
    (call : Nat → List Nat → List Nat → DfsResult) (n : Nat)
    (hret : ∀ c vis st vis' st', vis.length = n → Colors vis → c < n →
      call c vis st = .returned vis' st' →
      Frame vis vis' ∧ vis'.getD c 0 = 2 ∧ (StackInv adj vis st → StackInv adj vis' st'))
    (hthr : ∀ c vis st v, vis.length = n → Colors vis → c < n →
      (∀ g, vis.getD g 0 = 1 → Relation.TransGen (Edge adj) g c) →
      call c vis st = .thrown v → HasCycle adj) :
    ∀ cs vis st v, vis.length = n → Colors vis → (∀ c ∈ cs, c < n) →
      (∀ c ∈ cs, ∀ g, vis.getD g 0 = 1 → Relation.TransGen (Edge adj) g c) →
      dfsChildren call cs vis st = .thrown v → HasCycle adj := by
  intro cs
  induction cs with
  | nil =>
    intro vis st v _ _ _ _ h
    simp [dfsChildren] at h
  | cons c rest ih =>
    intro vis st v hlen hcol hcs hg h
    rw [dfsChildren] at h
    cases hc : call c vis st with
    | returned v1 s1 =>
      rw [hc] at h
      simp only at h
      obtain ⟨f1, -, -⟩ := hret c vis st v1 s1 hlen hcol (hcs c (List.mem_cons_self _ _)) hc
      refine ih v1 s1 v (f1.1.trans hlen) (f1.colors hcol)
        (fun c' hc' => hcs c' (List.mem_cons_of_mem _ hc')) ?_ h
      intro c' hc' g hgray
      exact hg c' (List.mem_cons_of_mem _ hc') g ((f1.gray g).1 hgray)
    | thrown v1 =>
      exact hthr c vis st v1 hlen hcol (hcs c (List.mem_cons_self _ _))
        (hg c (List.mem_cons_self _ _)) hc
    | outOfFuel =>
      rw [hc] at h
      simp at h

theorem dfs_thrown (adj : List (List Nat)) (hr : InRange adj) :
    ∀ fuel u vis st v, vis.length = adj.length → Colors vis → u < adj.length →
      (∀ g, vis.getD g 0 = 1 → Relation.TransGen (Edge adj) g u) →
      Graph.dfs adj fuel u vis st = .thrown v → HasCycle adj := by
  intro fuel
  induction fuel with
  | zero =>
    intro u vis st v _ _ _ _ h
    simp [Graph.dfs] at h
  | succ fuel ih =>
    intro u vis st v hlen hcol hu hg h
    rw [Graph.dfs] at h
    by_cases h1 : vis.getD u 0 = 1
    · exact ⟨u, hg u h1⟩
    · rw [if_neg h1] at h
      by_cases h2 : vis.getD u 0 = 2
      · rw [if_pos h2] at h
        simp at h
      · rw [if_neg h2] at h
        cases hc : dfsChildren (fun v vis s => Graph.dfs adj fuel v vis s) (adj.getD u [])
            (vis.set u 1) st with
        | returned v1 s1 =>
          rw [hc] at h
          simp at h
        | thrown v1 =>
          refine dfsChildren_thrown adj _ adj.length
            (fun c vis st vis' st' a b c' d => dfs_returned adj hr fuel c vis st vis' st' a b c' d)
            (fun c vis st v a b c' d e => ih c vis st v a b c' d e)
            (adj.getD u []) (vis.set u 1) st v1 (by simpa using hlen)
            (colors_set vis u 1 hcol (by omega)) (fun c hc' => hr u c hc') ?_ hc
          intro c hc' g hgray
          rw [getD_set_nat] at hgray
          by_cases hgu : g = u ∧ u < vis.length
          · rw [hgu.1]
            exact Relation.TransGen.single hc'
          · rw [if_neg hgu] at hgray
            exact Relation.TransGen.tail (hg g hgray) hc'
        | outOfFuel =>
          rw [hc] at h
          simp at h

theorem whiteCount_set_gray : ∀ (vis : List Nat) (u : Nat), vis.getD u 0 = 0 → u < vis.length →
    whiteCount (vis.set u 1) + 1 = whiteCount vis := by
  intro vis
  induction vis with
  | nil => intro u _ h; simp at h
  | cons x xs ih =>
    intro u h0 hu
    cases u with
    | zero =>
      simp only [List.getD_cons_zero] at h0
      subst h0
      simp [whiteCount]
    | succ k =>
      simp only [List.getD_cons_succ] at h0
      have := ih k h0 (by simpa using hu)
      unfold whiteCount at this ⊢
      simp only [List.set_cons_succ, List.count_cons]
      omega

theorem whiteCount_frame : ∀ (a b : List Nat), Frame a b → whiteCount b ≤ whiteCount a := by
  intro a
  induction a with
  | nil =>
    intro b h
    have : b = [] := List.length_eq_zero.1 (by simpa using h.1)
    subst this
    exact le_refl _
  | cons x xs ih =>
    intro b h
    cases b with
    | nil => exact absurd h.1 (by simp)
    | cons y ys =>
      have hf : Frame xs ys := by
        refine ⟨by simpa using h.1, ?_⟩
        intro w
        have := h.2 (w + 1)
        simpa using this
      have h0 := h.2 0
      simp only [List.getD_cons_zero] at h0
      have := ih ys hf
      unfold whiteCount at this ⊢
      simp only [List.count_cons]
      have hxy : (if y == 0 then 1 else 0) ≤ (if x == 0 then 1 else 0) := by
        by_cases hy : y = 0
        · have hx : x = 0 := by omega
          simp [hx, hy]
        · simp [hy]
      omega

theorem whiteCount_le_length (vis : List Nat) : whiteCount vis ≤ vis.length :=
  List.count_le_length _ _

theorem dfsChildren_fuel (adj : List (List Nat))
    (call : Nat → List Nat → List Nat → DfsResult) (n fuel : Nat)
    (hret : ∀ c vis st vis' st', vis.length = n → Colors vis → c < n →
      call c vis st = .returned vis' st' →
      Frame vis vis' ∧ vis'.getD c 0 = 2 ∧ (StackInv adj vis st → StackInv adj vis' st'))
    (hfuel : ∀ c vis st, vis.length = n → Colors vis → c < n → whiteCount vis < fuel →
      call c vis st ≠ .outOfFuel) :
    ∀ cs vis st, vis.length = n → Colors vis → (∀ c ∈ cs, c < n) → whiteCount vis < fuel →
      dfsChildren call cs vis st ≠ .outOfFuel := by
  intro cs
  induction cs with
  | nil =>
    intro vis st _ _ _ _
    simp [dfsChildren]
  | cons c rest ih =>
    intro vis st hlen hcol hcs hw
    rw [dfsChildren]
    cases hc : call c vis st with
    | returned v1 s1 =>
      simp only
      obtain ⟨f1, -, -⟩ := hret c vis st v1 s1 hlen hcol (hcs c (List.mem_cons_self _ _)) hc
      exact ih v1 s1 (f1.1.trans hlen) (f1.colors hcol)
        (fun c' hc' => hcs c' (List.mem_cons_of_mem _ hc'))
        (lt_of_le_of_lt (whiteCount_frame _ _ f1) hw)
    | thrown v1 => simp
    | outOfFuel =>
      exact absurd hc (hfuel c vis st hlen hcol (hcs c (List.mem_cons_self _ _)) hw)

theorem dfs_fuel (adj : List (List Nat)) (hr : InRange adj) :
    ∀ fuel u vis st, vis.length = adj.length → Colors vis → u < adj.length →
      whiteCount vis < fuel → Graph.dfs adj fuel u vis st ≠ .outOfFuel := by
  intro fuel
  induction fuel with
  | zero =>
    intro u vis st _ _ _ h
    omega
  | succ fuel ih =>
    intro u vis st hlen hcol hu hw
    rw [Graph.dfs]
    by_cases h1 : vis.getD u 0 = 1
    · rw [if_pos h1]
      simp
    · rw [if_neg h1]
      by_cases h2 : vis.getD u 0 = 2
      · rw [if_pos h2]
        simp
      · rw [if_neg h2]
        have h0 : vis.getD u 0 = 0 := by
          have := hcol u
          omega
        have hwc := whiteCount_set_gray vis u h0 (by omega)
        have hc := dfsChildren_fuel adj (fun v vis s => Graph.dfs adj fuel v vis s) adj.length fuel
          (fun c vis st vis' st' a b c' d => dfs_returned adj hr fuel c vis st vis' st' a b c' d)
          (fun c vis st a b c' d => ih c vis st a b c' d)
          (adj.getD u []) (vis.set u 1) st (by simpa using hlen)
          (colors_set vis u 1 hcol (by omega)) (fun c hc' => hr u c hc') (by omega)
        cases hres : dfsChildren (fun v vis s => Graph.dfs adj fuel v vis s) (adj.getD u [])
            (vis.set u 1) st with
        | returned v1 s1 => simp
        | thrown v1 => simp
        | outOfFuel => exact absurd hres hc

theorem topoLoop_returned (adj : List (List Nat)) (hr : InRange adj) :
    ∀ nodes vis st vis' st', vis.length = adj.length → Colors vis →
      (∀ u ∈ nodes, u < adj.length) → (∀ w, vis.getD w 0 ≠ 1) → StackInv adj vis st →
      topoLoop adj nodes vis st = .returned vis' st' →
      Frame vis vis' ∧ (∀ w, vis'.getD w 0 ≠ 1) ∧ StackInv adj vis' st' ∧
        ∀ u ∈ nodes, vis'.getD u 0 = 2 := by
  intro nodes
  induction nodes with
  | nil =>
    intro vis st vis' st' _ _ _ hg hinv h
    simp only [topoLoop, DfsResult.returned.injEq] at h
    obtain ⟨rfl, rfl⟩ := h
    exact ⟨Frame.refl _, hg, hinv, by simp⟩
  | cons node rest ih =>
    intro vis st vis' st' hlen hcol hn hg hinv h
    rw [topoLoop] at h
    have hrest : ∀ u ∈ rest, u < adj.length := fun u hu => hn u (List.mem_cons_of_mem _ hu)
    by_cases h0 : vis.getD node 0 = 0
    · rw [if_pos h0] at h
      cases hc : Graph.dfs adj (adj.length + 1) node vis st with
      | returned v1 s1 =>
        rw [hc] at h
        simp only at h
        obtain ⟨f1, b1, i1⟩ := dfs_returned adj hr _ node vis st v1 s1 hlen hcol
          (hn node (List.mem_cons_self _ _)) hc
        have hg1 : ∀ w, v1.getD w 0 ≠ 1 := fun w e => hg w ((f1.gray w).1 e)
        obtain ⟨f2, g2, i2, b2⟩ := ih v1 s1 vis' st' (f1.1.trans hlen) (f1.colors hcol) hrest hg1
          (i1 hinv) h
        refine ⟨f1.trans f2, g2, i2, ?_⟩
        intro u hu
        rcases List.mem_cons.1 hu with e | e
        · subst e
          exact f2.black _ b1
        · exact b2 u e
      | thrown v1 =>
        rw [hc] at h
        simp at h
      | outOfFuel =>
        rw [hc] at h
        simp at h
    · rw [if_neg h0] at h
      obtain ⟨f2, g2, i2, b2⟩ := ih vis st vis' st' hlen hcol hrest hg hinv h
      refine ⟨f2, g2, i2, ?_⟩
      intro u hu
      rcases List.mem_cons.1 hu with e | e
      · subst e
        have h2 : vis.getD u 0 = 2 := by
          have := hcol u
          have := hg u
          omega
        exact f2.black _ h2
      · exact b2 u e

theorem topoLoop_thrown (adj : List (List Nat)) (hr : InRange adj) :
    ∀ nodes vis st v, vis.length = adj.length → Colors vis →
      (∀ u ∈ nodes, u < adj.length) → (∀ w, vis.getD w 0 ≠ 1) →
      topoLoop adj nodes vis st = .thrown v → HasCycle adj := by
  intro nodes
  induction nodes with
  | nil =>
    intro vis st v _ _ _ _ h
    simp [topoLoop] at h
  | cons node rest ih =>
    intro vis st v hlen hcol hn hg h
    rw [topoLoop] at h
    have hrest : ∀ u ∈ rest, u < adj.length := fun u hu => hn u (List.mem_cons_of_mem _ hu)
    by_cases h0 : vis.getD node 0 = 0
    · rw [if_pos h0] at h
      cases hc : Graph.dfs adj (adj.length + 1) node vis st with
      | returned v1 s1 =>
        rw [hc] at h
        simp only at h
        obtain ⟨f1, -, -⟩ := dfs_returned adj hr _ node vis st v1 s1 hlen hcol
          (hn node (List.mem_cons_self _ _)) hc
        exact ih v1 s1 v (f1.1.trans hlen) (f1.colors hcol) hrest
          (fun w e => hg w ((f1.gray w).1 e)) h
      | thrown v1 =>
        exact dfs_thrown adj hr _ node vis st v1 hlen hcol (hn node (List.mem_cons_self _ _))
          (fun g e => absurd e (hg g)) hc
      | outOfFuel =>
        rw [hc] at h
        simp at h
    · rw [if_neg h0] at h
      exact ih vis st v hlen hcol hrest hg h

theorem topoLoop_fuel (adj : List (List Nat)) (hr : InRange adj) :
    ∀ nodes vis st, vis.length = adj.length → Colors vis →
      (∀ u ∈ nodes, u < adj.length) → topoLoop adj nodes vis st ≠ .outOfFuel := by
  intro nodes
  induction nodes with
  | nil =>
    intro vis st _ _ _
    simp [topoLoop]
  | cons node rest ih =>
    intro vis st hlen hcol hn
    rw [topoLoop]
    have hrest : ∀ u ∈ rest, u < adj.length := fun u hu => hn u (List.mem_cons_of_mem _ hu)
    by_cases h0 : vis.getD node 0 = 0
    · rw [if_pos h0]
      have hf := dfs_fuel adj hr (adj.length + 1) node vis st hlen hcol
        (hn node (List.mem_cons_self _ _))
        (by have := whiteCount_le_length vis; omega)
      cases hc : Graph.dfs adj (adj.length + 1) node vis st with
      | returned v1 s1 =>
        simp only
        obtain ⟨f1, -, -⟩ := dfs_returned adj hr _ node vis st v1 s1 hlen hcol
          (hn node (List.mem_cons_self _ _)) hc
        exact ih v1 s1 (f1.1.trans hlen) (f1.colors hcol) hrest
      | thrown v1 => simp
      | outOfFuel => exact absurd hc hf
    · rw [if_neg h0]
      exact ih vis st hlen hcol hrest

theorem popAll_eq : ∀ (st result : List Nat), popAll st result = result ++ st := by
  intro st
  induction st with
  | nil => intro result; simp [popAll]
  | cons top rest ih => intro result; simp [popAll, ih]

theorem addEdge_length (g : Graph) (u v : Nat) : (g.addEdge u v).adj.length = g.adj.length := by
  simp [Graph.addEdge]

theorem addEdge_visited (g : Graph) (u v : Nat) : (g.addEdge u v).visited = g.visited := rfl

theorem getD_set_list (l : List (List Nat)) (k s : Nat) (v : List Nat) :
    (l.set k v).getD s [] = if s = k ∧ k < l.length then v else l.getD s [] := by
  rw [List.getD_eq_getElem?_getD, List.getD_eq_getElem?_getD, List.getElem?_set]
  by_cases h : k = s
  · subst h
    by_cases h2 : k < l.length
    · simp [h2]
    · simp [h2]
      rw [List.getElem?_eq_none (by omega)]
      rfl
  · have : ¬ s = k := fun e => h e.symm
    simp [h, this]

theorem edge_addEdge (g : Graph) (u v a b : Nat) (hu : u < g.adj.length) :
    Edge (g.addEdge u v).adj a b ↔ Edge g.adj a b ∨ (a = u ∧ b = v) := by
  unfold Edge Graph.addEdge
  simp only
  rw [getD_set_list]
  by_cases h : a = u
  · subst h
    rw [if_pos ⟨rfl, hu⟩, List.mem_append, List.mem_singleton]
    simp
  · rw [if_neg (fun e => h e.1)]
    simp [h]

theorem build_foldl (edges : List (Nat × Nat)) : ∀ (g : Graph),
    (∀ e ∈ edges, e.1 < g.adj.length) →
    (edges.foldl (fun g e => g.addEdge e.1 e.2) g).adj.length = g.adj.length ∧
    (edges.foldl (fun g e => g.addEdge e.1 e.2) g).visited = g.visited ∧
    ∀ a b, Edge (edges.foldl (fun g e => g.addEdge e.1 e.2) g).adj a b
      ↔ Edge g.adj a b ∨ (a, b) ∈ edges := by
  induction edges with
  | nil => intro g _; simp
  | cons e rest ih =>
    intro g h
    rw [List.foldl_cons]
    have he := h e (List.mem_cons_self _ _)
    obtain ⟨h1, h2, h3⟩ := ih (g.addEdge e.1 e.2) (fun e' he' => by
      rw [addEdge_length]
      exact h e' (List.mem_cons_of_mem _ he'))
    refine ⟨h1.trans (addEdge_length _ _ _), h2.trans (addEdge_visited _ _ _), ?_⟩
    intro a b
    rw [h3, edge_addEdge g e.1 e.2 a b he, List.mem_cons]
    constructor
    · rintro ((h | ⟨rfl, rfl⟩) | h)
      · exact Or.inl h
      · exact Or.inr (Or.inl rfl)
      · exact Or.inr (Or.inr h)
    · rintro (h | h | h)
      · exact Or.inl (Or.inl h)
      · left
        right
        rw [← h]
        exact ⟨rfl, rfl⟩
      · exact Or.inr h

theorem build_spec (n : Nat) (edges : List (Nat × Nat)) (hr : ∀ e ∈ edges, e.1 < n ∧ e.2 < n) :
    (Graph.build n edges).adj.length = n ∧
    (Graph.build n edges).visited = List.replicate n 0 ∧
    ∀ a b, Edge (Graph.build n edges).adj a b ↔ (a, b) ∈ edges := by
  obtain ⟨h1, h2, h3⟩ := build_foldl edges (Graph.init n) (fun e he => by
    simpa [Graph.init] using (hr e he).1)
  refine ⟨by simpa [Graph.init] using h1, by simpa [Graph.init] using h2, ?_⟩
  intro a b
  unfold Graph.build
  rw [h3]
  have : ¬ Edge (Graph.init n).adj a b := by
    unfold Edge Graph.init
    simp only
    rw [List.getD_eq_getElem?_getD]
    by_cases ha : a < n
    · rw [List.getElem?_replicate_of_lt ha]
      simp
    · rw [List.getElem?_eq_none (by simpa using ha)]
      simp
  simp [this]

theorem getD_replicate_zero (n w : Nat) : (List.replicate n 0).getD w 0 = 0 := by
  rw [List.getD_eq_getElem?_getD]
  by_cases hw : w < n
  · rw [List.getElem?_replicate_of_lt hw]
    rfl
  · rw [List.getElem?_eq_none (by simpa using hw)]
    rfl

theorem topoSorted_closed (adj : List (List Nat)) : ∀ (st : List Nat), TopoSorted adj st →
    ∀ u v, u ∈ st → Edge adj u v → v ∈ st := by
  intro st
  induction st with
  | nil => intro _ u v hu; simp at hu
  | cons a rest ih =>
    intro h u v hu he
    rcases List.mem_cons.1 hu with e | e
    · subst e
      exact List.mem_cons_of_mem _ (h.1 v he)
    · exact List.mem_cons_of_mem _ (ih h.2 u v e he)

theorem topoSorted_indexOf (adj : List (List Nat)) : ∀ (st : List Nat), TopoSorted adj st →
    st.Nodup → ∀ u v, u ∈ st → Edge adj u v → st.indexOf u < st.indexOf v := by
  intro st
  induction st with
  | nil => intro _ _ u v hu; simp at hu
  | cons a rest ih =>
    intro h hnd u v hu he
    have hn := List.nodup_cons.1 hnd
    rcases List.mem_cons.1 hu with e | e
    · subst e
      have hv : v ∈ rest := h.1 v he
      have hne : u ≠ v := fun e' => hn.1 (e' ▸ hv)
      rw [List.indexOf_cons_self, List.indexOf_cons_ne _ hne]
      omega
    · have hv : v ∈ rest := topoSorted_closed adj rest h.2 u v e he
      have hne1 : a ≠ u := fun e' => hn.1 (e' ▸ e)
      have hne2 : a ≠ v := fun e' => hn.1 (e' ▸ hv)
      rw [List.indexOf_cons_ne _ hne1, List.indexOf_cons_ne _ hne2]
      have := ih h.2 hn.2 u v e he
      omega

theorem topoSorted_acyclic (adj : List (List Nat)) (st : List Nat) (h : TopoSorted adj st)
    (hnd : st.Nodup) (hall : ∀ u, u < adj.length → u ∈ st) : ¬ HasCycle adj := by
  rintro ⟨u, hu⟩
  have key : ∀ a b, Relation.TransGen (Edge adj) a b → a ∈ st →
      st.indexOf a < st.indexOf b ∧ b ∈ st := by
    intro a b hab
    induction hab with
    | single he =>
      intro ha
      exact ⟨topoSorted_indexOf adj st h hnd a _ ha he, topoSorted_closed adj st h a _ ha he⟩
    | tail _ he ih =>
      intro ha
      obtain ⟨h1, h2⟩ := ih ha
      exact ⟨lt_trans h1 (topoSorted_indexOf adj st h hnd _ _ h2 he),
        topoSorted_closed adj st h _ _ h2 he⟩
  have hmem : u ∈ st := by
    obtain ⟨c, hc, -⟩ := Relation.TransGen.head'_iff.1 hu
    apply hall
    unfold Edge at hc
    by_contra hlt
    rw [List.getD_eq_getElem?_getD, List.getElem?_eq_none (by omega)] at hc
    simp at hc
  exact absurd (key u u hu hmem).1 (lt_irrefl _)

theorem hasCycle_build_iff (n : Nat) (edges : List (Nat × Nat))
    (hr : ∀ e ∈ edges, e.1 < n ∧ e.2 < n) :
    HasCycle (Graph.build n edges).adj ↔ CyclicEdges edges := by
  obtain ⟨-, -, he⟩ := build_spec n edges hr
  unfold HasCycle CyclicEdges
  constructor
  · rintro ⟨u, hu⟩
    exact ⟨u, Relation.TransGen.mono (fun a b h => (he a b).1 h) hu⟩
  · rintro ⟨u, hu⟩
    exact ⟨u, Relation.TransGen.mono (fun a b h => (he a b).2 h) hu⟩

theorem topoSort_cases (n : Nat) (edges : List (Nat × Nat))
    (hr : ∀ e ∈ edges, e.1 < n ∧ e.2 < n) :
    (∃ result vis, (Graph.build n edges).topoSort
        = .returned result { adj := (Graph.build n edges).adj, visited := vis } ∧
      result.Perm (List.range n) ∧
      (∀ e ∈ edges, result.indexOf e.1 < result.indexOf e.2) ∧
      ¬ CyclicEdges edges ∧ vis.length = n ∧ ∀ w, w < n → vis.getD w 0 = 2) ∨
    (∃ vis, (Graph.build n edges).topoSort
        = .thrown { adj := (Graph.build n edges).adj, visited := vis } ∧
      CyclicEdges edges) := by
  obtain ⟨hlen, hvis, he⟩ := build_spec n edges hr
  have hrange : InRange (Graph.build n edges).adj := by
    intro u v huv
    rw [hlen]
    exact (hr _ ((he u v).1 huv)).2
  have hcol : Colors (Graph.build n edges).visited := by
    intro w
    rw [hvis, getD_replicate_zero]
    omega
  have hgray : ∀ w, (Graph.build n edges).visited.getD w 0 ≠ 1 := by
    intro w
    rw [hvis, getD_replicate_zero]
    omega
  have hinv : StackInv (Graph.build n edges).adj (Graph.build n edges).visited [] := by
    refine ⟨List.nodup_nil, ?_, trivial⟩
    intro w
    rw [hvis, getD_replicate_zero]
    simp
  have hvlen : (Graph.build n edges).visited.length = (Graph.build n edges).adj.length := by
    rw [hvis, hlen]
    simp
  have hnodes : ∀ u ∈ List.range (Graph.build n edges).adj.length,
      u < (Graph.build n edges).adj.length := fun u hu => List.mem_range.1 hu
  cases hc : topoLoop (Graph.build n edges).adj (List.range (Graph.build n edges).adj.length)
      (Graph.build n edges).visited [] with
  | returned vis' st' =>
    left
    obtain ⟨f, -, i, b⟩ := topoLoop_returned _ hrange _ _ _ vis' st' hvlen hcol hnodes hgray
      hinv hc
    have hl' : vis'.length = n := by rw [f.1, hvlen, hlen]
    have hmem : ∀ w, w ∈ st' ↔ w < n := by
      intro w
      rw [i.2.1 w]
      constructor
      · intro h2
        by_contra hw
        rw [List.getD_eq_getElem?_getD, List.getElem?_eq_none (by omega)] at h2
        simp at h2
      · intro hw
        exact b w (by rw [hlen]; exact List.mem_range.2 hw)
    refine ⟨st', vis', ?_, ?_, ?_, ?_, hl', ?_⟩
    · unfold Graph.topoSort
      rw [hc]
      simp only [popAll_eq, List.nil_append]
    · rw [List.perm_ext_iff_of_nodup i.1 (List.nodup_range n)]
      intro w
      rw [hmem, List.mem_range]
    · intro e hee
      exact topoSorted_indexOf _ st' i.2.2 i.1 e.1 e.2 ((hmem _).2 (hr e hee).1)
        ((he e.1 e.2).2 hee)
    · rw [← hasCycle_build_iff n edges hr]
      exact topoSorted_acyclic _ st' i.2.2 i.1 (fun u hu => (hmem u).2 (by rw [← hlen]; exact hu))
    · intro w hw
      exact (i.2.1 w).1 ((hmem w).2 hw)
  | thrown v =>
    right
    refine ⟨v, ?_, ?_⟩
    · unfold Graph.topoSort
      rw [hc]
    · rw [← hasCycle_build_iff n edges hr]
      exact topoLoop_thrown _ hrange _ _ _ v hvlen hcol hnodes hgray hc
  | outOfFuel =>
    exact absurd hc (topoLoop_fuel _ hrange _ _ _ hvlen hcol hnodes)

theorem dfsChildren_more_fuel (call call' : Nat → List Nat → List Nat → DfsResult)
    (hcall : ∀ c vis st r, call c vis st = r → r ≠ .outOfFuel → call' c vis st = r) :
    ∀ cs vis st r, dfsChildren call cs vis st = r → r ≠ .outOfFuel →
      dfsChildren call' cs vis st = r := by
  intro cs
  induction cs with
  | nil =>
    intro vis st r h _
    simpa [dfsChildren] using h
  | cons c rest ih =>
    intro vis st r h hr
    rw [dfsChildren] at h ⊢
    cases hc : call c vis st with
    | returned v1 s1 =>
      rw [hc] at h
      rw [hcall c vis st _ hc (by simp)]
      exact ih v1 s1 r h hr
    | thrown v1 =>
      rw [hc] at h
      rw [hcall c vis st _ hc (by simp)]
      exact h
    | outOfFuel =>
      rw [hc] at h
      exact absurd h.symm hr

theorem dfs_succ_fuel (adj : List (List Nat)) :
    ∀ fuel u vis st r, Graph.dfs adj fuel u vis st = r → r ≠ .outOfFuel →
      Graph.dfs adj (fuel + 1) u vis st = r := by
  intro fuel
  induction fuel with
  | zero =>
    intro u vis st r h hr
    rw [Graph.dfs] at h
    exact absurd h.symm hr
  | succ fuel ih =>
    intro u vis st r h hr
    rw [Graph.dfs] at h ⊢
    by_cases h1 : vis.getD u 0 = 1
    · rw [if_pos h1] at h ⊢
      exact h
    · rw [if_neg h1] at h ⊢
      by_cases h2 : vis.getD u 0 = 2
      · rw [if_pos h2] at h ⊢
        exact h
      · rw [if_neg h2] at h ⊢
        cases hc : dfsChildren (fun v vis s => Graph.dfs adj fuel v vis s) (adj.getD u [])
            (vis.set u 1) st with
        | returned v1 s1 =>
          rw [hc] at h
          rw [dfsChildren_more_fuel _ (fun v vis s => Graph.dfs adj (fuel + 1) v vis s)
            (fun c vis st r a b => ih c vis st r a b) _ _ _ _ hc (by simp)]
          exact h
        | thrown v1 =>
          rw [hc] at h
          rw [dfsChildren_more_fuel _ (fun v vis s => Graph.dfs adj (fuel + 1) v vis s)
            (fun c vis st r a b => ih c vis st r a b) _ _ _ _ hc (by simp)]
          exact h
        | outOfFuel =>
          rw [hc] at h
          exact absurd h.symm hr

theorem dfs_more_fuel (adj : List (List Nat)) (fuel u : Nat) (vis st : List Nat) (r : DfsResult)
    (h : Graph.dfs adj fuel u vis st = r) (hr : r ≠ .outOfFuel) :
    ∀ k, Graph.dfs adj (fuel + k) u vis st = r := by
  intro k
  induction k with
  | zero => exact h
  | succ k ih => exact dfs_succ_fuel adj (fuel + k) u vis st r ih hr

theorem not_cyclic_of_rank (edges : List (Nat × Nat)) (rank : Nat → Nat)
    (h : ∀ e ∈ edges, rank e.1 < rank e.2) : ¬ CyclicEdges edges := by
  rintro ⟨u, hu⟩
  have key : ∀ a b, Relation.TransGen (fun a b => (a, b) ∈ edges) a b → rank a < rank b := by
    intro a b hab
    induction hab with
    | single he => exact h _ he
    | tail _ he ih => exact lt_trans ih (h _ he)
  exact absurd (key u u hu) (lt_irrefl _)

/-- C19: for a freshly constructed graph with `n` nodes to which edges with both ends in
`0..n-1` and without a directed cycle are added, `topoSort` returns a list that contains each
node `0..n-1` exactly once and in which `u` comes before `v` for every added edge `u -> v`. -/
theorem topoSort_acyclic (n : Nat) (edges : List (Nat × Nat))
    (hr : ∀ e ∈ edges, e.1 < n ∧ e.2 < n) (hac : ¬ CyclicEdges edges) :
    ∃ result g', (Graph.build n edges).topoSort = .returned result g' ∧
      result.Perm (List.range n) ∧
      ∀ e ∈ edges, result.indexOf e.1 < result.indexOf e.2 := by
  rcases topoSort_cases n edges hr with ⟨result, vis, h1, h2, h3, -⟩ | ⟨vis, -, hcyc⟩
  · exact ⟨result, _, h1, h2, h3⟩
  · exact absurd hcyc hac

/-- An instance of C19: four nodes and the edges `0 -> 1`, `1 -> 2`, `0 -> 2`, `3 -> 1`, for
which `topoSort` returns `3, 0, 1, 2`. -/
theorem topoSort_acyclic_witness :
    ((∀ e ∈ [(0, 1), (1, 2), (0, 2), (3, 1)], e.1 < 4 ∧ e.2 < 4) ∧
      ¬ CyclicEdges [(0, 1), (1, 2), (0, 2), (3, 1)]) ∧
    (Graph.build 4 [(0, 1), (1, 2), (0, 2), (3, 1)]).topoSort
      = .returned [3, 0, 1, 2] { adj := [[1, 2], [2], [], [1]], visited := [2, 2, 2, 2] } ∧
    ∃ result g', (Graph.build 4 [(0, 1), (1, 2), (0, 2), (3, 1)]).topoSort
        = .returned result g' ∧
      result.Perm (List.range 4) ∧
      ∀ e ∈ [(0, 1), (1, 2), (0, 2), (3, 1)], result.indexOf e.1 < result.indexOf e.2 :=
  ⟨⟨by decide, not_cyclic_of_rank _ (fun v => [1, 2, 3, 0].getD v 0) (by decide)⟩, by decide,
    topoSort_acyclic 4 [(0, 1), (1, 2), (0, 2), (3, 1)] (by decide)
      (not_cyclic_of_rank _ (fun v => [1, 2, 3, 0].getD v 0) (by decide))⟩

/-- C20: for a freshly constructed graph with `n` nodes to which edges with both ends in
`0..n-1` are added, `topoSort` throws exactly when the edges contain a directed cycle, a
self-loop being one, and returns exactly when they contain none; it never runs out of fuel,
and neither does a call of `dfs` on a node of the graph, whatever the marks, with the fuel
`n + 1` or more, which gives the same result as `n + 1`. -/
theorem topoSort_throws_iff (n : Nat) (edges : List (Nat × Nat))
    (hr : ∀ e ∈ edges, e.1 < n ∧ e.2 < n) :
    ((∃ g', (Graph.build n edges).topoSort = .thrown g') ↔ CyclicEdges edges) ∧
    ((∃ result g', (Graph.build n edges).topoSort = .returned result g')
      ↔ ¬ CyclicEdges edges) ∧
    (∀ u, (u, u) ∈ edges → ∃ g', (Graph.build n edges).topoSort = .thrown g') ∧
    (Graph.build n edges).topoSort ≠ .outOfFuel ∧
    ∀ u vis st, u < n → vis.length = n → Colors vis →
      Graph.dfs (Graph.build n edges).adj (n + 1) u vis st ≠ .outOfFuel ∧
      ∀ k, Graph.dfs (Graph.build n edges).adj (n + 1 + k) u vis st
        = Graph.dfs (Graph.build n edges).adj (n + 1) u vis st := by
  have hthrow : (∃ g', (Graph.build n edges).topoSort = .thrown g') ↔ CyclicEdges edges := by
    constructor
    · rintro ⟨g', hg⟩
      rcases topoSort_cases n edges hr with ⟨result, vis, h1, -⟩ | ⟨vis, -, hcyc⟩
      · rw [h1] at hg
        exact TopoResult.noConfusion hg
      · exact hcyc
    · intro hcyc
      rcases topoSort_cases n edges hr with ⟨result, vis, -, -, -, hn, -⟩ | ⟨vis, h1, -⟩
      · exact absurd hcyc hn
      · exact ⟨_, h1⟩
  refine ⟨hthrow, ?_, ?_, ?_, ?_⟩
  · constructor
    · rintro ⟨result, g', hg⟩
      rcases topoSort_cases n edges hr with ⟨result', vis, -, -, -, hn, -⟩ | ⟨vis, h1, -⟩
      · exact hn
      · rw [h1] at hg
        exact TopoResult.noConfusion hg
    · intro hn
      rcases topoSort_cases n edges hr with ⟨result, vis, h1, -⟩ | ⟨vis, -, hcyc⟩
      · exact ⟨_, _, h1⟩
      · exact absurd hcyc hn
  · intro u hu
    exact hthrow.2 ⟨u, Relation.TransGen.single hu⟩
  · rcases topoSort_cases n edges hr with ⟨result, vis, h1, -⟩ | ⟨vis, h1, -⟩
    · rw [h1]
      exact fun h => TopoResult.noConfusion h
    · rw [h1]
      exact fun h => TopoResult.noConfusion h
  · intro u vis st hu hlen hcol
    obtain ⟨hl, -, he⟩ := build_spec n edges hr
    have hrange : InRange (Graph.build n edges).adj := by
      intro a b hab
      rw [hl]
      exact (hr _ ((he a b).1 hab)).2
    have hf := dfs_fuel _ hrange (n + 1) u vis st (by rw [hl]; exact hlen) hcol
      (by rw [hl]; exact hu) (by have := whiteCount_le_length vis; omega)
    exact ⟨hf, dfs_more_fuel _ _ _ _ _ _ rfl hf⟩

/-- An instance of C20: two nodes with the edges `0 -> 1` and `1 -> 0`, on which `topoSort`
throws. -/
theorem topoSort_throws_iff_witness :
    (∀ e ∈ [(0, 1), (1, 0)], e.1 < 2 ∧ e.2 < 2) ∧
    (Graph.build 2 [(0, 1), (1, 0)]).topoSort = .thrown { adj := [[1], [0]], visited := [1, 1] } ∧
    CyclicEdges [(0, 1), (1, 0)] :=
  ⟨by decide, by decide,
    (topoSort_throws_iff 2 [(0, 1), (1, 0)] (by decide)).1.1
      ⟨{ adj := [[1], [0]], visited := [1, 1] }, by decide⟩⟩

theorem topoLoop_all_finished (adj : List (List Nat)) (vis : List Nat) : ∀ (nodes st : List Nat),
    (∀ u ∈ nodes, vis.getD u 0 = 2) → topoLoop adj nodes vis st = .returned vis st := by
  intro nodes
  induction nodes with
  | nil => intro st _; rfl
  | cons u rest ih =>
    intro st h
    have h2 := h u (List.mem_cons_self _ _)
    rw [topoLoop, if_neg (by omega)]
    exact ih st (fun w hw => h w (List.mem_cons_of_mem _ hw))

/-- C28: `topoSort` is not repeatable on the same `Graph` object. After a call that returns,
on a freshly constructed graph with `n ≥ 1` nodes and edges with both ends in `0..n-1`, every
node is marked finished, `visited = 2`; the call has returned all `n` nodes, and a second
call on the graph as the first one left it returns the empty list and leaves the graph as it
is. -/
theorem topoSort_not_repeatable (n : Nat) (edges : List (Nat × Nat)) (hn : 1 ≤ n)
    (hr : ∀ e ∈ edges, e.1 < n ∧ e.2 < n) (result : List Nat) (g' : Graph)
    (h : (Graph.build n edges).topoSort = .returned result g') :
    (g'.visited.length = n ∧ ∀ u, u < n → g'.visited.getD u 0 = 2) ∧
    (result.length = n ∧ result ≠ []) ∧
    g'.topoSort = .returned [] g' := by
  rcases topoSort_cases n edges hr with ⟨result', vis, h1, h2, -, -, hlen, hall⟩ | ⟨vis, h1, -⟩
  · rw [h1] at h
    simp only [TopoResult.returned.injEq] at h
    obtain ⟨e1, e2⟩ := h
    subst e1 e2
    have hl : result'.length = n := by rw [h2.length_eq, List.length_range]
    refine ⟨⟨hlen, hall⟩, ⟨hl, ?_⟩, ?_⟩
    · intro e
      rw [e] at hl
      simp at hl
      omega
    · obtain ⟨hadj, -, -⟩ := build_spec n edges hr
      unfold Graph.topoSort
      simp only
      rw [topoLoop_all_finished]
      · rfl
      · intro u hu
        rw [hadj] at hu
        exact hall u (List.mem_range.1 hu)
  · rw [h1] at h
    exact TopoResult.noConfusion h

/-- An instance of C28: three nodes with the edges `0 -> 1` and `2 -> 1`. -/
theorem topoSort_not_repeatable_witness :
    (1 ≤ 3 ∧ (∀ e ∈ [(0, 1), (2, 1)], e.1 < 3 ∧ e.2 < 3) ∧
      (Graph.build 3 [(0, 1), (2, 1)]).topoSort
        = .returned [2, 0, 1] { adj := [[1], [], [1]], visited := [2, 2, 2] }) ∧
    Graph.topoSort { adj := [[1], [], [1]], visited := [2, 2, 2] }
      = .returned [] { adj := [[1], [], [1]], visited := [2, 2, 2] } :=
  ⟨⟨by decide, by decide, by decide⟩,
    (topoSort_not_repeatable 3 [(0, 1), (2, 1)] (by decide) (by decide) [2, 0, 1]
      { adj := [[1], [], [1]], visited := [2, 2, 2] } (by decide)).2.2⟩

end Project2

namespace PlanSemesters

theorem getD_set_any {α : Type} (l : List α) (k s : Nat) (v d : α) :
    (l.set k v).getD s d = if s = k ∧ k < l.length then v else l.getD s d := by
  rw [List.getD_eq_getElem?_getD, List.getD_eq_getElem?_getD, List.getElem?_set]
  by_cases h : k = s
  · subst h
    by_cases h2 : k < l.length
    · simp [h2]
    · simp [h2]
      rw [List.getElem?_eq_none (by omega)]
      rfl
  · have : ¬ s = k := fun e => h e.symm
    simp [h, this]

theorem prereqs_foldl (edges : List (Nat × Nat)) : ∀ (g : Prereqs),
    (∀ e ∈ edges, e.1 < g.adj.length ∧ e.2 < g.inDegree.length) →
    (edges.foldl (fun g e => g.addEdge e.1 e.2) g).adj.length = g.adj.length ∧
    (edges.foldl (fun g e => g.addEdge e.1 e.2) g).inDegree.length = g.inDegree.length ∧
    (∀ u, (edges.foldl (fun g e => g.addEdge e.1 e.2) g).adj.getD u []
      = g.adj.getD u [] ++ (edges.filter (fun e => decide (e.1 = u))).map Prod.snd) ∧
    ∀ v, (edges.foldl (fun g e => g.addEdge e.1 e.2) g).inDegree.getD v 0
      = g.inDegree.getD v 0 + (edges.countP (fun e => decide (e.2 = v)) : Int) := by
  induction edges with
  | nil => intro g _; simp
  | cons e rest ih =>
    intro g h
    rw [List.foldl_cons]
    have he := h e (List.mem_cons_self _ _)
    obtain ⟨h1, h2, h3, h4⟩ := ih (g.addEdge e.1 e.2) (fun e' he' => by
      have := h e' (List.mem_cons_of_mem _ he')
      simpa [Prereqs.addEdge] using this)
    refine ⟨by rw [h1]; simp [Prereqs.addEdge], by rw [h2]; simp [Prereqs.addEdge], ?_, ?_⟩
    · intro u
      rw [h3]
      simp only [Prereqs.addEdge]
      rw [getD_set_any]
      by_cases hu : u = e.1
      · subst hu
        rw [if_pos ⟨rfl, he.1⟩]
        simp [List.filter_cons]
      · rw [if_neg (fun hh => hu hh.1)]
        have : ¬ e.1 = u := fun hh => hu hh.symm
        simp [List.filter_cons, this]
    · intro v
      rw [h4]
      simp only [Prereqs.addEdge]
      rw [getD_set_any]
      by_cases hv : v = e.2
      · subst hv
        rw [if_pos ⟨rfl, he.2⟩]
        simp [List.countP_cons]
        ring
      · rw [if_neg (fun hh => hv hh.1)]
        have : ¬ e.2 = v := fun hh => hv hh.symm
        simp [List.countP_cons, this]

theorem prereqs_build_spec (n : Nat) (edges : List (Nat × Nat))
    (hr : ∀ e ∈ edges, e.1 < n ∧ e.2 < n) :
    (Prereqs.build n edges).adj.length = n ∧
    (Prereqs.build n edges).inDegree.length = n ∧
    (∀ u, (Prereqs.build n edges).adj.getD u []
      = (edges.filter (fun e => decide (e.1 = u))).map Prod.snd) ∧
    ∀ v, (Prereqs.build n edges).inDegree.getD v 0
      = (edges.countP (fun e => decide (e.2 = v)) : Int) := by
  obtain ⟨h1, h2, h3, h4⟩ := prereqs_foldl edges (Prereqs.init n) (fun e he => by
    simpa [Prereqs.init] using hr e he)
  refine ⟨by simpa [Prereqs.init] using h1, by simpa [Prereqs.init] using h2, ?_, ?_⟩
  · intro u
    unfold Prereqs.build
    rw [h3]
    simp [Prereqs.init, List.getD_eq_getElem?_getD, List.getElem?_replicate]
    split_ifs <;> rfl
  · intro v
    unfold Prereqs.build
    rw [h4]
    simp [Prereqs.init, List.getD_eq_getElem?_getD, List.getElem?_replicate]
    split_ifs <;> rfl

theorem mem_set_insert : ∀ (s : List Nat) (x y : Nat), y ∈ set_insert s x ↔ y = x ∨ y ∈ s := by
  intro s
  induction s with
  | nil => intro x y; simp [set_insert]
  | cons z rest ih =>
    intro x y
    rw [set_insert]
    split_ifs with h1 h2
    · simp
    · subst h2
      simp
    · rw [List.mem_cons, ih, List.mem_cons]
      tauto

theorem set_insert_sorted : ∀ (s : List Nat) (x : Nat), s.Sorted (· < ·) →
    (set_insert s x).Sorted (· < ·) := by
  intro s
  induction s with
  | nil => intro x _; simp [set_insert]
  | cons z rest ih =>
    intro x hs
    rw [set_insert]
    have hs' := List.sorted_cons.1 hs
    split_ifs with h1 h2
    · refine List.sorted_cons.2 ⟨?_, hs⟩
      intro b hb
      rcases List.mem_cons.1 hb with e | e
      · omega
      · have := hs'.1 b e
        omega
    · exact hs
    · refine List.sorted_cons.2 ⟨?_, ih x hs'.2⟩
      intro b hb
      rcases (mem_set_insert rest x b).1 hb with e | e
      · omega
      · exact hs'.1 b e

theorem initial_available_spec (inDeg : List Int) : ∀ (n : Nat),
    (initial_available n inDeg).Sorted (· < ·) ∧
    ∀ v, v ∈ initial_available n inDeg ↔ v < n ∧ inDeg.getD v 0 = 0 := by
  intro n
  induction n with
  | zero => simp [initial_available]
  | succ n ih =>
    have e : initial_available (n + 1) inDeg
        = if inDeg.getD n 0 = 0 then set_insert (initial_available n inDeg) n
          else initial_available n inDeg := by
      simp [initial_available, List.range_succ, List.foldl_append]
    rw [e]
    split_ifs with h
    · refine ⟨set_insert_sorted _ _ ih.1, ?_⟩
      intro v
      rw [mem_set_insert, ih.2]
      constructor
      · rintro (e | e)
        · subst e; exact ⟨by omega, h⟩
        · exact ⟨by omega, e.2⟩
      · intro hv
        by_cases e : v = n
        · exact Or.inl e
        · exact Or.inr ⟨by omega, hv.2⟩
    · refine ⟨ih.1, ?_⟩
      intro v
      rw [ih.2]
      constructor
      · intro hv; exact ⟨by omega, hv.2⟩
      · intro hv
        have : v ≠ n := fun e => h (e ▸ hv.2)
        exact ⟨by omega, hv.2⟩

theorem foldl_relax_spec : ∀ (vs : List Nat) (st : LayerState),
    (∀ v ∈ vs, v < st.inDeg.length) →
    (vs.foldl relax st).inDeg.length = st.inDeg.length ∧
    (vs.foldl relax st).placedCount = st.placedCount ∧
    (∀ v, (vs.foldl relax st).inDeg.getD v 0 = st.inDeg.getD v 0 - (vs.count v : Int)) ∧
    (st.nextAvailable.Sorted (· < ·) → (vs.foldl relax st).nextAvailable.Sorted (· < ·)) ∧
    ((∀ v, (vs.count v : Int) ≤ st.inDeg.getD v 0) →
      ∀ x, x ∈ (vs.foldl relax st).nextAvailable ↔
        x ∈ st.nextAvailable ∨ (x ∈ vs ∧ st.inDeg.getD x 0 = (vs.count x : Int))) := by
  intro vs
  induction vs with
  | nil => intro st _; simp
  | cons v rest ih =>
    intro st hr
    have hv := hr v (List.mem_cons_self _ _)
    rw [List.foldl_cons]
    have hlen : (relax st v).inDeg.length = st.inDeg.length := by simp [relax]
    have hget : ∀ x, (relax st v).inDeg.getD x 0
        = if x = v then st.inDeg.getD v 0 - 1 else st.inDeg.getD x 0 := by
      intro x
      simp only [relax]
      rw [getD_set_any]
      by_cases e : x = v
      · subst e; rw [if_pos ⟨rfl, hv⟩, if_pos rfl]
      · rw [if_neg (fun hh => e hh.1), if_neg e]
    have hnext : (relax st v).nextAvailable
        = if st.inDeg.getD v 0 - 1 = 0 then set_insert st.nextAvailable v
          else st.nextAvailable := by
      have := hget v
      rw [if_pos rfl] at this
      simp only [relax] at this ⊢
      rw [this]
    obtain ⟨h1, h2, h3, h4, h5⟩ := ih (relax st v) (fun x hx => by
      rw [hlen]; exact hr x (List.mem_cons_of_mem _ hx))
    refine ⟨by rw [h1, hlen], by rw [h2]; simp [relax], ?_, ?_, ?_⟩
    · intro x
      rw [h3, hget, List.count_cons]
      by_cases e : x = v
      · subst e; simp; ring
      · have : ¬ v = x := fun hh => e hh.symm
        simp [e, this]
    · intro hs
      apply h4
      rw [hnext]
      split_ifs
      · exact set_insert_sorted _ _ hs
      · exact hs
    · intro hc x
      have hc' : ∀ y, (rest.count y : Int) ≤ (relax st v).inDeg.getD y 0 := by
        intro y
        have := hc y
        rw [hget, List.count_cons] at *
        by_cases e : y = v
        · subst e
          simp at this ⊢
          omega
        · have e2 : ¬ v = y := fun hh => e hh.symm
          simp [e, e2] at this ⊢
          exact this
      rw [h5 hc' x, hget, hnext]
      have hcx := hc x
      rw [List.count_cons] at hcx ⊢
      by_cases e : x = v
      · subst e
        simp only [if_true, beq_self_eq_true, List.mem_cons, true_or, true_and] at hcx ⊢
        have hm : x ∈ rest ↔ 0 < rest.count x := List.count_pos_iff.symm
        split_ifs with h0
        · rw [mem_set_insert]
          constructor
          · rintro ((_ | h) | ⟨_, h⟩)
            · right; push_cast at hcx ⊢; omega
            · exact Or.inl h
            · right; push_cast at hcx ⊢; omega
          · rintro (h | h)
            · exact Or.inl (Or.inr h)
            · exact Or.inl (Or.inl rfl)
        · constructor
          · rintro (h | ⟨_, h⟩)
            · exact Or.inl h
            · right; push_cast; omega
          · rintro (h | h)
            · exact Or.inl h
            · right
              push_cast at h
              refine ⟨hm.2 ?_, by omega⟩
              have : (0 : Int) < (rest.count x : Int) := by omega
              exact_mod_cast this
      · have e2 : ¬ v = x := fun hh => e hh.symm
        have e3 : (v == x) = false := by simpa using e2
        simp only [e, if_false, e3, List.mem_cons, false_or]
        simp only [Bool.false_eq_true, if_false, add_zero]
        split_ifs with h0
        · rw [mem_set_insert]
          simp [e]
        · rfl

theorem foldl_relax_placedCount (vs : List Nat) : ∀ (st : LayerState) (c : Nat),
    vs.foldl relax { inDeg := st.inDeg, nextAvailable := st.nextAvailable, placedCount := c }
      = { inDeg := (vs.foldl relax st).inDeg, nextAvailable := (vs.foldl relax st).nextAvailable,
          placedCount := c } := by
  induction vs with
  | nil => intro st c; rfl
  | cons v rest ih =>
    intro st c
    rw [List.foldl_cons, List.foldl_cons]
    have : relax { inDeg := st.inDeg, nextAvailable := st.nextAvailable, placedCount := c } v
        = { inDeg := (relax st v).inDeg, nextAvailable := (relax st v).nextAvailable,
            placedCount := c } := rfl
    rw [this, ih]

theorem foldl_place_eq (adj : List (List Nat)) : ∀ (l : List Nat) (st : LayerState),
    l.foldl (place adj) st
      = { inDeg := ((l.flatMap (fun u => adj.getD u [])).foldl relax st).inDeg,
          nextAvailable := ((l.flatMap (fun u => adj.getD u [])).foldl relax st).nextAvailable,
          placedCount := st.placedCount + l.length } := by
  intro l
  induction l with
  | nil => intro st; rfl
  | cons u rest ih =>
    intro st
    rw [List.foldl_cons, ih, List.flatMap_cons, List.foldl_append]
    have : place adj st u
        = { inDeg := ((adj.getD u []).foldl relax st).inDeg,
            nextAvailable := ((adj.getD u []).foldl relax st).nextAvailable,
            placedCount := st.placedCount + 1 } := by
      rw [place]
      exact foldl_relax_placedCount _ st _
    rw [this, foldl_relax_placedCount]
    simp only [List.length_cons]
    congr 1
    omega

theorem countP_split {α : Type} (p q r : α → Prop) [DecidablePred p] [DecidablePred q]
    [DecidablePred r] : ∀ (l : List α), (∀ x ∈ l, p x ↔ (q x ∨ r x)) → (∀ x ∈ l, q x → ¬ r x) →
    l.countP (fun x => decide (p x))
      = l.countP (fun x => decide (q x)) + l.countP (fun x => decide (r x)) := by
  intro l
  induction l with
  | nil => intro _ _; rfl
  | cons x rest ih =>
    intro h hd
    have hx := h x (List.mem_cons_self _ _)
    have hdx := hd x (List.mem_cons_self _ _)
    have := ih (fun y hy => h y (List.mem_cons_of_mem _ hy))
      (fun y hy => hd y (List.mem_cons_of_mem _ hy))
    simp only [List.countP_cons, this]
    by_cases hq : q x
    · have hr : ¬ r x := hdx hq
      have hp : p x := hx.2 (Or.inl hq)
      simp [hq, hr, hp]
      omega
    · by_cases hr : r x
      · have hp : p x := hx.2 (Or.inr hr)
        simp [hq, hr, hp]
        omega
      · have hp : ¬ p x := fun hp => (hx.1 hp).elim hq hr
        simp [hq, hr, hp]

theorem count_map_snd_filter (edges : List (Nat × Nat)) (u v : Nat) :
    ((edges.filter (fun e => decide (e.1 = u))).map Prod.snd).count v
      = edges.countP (fun e => decide (e.1 = u ∧ e.2 = v)) := by
  induction edges with
  | nil => rfl
  | cons e rest ih =>
    by_cases h1 : e.1 = u
    · by_cases h2 : e.2 = v
      · simp [List.filter_cons, List.countP_cons, h1, h2, ih]
      · simp [List.filter_cons, List.countP_cons, h1, h2, ih, List.count_cons]
    · simp [List.filter_cons, List.countP_cons, h1, ih]

theorem count_flatMap_edges (edges : List (Nat × Nat)) (v : Nat) : ∀ (A : List Nat), A.Nodup →
    (A.flatMap (fun u => (edges.filter (fun e => decide (e.1 = u))).map Prod.snd)).count v
      = edges.countP (fun e => decide (e.2 = v ∧ e.1 ∈ A)) := by
  intro A
  induction A with
  | nil => intro _; simp
  | cons u rest ih =>
    intro hnd
    have hnd' := List.nodup_cons.1 hnd
    rw [List.flatMap_cons, List.count_append, ih hnd'.2, count_map_snd_filter]
    symm
    apply countP_split (fun e : Nat × Nat => e.2 = v ∧ e.1 ∈ u :: rest)
      (fun e => e.1 = u ∧ e.2 = v) (fun e => e.2 = v ∧ e.1 ∈ rest)
    · intro e _
      simp only [List.mem_cons]
      tauto
    · rintro e _ ⟨h1, _⟩ ⟨_, h2⟩
      exact hnd'.1 (h1 ▸ h2)

theorem countP_remaining (edges : List (Nat × Nat)) (v : Nat) (P A : List Nat)
    (hd : ∀ x ∈ A, x ∉ P) :
    edges.countP (fun e => decide (e.2 = v ∧ e.1 ∉ P))
      = edges.countP (fun e => decide (e.2 = v ∧ e.1 ∈ A))
        + edges.countP (fun e => decide (e.2 = v ∧ e.1 ∉ P ++ A)) := by
  apply countP_split (fun e : Nat × Nat => e.2 = v ∧ e.1 ∉ P)
    (fun e => e.2 = v ∧ e.1 ∈ A) (fun e => e.2 = v ∧ e.1 ∉ P ++ A)
  · intro e _
    simp only [List.mem_append, not_or]
    constructor
    · rintro ⟨h1, h2⟩
      by_cases h : e.1 ∈ A
      · exact Or.inl ⟨h1, h⟩
      · exact Or.inr ⟨h1, h2, h⟩
    · rintro (⟨h1, h2⟩ | ⟨h1, h2, _⟩)
      · exact ⟨h1, hd _ h2⟩
      · exact ⟨h1, h2⟩
  · rintro e _ ⟨_, h1⟩ ⟨_, h2⟩
    exact h2 (List.mem_append_right _ h1)

theorem getD_append_singleton (l : List (List Nat)) (A : List Nat) (k : Nat) :
    (l ++ [A]).getD k [] = if k < l.length then l.getD k [] else if k = l.length then A else [] := by
  rw [List.getD_eq_getElem?_getD, List.getD_eq_getElem?_getD]
  by_cases h : k < l.length
  · rw [if_pos h, List.getElem?_append_left h]
  · rw [if_neg h, List.getElem?_append_right (by omega)]
    by_cases h2 : k = l.length
    · subst h2; simp
    · rw [if_neg h2, List.getElem?_eq_none (by simp; omega)]
      rfl

theorem length_le_of_nodup_lt (l : List Nat) (n : Nat) (hnd : l.Nodup) (h : ∀ x ∈ l, x < n) :
    l.length ≤ n := by
  have := (List.subperm_of_subset hnd (fun x hx => List.mem_range.2 (h x hx))).length_le
  simpa using this

theorem layer_step (n : Nat) (edges : List (Nat × Nat)) (adj : List (List Nat))
    (hr : ∀ e ∈ edges, e.1 < n ∧ e.2 < n)
    (hadj : ∀ u, adj.getD u [] = (edges.filter (fun e => decide (e.1 = u))).map Prod.snd)
    (A : List Nat) (inDeg : List Int) (sems : List (List Nat)) (pc : Nat)
    (hinv : LayerInv n edges A inDeg sems pc) (hA : A ≠ []) :
    LayerInv n edges
      (A.foldl (place adj) { inDeg := inDeg, nextAvailable := [], placedCount := pc }).nextAvailable
      (A.foldl (place adj) { inDeg := inDeg, nextAvailable := [], placedCount := pc }).inDeg
      (sems ++ [A])
      (A.foldl (place adj) { inDeg := inDeg, nextAvailable := [], placedCount := pc }).placedCount
      ∧ sems.flatten.length < (sems ++ [A]).flatten.length := by
  rw [foldl_place_eq]
  simp only
  have hflat : (sems ++ [A]).flatten = sems.flatten ++ A := by simp
  have hvs : (A.flatMap (fun u => adj.getD u []))
      = A.flatMap (fun u => (edges.filter (fun e => decide (e.1 = u))).map Prod.snd) := by
    congr 1
    funext u
    exact hadj u
  generalize hvsdef : A.flatMap (fun u => adj.getD u []) = vs at hvs ⊢
  have hvs_mem : ∀ v ∈ vs, ∃ u ∈ A, (u, v) ∈ edges := by
    intro v hv
    rw [hvs, List.mem_flatMap] at hv
    obtain ⟨u, hu, hv⟩ := hv
    rw [List.mem_map] at hv
    obtain ⟨e, he, rfl⟩ := hv
    rw [List.mem_filter] at he
    have : e.1 = u := by simpa using he.2
    exact ⟨u, hu, by rw [← this]; exact he.1⟩
  have hvs_lt : ∀ v ∈ vs, v < n := by
    intro v hv
    obtain ⟨u, _, he⟩ := hvs_mem v hv
    exact (hr _ he).2
  have hnd := hinv.nodup
  rw [List.nodup_append] at hnd
  obtain ⟨hPnd, hAnd, hdisj0⟩ := hnd
  have hdisj : ∀ x ∈ A, x ∉ sems.flatten := fun x hx hp => hdisj0 hp hx
  have hcount : ∀ v, vs.count v = edges.countP (fun e => decide (e.2 = v ∧ e.1 ∈ A)) := by
    intro v
    rw [hvs]
    exact count_flatMap_edges edges v A hAnd
  obtain ⟨s1, s2, s3, s4, s5⟩ := foldl_relax_spec vs
    { inDeg := inDeg, nextAvailable := [], placedCount := pc }
    (fun v hv => by simp only; rw [hinv.len]; exact hvs_lt v hv)
  simp only at s1 s2 s3 s4 s5
  have hle : ∀ v, (vs.count v : Int) ≤ inDeg.getD v 0 := by
    intro v
    by_cases hv : v < n
    · rw [hinv.deg v hv, hcount, countP_remaining edges v sems.flatten A hdisj]
      push_cast
      omega
    · have : v ∉ vs := fun h => hv (hvs_lt v h)
      rw [List.count_eq_zero_of_not_mem this, List.getD_eq_default _ _ (by rw [hinv.len]; omega)]
      rfl
  have hdeg : ∀ v, v < n → (vs.foldl relax
        { inDeg := inDeg, nextAvailable := [], placedCount := pc }).inDeg.getD v 0
      = (edges.countP (fun e => decide (e.2 = v ∧ e.1 ∉ sems.flatten ++ A)) : Int) := by
    intro v hv
    rw [s3, hinv.deg v hv, hcount, countP_remaining edges v sems.flatten A hdisj]
    push_cast
    omega
  have hnext := s5 hle
  have hnext_mem : ∀ x, x ∈ (vs.foldl relax
        { inDeg := inDeg, nextAvailable := [], placedCount := pc }).nextAvailable →
      x ∈ vs ∧ inDeg.getD x 0 ≠ 0 := by
    intro x hx
    rcases (hnext x).1 hx with h | ⟨h1, h2⟩
    · simp at h
    · refine ⟨h1, ?_⟩
      rw [h2]
      have : 0 < vs.count x := List.count_pos_iff.2 h1
      omega
  refine ⟨⟨?_, ?_, ?_, ?_, ?_, ?_, ?_, ?_, ?_⟩, ?_⟩
  · rw [s1, hinv.len]
  · intro v hv
    rw [hflat]
    exact hdeg v hv
  · rw [hflat, List.nodup_append]
    refine ⟨hinv.nodup, (s4 (by simp)).nodup, ?_⟩
    intro x hx hx'
    have h0 := ((hinv.zero x).1 (by simpa using hx)).2
    exact (hnext_mem x hx').2 h0
  · intro v
    rw [hflat]
    constructor
    · rintro (h | h)
      · have hz := (hinv.zero v).1 (by simpa using h)
        refine ⟨hz.1, ?_⟩
        have h1 := hdeg v hz.1
        have h2 := s3 v
        have h3 := hle v
        rw [hz.2] at h2 h3
        rw [h1] at h2 ⊢
        omega
      · have hv := hnext_mem v h
        have hlt := hvs_lt v hv.1
        refine ⟨hlt, ?_⟩
        rcases (hnext v).1 h with h' | ⟨_, h2⟩
        · simp at h'
        · rw [s3, h2]; omega
    · rintro ⟨hv, h0⟩
      by_cases hz : inDeg.getD v 0 = 0
      · left
        simpa using (hinv.zero v).2 ⟨hv, hz⟩
      · right
        rw [s3] at h0
        refine (hnext v).2 (Or.inr ⟨?_, by omega⟩)
        apply List.count_pos_iff.1
        omega
  · rw [hflat, List.length_append, ← hinv.count]
  · intro k v hv e he hev
    rw [getD_append_singleton] at hv
    by_cases hk : k < sems.length
    · rw [if_pos hk] at hv
      rw [List.take_append_of_le_length (by omega)]
      exact hinv.before k v hv e he hev
    · rw [if_neg hk] at hv
      by_cases hk2 : k = sems.length
      · rw [if_pos hk2] at hv
        subst hk2
        rw [List.take_append_of_le_length (le_refl _), List.take_length]
        have hz := (hinv.zero v).1 (Or.inr hv)
        have hd := hinv.deg v hz.1
        rw [hz.2] at hd
        have hd0 : edges.countP (fun e => decide (e.2 = v ∧ e.1 ∉ sems.flatten)) = 0 := by
          omega
        rw [List.countP_eq_zero] at hd0
        have := hd0 e he
        simpa [hev] using this
      · rw [if_neg hk2] at hv
        simp at hv
  · intro k v hv
    rw [getD_append_singleton] at hv ⊢
    by_cases hk : k + 1 < sems.length
    · rw [if_pos hk] at hv
      rw [if_pos (by omega)]
      exact hinv.chainStep k v hv
    · rw [if_neg hk] at hv
      by_cases hk2 : k + 1 = sems.length
      · rw [if_pos hk2] at hv
        rw [if_pos (by omega)]
        have hne : sems ≠ [] := by
          intro e
          rw [e] at hk2
          simp at hk2
        have := hinv.availStep hne v hv
        rw [show sems.length - 1 = k by omega] at this
        exact this
      · rw [if_neg hk2] at hv
        simp at hv
  · intro _ v hv
    obtain ⟨u, hu, he⟩ := hvs_mem v (hnext_mem v hv).1
    refine ⟨u, ?_, he⟩
    rw [getD_append_singleton, if_neg (by simp), if_pos (by simp)]
    exact hu
  · intro sem hsem
    rcases List.mem_append.1 hsem with h | h
    · exact hinv.nonempty sem h
    · rw [List.mem_singleton.1 h]
      exact hA
  · rw [hflat, List.length_append]
    have : 0 < A.length := List.length_pos.2 hA
    omega

theorem layerLoop_spec (n : Nat) (edges : List (Nat × Nat)) (adj : List (List Nat))
    (hr : ∀ e ∈ edges, e.1 < n ∧ e.2 < n)
    (hadj : ∀ u, adj.getD u [] = (edges.filter (fun e => decide (e.1 = u))).map Prod.snd) :
    ∀ (fuel : Nat) (A : List Nat) (inDeg : List Int) (sems : List (List Nat)) (pc : Nat),
      LayerInv n edges A inDeg sems pc → n < fuel + sems.flatten.length →
      ∃ sems' inDeg', layerLoop adj fuel A inDeg sems pc = some (sems', sems'.flatten.length) ∧
        LayerInv n edges [] inDeg' sems' sems'.flatten.length := by
  intro fuel
  induction fuel with
  | zero =>
    intro A inDeg sems pc hinv hf
    have hnd := (List.nodup_append.1 hinv.nodup).1
    have := length_le_of_nodup_lt sems.flatten n hnd
      (fun x hx => ((hinv.zero x).1 (Or.inl hx)).1)
    omega
  | succ fuel ih =>
    intro A inDeg sems pc hinv hf
    rw [layerLoop]
    by_cases hA : A = []
    · subst hA
      simp only [List.isEmpty_nil, if_true]
      refine ⟨sems, inDeg, by rw [hinv.count], ?_⟩
      rw [← hinv.count]
      exact hinv
    · have hE : A.isEmpty = false := by
        cases A with
        | nil => exact absurd rfl hA
        | cons _ _ => rfl
      rw [hE]
      simp only [Bool.false_eq_true, if_false]
      obtain ⟨hstep, hlt⟩ := layer_step n edges adj hr hadj A inDeg sems pc hinv hA
      exact ih _ _ _ _ hstep (by omega)

theorem layerInv_init (n : Nat) (edges : List (Nat × Nat))
    (hr : ∀ e ∈ edges, e.1 < n ∧ e.2 < n) :
    LayerInv n edges (initial_available n (Prereqs.build n edges).inDegree)
      (Prereqs.build n edges).inDegree [] 0 := by
  obtain ⟨-, h2, -, h4⟩ := prereqs_build_spec n edges hr
  obtain ⟨i1, i2⟩ := initial_available_spec (Prereqs.build n edges).inDegree n
  refine ⟨h2, ?_, ?_, ?_, rfl, ?_, ?_, ?_, ?_⟩
  · intro v _
    rw [h4]
    simp
  · simpa using i1.nodup
  · intro v
    simp [i2]
  · intro k v hv
    simp at hv
  · intro k v hv
    simp at hv
  · intro h
    exact absurd rfl h
  · intro sem hsem
    simp at hsem

theorem main_spec (n : Nat) (edges : List (Nat × Nat)) (hr : ∀ e ∈ edges, e.1 < n ∧ e.2 < n) :
    ∃ sems inDeg, LayerInv n edges [] inDeg sems sems.flatten.length ∧
      main n edges = if sems.flatten.length ≠ n then .cycleDetected else .plan sems := by
  obtain ⟨h1, -, h3, -⟩ := prereqs_build_spec n edges hr
  obtain ⟨sems, inDeg, hl, hinv⟩ := layerLoop_spec n edges (Prereqs.build n edges).adj hr h3
    (n + 1) _ _ [] 0 (layerInv_init n edges hr) (by omega)
  refine ⟨sems, inDeg, hinv, ?_⟩
  unfold main
  simp only
  rw [hl]

theorem semesterOf_spec : ∀ (sems : List (List Nat)) (v : Nat), v ∈ sems.flatten →
    semesterOf sems v < sems.length ∧ v ∈ sems.getD (semesterOf sems v) [] := by
  intro sems
  induction sems with
  | nil => intro v h; simp at h
  | cons s rest ih =>
    intro v h
    unfold semesterOf
    rw [List.findIdx_cons]
    by_cases hv : v ∈ s
    · simp [hv]
    · have hr : v ∈ rest.flatten := by
        rw [List.flatten_cons, List.mem_append] at h
        exact h.resolve_left hv
      obtain ⟨h1, h2⟩ := ih v hr
      unfold semesterOf at h1 h2
      simp only [hv, decide_False, cond_false, List.length_cons, List.getD_cons_succ]
      exact ⟨by omega, h2⟩

theorem semesterOf_le : ∀ (sems : List (List Nat)) (v j : Nat), v ∈ sems.getD j [] →
    semesterOf sems v ≤ j := by
  intro sems
  induction sems with
  | nil => intro v j h; simp at h
  | cons s rest ih =>
    intro v j h
    unfold semesterOf
    rw [List.findIdx_cons]
    by_cases hv : v ∈ s
    · simp [hv]
    · cases j with
      | zero => exact absurd h hv
      | succ j =>
        rw [List.getD_cons_succ] at h
        have := ih v j h
        unfold semesterOf at this
        simp only [hv, decide_False, cond_false]
        omega

theorem mem_take_flatten : ∀ (sems : List (List Nat)) (k v : Nat),
    v ∈ (sems.take k).flatten → ∃ j, j < k ∧ v ∈ sems.getD j [] := by
  intro sems
  induction sems with
  | nil => intro k v h; simp at h
  | cons s rest ih =>
    intro k v h
    cases k with
    | zero => simp at h
    | succ k =>
      rw [List.take_succ_cons, List.flatten_cons, List.mem_append] at h
      rcases h with h | h
      · exact ⟨0, by omega, h⟩
      · obtain ⟨j, hj, hv⟩ := ih k v h
        exact ⟨j + 1, by omega, hv⟩

theorem mem_flatten_of_getD (sems : List (List Nat)) (k v : Nat) (h : v ∈ sems.getD k []) :
    v ∈ sems.flatten := by
  by_cases hk : k < sems.length
  · rw [List.getD_eq_getElem _ _ hk] at h
    exact List.mem_flatten.2 ⟨_, List.getElem_mem _, h⟩
  · rw [List.getD_eq_default _ _ (by omega)] at h
    simp at h

theorem semester_unique : ∀ (sems : List (List Nat)), sems.flatten.Nodup → ∀ (v i j : Nat),
    v ∈ sems.getD i [] → v ∈ sems.getD j [] → i = j := by
  intro sems
  induction sems with
  | nil => intro _ v i j h; simp at h
  | cons s rest ih =>
    intro hnd v i j hi hj
    rw [List.flatten_cons, List.nodup_append] at hnd
    obtain ⟨-, hr, hd⟩ := hnd
    cases i with
    | zero =>
      cases j with
      | zero => rfl
      | succ j =>
        rw [List.getD_cons_succ] at hj
        exact absurd (mem_flatten_of_getD rest j v hj) (fun h => hd hi h)
    | succ i =>
      cases j with
      | zero =>
        rw [List.getD_cons_succ] at hi
        exact absurd (mem_flatten_of_getD rest i v hi) (fun h => hd hj h)
      | succ j =>
        rw [List.getD_cons_succ] at hi hj
        rw [ih hr v i j hi hj]

theorem placed_of_acyclic (n : Nat) (edges : List (Nat × Nat))
    (hr : ∀ e ∈ edges, e.1 < n ∧ e.2 < n) (hac : ¬ Project2.CyclicEdges edges)
    (inDeg : List Int) (sems : List (List Nat)) (pc : Nat)
    (hinv : LayerInv n edges [] inDeg sems pc) : ∀ v, v < n → v ∈ sems.flatten := by
  rcases Project2.topoSort_cases n edges hr with ⟨result, vis, -, -, hord, -⟩ | ⟨vis, -, hcyc⟩
  · have key : ∀ k v, result.indexOf v = k → v < n → v ∈ sems.flatten := by
      intro k
      induction k using Nat.strong_induction_on with
      | _ k ih =>
        intro v hk hv
        by_contra hnot
        have hz : inDeg.getD v 0 ≠ 0 := by
          intro h0
          rcases (hinv.zero v).2 ⟨hv, h0⟩ with h | h
          · exact hnot h
          · simp at h
        have hd := hinv.deg v hv
        have hpos : 0 < edges.countP (fun e => decide (e.2 = v ∧ e.1 ∉ sems.flatten)) := by
          rcases Nat.eq_zero_or_pos
            (edges.countP (fun e => decide (e.2 = v ∧ e.1 ∉ sems.flatten))) with h | h
          · rw [h] at hd
            exact absurd hd hz
          · exact h
        rw [List.countP_pos_iff] at hpos
        obtain ⟨e, he, hp⟩ := hpos
        simp only [decide_eq_true_eq] at hp
        have ho := hord e he
        rw [hp.1, hk] at ho
        exact hp.2 (ih _ ho e.1 rfl (hr e he).1)
    intro v hv
    exact key _ v rfl hv
  · exact absurd hcyc hac

theorem flatten_perm_range (n : Nat) (l : List Nat) (hnd : l.Nodup)
    (h : ∀ v, v ∈ l ↔ v < n) : l.Perm (List.range n) := by
  rw [List.perm_ext_iff_of_nodup hnd (List.nodup_range n)]
  intro v
  rw [h, List.mem_range]

theorem mem_of_length_eq (n : Nat) (l : List Nat) (hnd : l.Nodup) (h : ∀ v ∈ l, v < n)
    (hl : l.length = n) : ∀ v, v < n → v ∈ l := by
  have hsub := List.subperm_of_subset hnd (fun x hx => List.mem_range.2 (h x hx))
  have hp := hsub.perm_of_length_le (by simp [hl])
  intro v hv
  exact hp.symm.subset (List.mem_range.2 hv)

theorem edges_increase (n : Nat) (edges : List (Nat × Nat))
    (hr : ∀ e ∈ edges, e.1 < n ∧ e.2 < n)
    (inDeg : List Int) (sems : List (List Nat)) (pc : Nat) (A : List Nat)
    (hinv : LayerInv n edges A inDeg sems pc) (hall : ∀ v, v < n → v ∈ sems.flatten) :
    ∀ e ∈ edges, semesterOf sems e.1 < semesterOf sems e.2 := by
  intro e he
  obtain ⟨_, h2⟩ := semesterOf_spec sems e.2 (hall _ (hr e he).2)
  obtain ⟨j, hj, hv⟩ := mem_take_flatten sems _ e.1 (hinv.before _ _ h2 e he rfl)
  have := semesterOf_le sems e.1 j hv
  omega

theorem chain_length_le (edges : List (Nat × Nat)) (rank : Nat → Nat)
    (h : ∀ e ∈ edges, rank e.1 < rank e.2) : ∀ (c : List Nat) (a v : Nat),
    IsChain edges (a :: c) → (a :: c).getLast? = some v →
    rank a + (a :: c).length ≤ rank v + 1 := by
  intro c
  induction c with
  | nil =>
    intro a v _ hl
    simp at hl
    subst hl
    simp
  | cons b t ih =>
    intro a v hc hl
    unfold IsChain at hc
    rw [List.chain'_cons] at hc
    rw [List.getLast?_cons_cons] at hl
    have := ih b v hc.2 hl
    have := h _ hc.1
    simp only [List.length_cons] at *
    omega

theorem chain_exists (n : Nat) (edges : List (Nat × Nat))
    (inDeg : List Int) (sems : List (List Nat)) (pc : Nat) (A : List Nat)
    (hinv : LayerInv n edges A inDeg sems pc) : ∀ (k v : Nat), v ∈ sems.getD k [] →
    ∃ c, IsChain edges c ∧ c.getLast? = some v ∧ c.length = k + 1 ∧ ∀ x ∈ c, x < n := by
  intro k
  induction k with
  | zero =>
    intro v hv
    refine ⟨[v], by simp [IsChain], rfl, rfl, ?_⟩
    intro x hx
    rw [List.mem_singleton.1 hx]
    exact ((hinv.zero v).1 (Or.inl (mem_flatten_of_getD sems 0 v hv))).1
  | succ k ih =>
    intro v hv
    obtain ⟨u, hu, he⟩ := hinv.chainStep k v hv
    obtain ⟨c, h1, h2, h3, h4⟩ := ih u hu
    refine ⟨c ++ [v], ?_, by simp, by simp [h3], ?_⟩
    · unfold IsChain at h1 ⊢
      apply List.Chain'.append h1 (by simp)
      intro x hx y hy
      rw [h2] at hx
      simp at hx hy
      subst hx hy
      exact he
    · intro x hx
      rcases List.mem_append.1 hx with h | h
      · exact h4 x h
      · rw [List.mem_singleton.1 h]
        exact ((hinv.zero v).1 (Or.inl (mem_flatten_of_getD sems _ v hv))).1

theorem main_acyclic (n : Nat) (edges : List (Nat × Nat))
    (hr : ∀ e ∈ edges, e.1 < n ∧ e.2 < n) (hac : ¬ Project2.CyclicEdges edges) :
    ∃ sems inDeg, main n edges = .plan sems ∧ LayerInv n edges [] inDeg sems sems.flatten.length ∧
      (∀ v, v ∈ sems.flatten ↔ v < n) ∧ sems.flatten.Nodup := by
  obtain ⟨sems, inDeg, hinv, hm⟩ := main_spec n edges hr
  have hall := placed_of_acyclic n edges hr hac inDeg sems _ hinv
  have hnd : sems.flatten.Nodup := by simpa using hinv.nodup
  have hlt : ∀ v ∈ sems.flatten, v < n := fun v hv => ((hinv.zero v).1 (Or.inl hv)).1
  have hmem : ∀ v, v ∈ sems.flatten ↔ v < n := fun v => ⟨hlt v, hall v⟩
  have hlen : sems.flatten.length = n := by
    rw [(flatten_perm_range n _ hnd hmem).length_eq, List.length_range]
  refine ⟨sems, inDeg, ?_, hinv, hmem, hnd⟩
  rw [hm, if_neg (by simpa using hlen)]

theorem main_cyclic (n : Nat) (edges : List (Nat × Nat))
    (hr : ∀ e ∈ edges, e.1 < n ∧ e.2 < n) (hc : Project2.CyclicEdges edges) :
    main n edges = .cycleDetected := by
  obtain ⟨sems, inDeg, hinv, hm⟩ := main_spec n edges hr
  rw [hm]
  by_cases hlen : sems.flatten.length = n
  · exfalso
    have hnd : sems.flatten.Nodup := by simpa using hinv.nodup
    have hlt : ∀ v ∈ sems.flatten, v < n := fun v hv => ((hinv.zero v).1 (Or.inl hv)).1
    have hall := mem_of_length_eq n _ hnd hlt hlen
    exact Project2.not_cyclic_of_rank edges (semesterOf sems)
      (edges_increase n edges hr inDeg sems _ [] hinv hall) hc
  · rw [if_pos hlen]

/-- C21: for `n` courses and prerequisite edges `pre -> post` between them without a directed
cycle, `main` prints a plan in which every course stands in exactly one semester, once, and
in which for every edge `pre -> post` the semester of `pre` is strictly earlier than the
semester of `post`, so that no semester holds a course together with one of its
prerequisites. -/
theorem plan_layers (n : Nat) (edges : List (Nat × Nat))
    (hr : ∀ e ∈ edges, e.1 < n ∧ e.2 < n) (hac : ¬ Project2.CyclicEdges edges) :
    ∃ semesters, main n edges = .plan semesters ∧
      semesters.flatten.Perm (List.range n) ∧
      (∀ v, v < n → ∃ k, v ∈ semesters.getD k [] ∧ ∀ j, v ∈ semesters.getD j [] → j = k) ∧
      (∀ e ∈ edges, ∀ i j, e.1 ∈ semesters.getD i [] → e.2 ∈ semesters.getD j [] → i < j) ∧
      ∀ e ∈ edges, ∀ k, ¬ (e.1 ∈ semesters.getD k [] ∧ e.2 ∈ semesters.getD k []) := by
  obtain ⟨sems, inDeg, hm, hinv, hmem, hnd⟩ := main_acyclic n edges hr hac
  have hord : ∀ e ∈ edges, ∀ i j, e.1 ∈ sems.getD i [] → e.2 ∈ sems.getD j [] → i < j := by
    intro e he i j hi hj
    obtain ⟨i', hi', hv⟩ := mem_take_flatten sems j e.1 (hinv.before j _ hj e he rfl)
    rw [semester_unique sems hnd e.1 i i' hi hv]
    exact hi'
  refine ⟨sems, hm, flatten_perm_range n _ hnd hmem, ?_, hord, ?_⟩
  · intro v hv
    obtain ⟨_, h2⟩ := semesterOf_spec sems v ((hmem v).2 hv)
    exact ⟨_, h2, fun j hj => semester_unique sems hnd v j _ hj h2⟩
  · rintro e he k ⟨h1, h2⟩
    exact absurd (hord e he k k h1 h2) (lt_irrefl _)

/-- An instance of C21: the `29` courses and the prerequisite edges of the program, for which
`main` prints seven semesters. -/
theorem plan_layers_witness :
    ((∀ e ∈ prereqs, e.1 < courses ∧ e.2 < courses) ∧ ¬ Project2.CyclicEdges prereqs) ∧
    main courses prereqs = .plan [[0, 1, 2, 14, 15, 16, 21], [3, 4, 5, 6, 8, 9],
      [7, 10, 11, 12, 17, 24], [13, 18, 19, 20, 23], [22, 26, 27], [25], [28]] ∧
    ∃ semesters, main courses prereqs = .plan semesters ∧
      semesters.flatten.Perm (List.range courses) := by
  have hr : ∀ e ∈ prereqs, e.1 < courses ∧ e.2 < courses := by decide
  have hac : ¬ Project2.CyclicEdges prereqs :=
    Project2.not_cyclic_of_rank prereqs
      (semesterOf [[0, 1, 2, 14, 15, 16, 21], [3, 4, 5, 6, 8, 9], [7, 10, 11, 12, 17, 24],
        [13, 18, 19, 20, 23], [22, 26, 27], [25], [28]]) (by decide)
  obtain ⟨semesters, h1, h2, -⟩ := plan_layers courses prereqs hr hac
  exact ⟨⟨hr, hac⟩, by decide, semesters, h1, h2⟩

/-- C22: for `n` courses and prerequisite edges between them, the layering loop ends, and it
ends with `placedCount == n` if and only if the edges have no directed cycle; exactly when
they have one, `main` reports `Cycle detected` and returns `1` without printing a plan, and
exactly when they have none it prints a plan. -/
theorem plan_cycle_iff (n : Nat) (edges : List (Nat × Nat))
    (hr : ∀ e ∈ edges, e.1 < n ∧ e.2 < n) :
    (∃ semesters placedCount,
      layerLoop (Prereqs.build n edges).adj (n + 1)
          (initial_available n (Prereqs.build n edges).inDegree)
          (Prereqs.build n edges).inDegree [] 0 = some (semesters, placedCount) ∧
        (placedCount = n ↔ ¬ Project2.CyclicEdges edges)) ∧
    (main n edges = .cycleDetected ↔ Project2.CyclicEdges edges) ∧
    ((∃ semesters, main n edges = .plan semesters) ↔ ¬ Project2.CyclicEdges edges) ∧
    main n edges ≠ .outOfFuel := by
  have hcyc : main n edges = .cycleDetected ↔ Project2.CyclicEdges edges := by
    constructor
    · intro h
      by_contra hac
      obtain ⟨sems, _, hm, -⟩ := main_acyclic n edges hr hac
      rw [hm] at h
      exact PlanResult.noConfusion h
    · exact main_cyclic n edges hr
  have hplan : (∃ semesters, main n edges = .plan semesters) ↔ ¬ Project2.CyclicEdges edges := by
    constructor
    · rintro ⟨sems, h⟩ hc
      rw [main_cyclic n edges hr hc] at h
      exact PlanResult.noConfusion h
    · intro hac
      obtain ⟨sems, _, hm, -⟩ := main_acyclic n edges hr hac
      exact ⟨sems, hm⟩
  refine ⟨?_, hcyc, hplan, ?_⟩
  · obtain ⟨h1, -, h3, -⟩ := prereqs_build_spec n edges hr
    obtain ⟨sems, inDeg, hl, hinv⟩ := layerLoop_spec n edges (Prereqs.build n edges).adj hr h3
      (n + 1) _ _ [] 0 (layerInv_init n edges hr) (by omega)
    refine ⟨sems, _, hl, ?_⟩
    have hm : main n edges
        = if sems.flatten.length ≠ n then .cycleDetected else .plan sems := by
      unfold main
      simp only
      rw [hl]
    constructor
    · intro hlen
      rw [← hplan]
      exact ⟨sems, by rw [hm, if_neg (by simpa using hlen)]⟩
    · intro hac
      by_contra hlen
      have : main n edges = .cycleDetected := by rw [hm, if_pos hlen]
      exact hac (hcyc.1 this)
  · by_cases hc : Project2.CyclicEdges edges
    · rw [main_cyclic n edges hr hc]
      exact fun h => PlanResult.noConfusion h
    · obtain ⟨sems, _, hm, -⟩ := main_acyclic n edges hr hc
      rw [hm]
      exact fun h => PlanResult.noConfusion h

/-- An instance of C22: three courses with the edges `0 -> 1`, `1 -> 2`, `2 -> 1`, on which
the loop places only course `0` and `main` reports the cycle. -/
theorem plan_cycle_iff_witness :
    (∀ e ∈ [(0, 1), (1, 2), (2, 1)], e.1 < 3 ∧ e.2 < 3) ∧
    layerLoop (Prereqs.build 3 [(0, 1), (1, 2), (2, 1)]).adj (3 + 1)
      (initial_available 3 (Prereqs.build 3 [(0, 1), (1, 2), (2, 1)]).inDegree)
      (Prereqs.build 3 [(0, 1), (1, 2), (2, 1)]).inDegree [] 0 = some ([[0]], 1) ∧
    main 3 [(0, 1), (1, 2), (2, 1)] = .cycleDetected ∧
    Project2.CyclicEdges [(0, 1), (1, 2), (2, 1)] :=
  ⟨by decide, by decide, by decide,
    (plan_cycle_iff 3 [(0, 1), (1, 2), (2, 1)] (by decide)).2.1.1 (by decide)⟩

/-- C27: for `n` courses and prerequisite edges between them without a directed cycle, the
semester in which `main` places a course, counted from `1`, is the number of courses on the
longest prerequisite chain that ends at that course: there is a chain of that many courses
ending at it, and none of more. A course without prerequisites stands in semester `1`, every
course of a later semester has a prerequisite in the semester just before, and the number of
semesters is the number of courses of the longest chain. -/
theorem plan_longest_chain (n : Nat) (edges : List (Nat × Nat))
    (hr : ∀ e ∈ edges, e.1 < n ∧ e.2 < n) (hac : ¬ Project2.CyclicEdges edges) :
    ∃ semesters, main n edges = .plan semesters ∧
      (∀ k v, v ∈ semesters.getD k [] →
        (∃ c, IsChain edges c ∧ c.getLast? = some v ∧ c.length = k + 1) ∧
        ∀ c, IsChain edges c → c.getLast? = some v → c.length ≤ k + 1) ∧
      (∀ v, v < n → (∀ e ∈ edges, e.2 ≠ v) → v ∈ semesters.getD 0 []) ∧
      (∀ k v, v ∈ semesters.getD (k + 1) [] → ∃ u ∈ semesters.getD k [], (u, v) ∈ edges) ∧
      (∀ c, IsChain edges c → (∀ x ∈ c, x < n) → c.length ≤ semesters.length) ∧
      ∃ c, IsChain edges c ∧ (∀ x ∈ c, x < n) ∧ c.length = semesters.length := by
  obtain ⟨sems, inDeg, hm, hinv, hmem, hnd⟩ := main_acyclic n edges hr hac
  have hall : ∀ v, v < n → v ∈ sems.flatten := fun v hv => (hmem v).2 hv
  have hinc := edges_increase n edges hr inDeg sems _ [] hinv hall
  have hupper : ∀ c v, IsChain edges c → c.getLast? = some v →
      c.length ≤ semesterOf sems v + 1 := by
    intro c v hc hl
    cases c with
    | nil => simp
    | cons a t =>
      have := chain_length_le edges (semesterOf sems) hinc t a v hc hl
      omega
  refine ⟨sems, hm, ?_, ?_, hinv.chainStep, ?_, ?_⟩
  · intro k v hv
    obtain ⟨c, h1, h2, h3, -⟩ := chain_exists n edges inDeg sems _ [] hinv k v hv
    refine ⟨⟨c, h1, h2, h3⟩, ?_⟩
    intro c' hc' hl'
    have := hupper c' v hc' hl'
    have := semesterOf_le sems v k hv
    omega
  · intro v hv hno
    obtain ⟨_, h2⟩ := semesterOf_spec sems v (hall v hv)
    cases hk : semesterOf sems v with
    | zero => rw [hk] at h2; exact h2
    | succ k =>
      rw [hk] at h2
      obtain ⟨u, _, he⟩ := hinv.chainStep k v h2
      exact absurd rfl (hno _ he)
  · intro c hc hx
    rcases List.eq_nil_or_concat c with e | ⟨t, v, e⟩
    · rw [e]; simp
    · have hl : c.getLast? = some v := by rw [e]; simp
      have hv : v < n := hx v (by rw [e]; simp)
      have h1 := hupper c v hc hl
      have h2 := (semesterOf_spec sems v (hall v hv)).1
      omega
  · cases hs : sems.length with
    | zero => exact ⟨[], by simp [IsChain], by simp, rfl⟩
    | succ k =>
      have hk : k < sems.length := by omega
      have hne : sems.getD k [] ≠ [] := by
        rw [List.getD_eq_getElem _ _ hk]
        exact hinv.nonempty _ (List.getElem_mem _)
      obtain ⟨v, hv⟩ := List.exists_mem_of_ne_nil _ hne
      obtain ⟨c, h1, -, h3, h4⟩ := chain_exists n edges inDeg sems _ [] hinv k v hv
      exact ⟨c, h1, h4, h3⟩

/-- An instance of C27: four courses with the edges `0 -> 1`, `1 -> 2`, `0 -> 2`, `3 -> 2`,
planned in three semesters. -/
theorem plan_longest_chain_witness :
    ((∀ e ∈ [(0, 1), (1, 2), (0, 2), (3, 2)], e.1 < 4 ∧ e.2 < 4) ∧
      ¬ Project2.CyclicEdges [(0, 1), (1, 2), (0, 2), (3, 2)]) ∧
    main 4 [(0, 1), (1, 2), (0, 2), (3, 2)] = .plan [[0, 3], [1], [2]] ∧
    ∃ semesters, main 4 [(0, 1), (1, 2), (0, 2), (3, 2)] = .plan semesters ∧
      ∃ c, IsChain [(0, 1), (1, 2), (0, 2), (3, 2)] c ∧ (∀ x ∈ c, x < 4) ∧
        c.length = semesters.length := by
  have hr : ∀ e ∈ [(0, 1), (1, 2), (0, 2), (3, 2)], e.1 < 4 ∧ e.2 < 4 := by decide
  have hac : ¬ Project2.CyclicEdges [(0, 1), (1, 2), (0, 2), (3, 2)] :=
    Project2.not_cyclic_of_rank _ (fun v => [0, 1, 2, 0].getD v 0) (by decide)
  obtain ⟨semesters, h1, -, -, -, -, h2⟩ := plan_longest_chain 4 _ hr hac
  exact ⟨⟨hr, hac⟩, by decide, semesters, h1, h2⟩

end PlanSemesters

namespace Project3

theorem getD_set_int {α : Type} (l : List α) (k s : Nat) (v d : α) :
    (l.set k v).getD s d = if s = k ∧ k < l.length then v else l.getD s d := by
  rw [List.getD_eq_getElem?_getD, List.getD_eq_getElem?_getD, List.getElem?_set]
  by_cases h : k = s
  · subst h
    by_cases h2 : k < l.length
    · simp [h2]
    · simp [h2]
      rw [List.getElem?_eq_none (by omega)]
      rfl
  · have : ¬ s = k := fun e => h e.symm
    simp [h, this]

theorem pair_le_fst (a b : Int × Nat) (h : pair_le a b = true) : a.1 ≤ b.1 := by
  unfold pair_le at h
  simp only [Bool.or_eq_true, Bool.and_eq_true, decide_eq_true_eq] at h
  omega

theorem pair_le_total (a b : Int × Nat) (h : pair_le a b = false) : b.1 ≤ a.1 := by
  unfold pair_le at h
  simp only [Bool.or_eq_false_iff, Bool.and_eq_false_iff, decide_eq_false_iff_not] at h
  omega

theorem pq_top_none : ∀ (pq : List (Int × Nat)), pq_top pq = none → pq = [] := by
  intro pq
  cases pq with
  | nil => intro _; rfl
  | cons x rest =>
    intro h
    rw [pq_top] at h
    split at h
    · exact Option.noConfusion h
    · split_ifs at h

theorem pq_top_spec : ∀ (pq : List (Int × Nat)) (x : Int × Nat), pq_top pq = some x →
    x ∈ pq ∧ ∀ y ∈ pq, x.1 ≤ y.1 := by
  intro pq
  induction pq with
  | nil => intro x h; exact Option.noConfusion h
  | cons a rest ih =>
    intro x h
    rw [pq_top] at h
    cases hr : pq_top rest with
    | none =>
      rw [hr] at h
      simp only [Option.some.injEq] at h
      subst h
      have := pq_top_none rest hr
      subst this
      simp
    | some y =>
      rw [hr] at h
      obtain ⟨h1, h2⟩ := ih y hr
      simp only at h
      by_cases hle : pair_le a y = true
      · rw [if_pos hle] at h
        simp only [Option.some.injEq] at h
        subst h
        refine ⟨List.mem_cons_self _ _, ?_⟩
        intro z hz
        rcases List.mem_cons.1 hz with e | e
        · rw [e]
        · exact le_trans (pair_le_fst _ _ hle) (h2 z e)
      · rw [if_neg hle] at h
        simp only [Option.some.injEq] at h
        subst h
        refine ⟨List.mem_cons_of_mem _ h1, ?_⟩
        intro z hz
        rcases List.mem_cons.1 hz with e | e
        · rw [e]
          exact pair_le_total _ _ (by simpa using hle)
        · exact h2 z e

theorem walk_lt (n src : Nat) (adj : List (List (Nat × Int))) (hwf : WellFormed n adj)
    (hsrc : src < n) : ∀ v d, Walk adj src v d → v < n ∧ 0 ≤ d := by
  intro v d h
  induction h with
  | nil => exact ⟨hsrc, le_refl _⟩
  | snoc u v w d _ he ih =>
    have := hwf.2 u _ he
    exact ⟨this.1, by have := this.2; simp only at this; omega⟩

theorem relaxEdge_step (n src : Nat) (adj : List (List (Nat × Int))) (hwf : WellFormed n adj)
    (S : List Nat) (u : Nat) (e : Nat × Int) (rest : List (Nat × Int)) (st : DState)
    (hu : u ∈ S) (he : e ∈ adj.getD u []) (hinv : DInv n src adj S u (e :: rest) st) :
    DInv n src adj S u rest (relaxEdge u st e) ∧
      (relaxEdge u st e).pq.length ≤ st.pq.length + 1 := by
  obtain ⟨hvn, hw⟩ := hwf.2 u e he
  obtain ⟨hun, huI⟩ := hinv.slt u hu
  have hwalk : Walk adj src e.1 (st.dist.getD u 0 + e.2) :=
    Walk.snoc u e.1 e.2 _ (hinv.real u hun huI) he
  unfold relaxEdge
  by_cases hf : st.dist.getD u 0 + e.2 < st.dist.getD e.1 0
  · rw [if_pos hf]
    have hvS : e.1 ∉ S := by
      intro h
      have := hinv.exact e.1 h _ hwalk
      omega
    have hvu : e.1 ≠ u := fun h => hvS (h ▸ hu)
    have hu0 := (hinv.bound u hun).1
    have hvsrc : e.1 ≠ src := by
      intro h
      rw [h, hinv.src0] at hf
      omega
    have hvI := (hinv.bound e.1 hvn).2
    have hd : ∀ x, (st.dist.set e.1 (st.dist.getD u 0 + e.2)).getD x 0
        = if x = e.1 then st.dist.getD u 0 + e.2 else st.dist.getD x 0 := by
      intro x
      rw [getD_set_int]
      by_cases hx : x = e.1
      · rw [if_pos ⟨hx, by rw [hinv.dlen]; exact hvn⟩, if_pos hx]
      · rw [if_neg (fun h => hx h.1), if_neg hx]
    have hp : ∀ x, (st.parent.set e.1 (u : Int)).getD x (-1)
        = if x = e.1 then (u : Int) else st.parent.getD x (-1) := by
      intro x
      rw [getD_set_int]
      by_cases hx : x = e.1
      · rw [if_pos ⟨hx, by rw [hinv.plen]; exact hvn⟩, if_pos hx]
      · rw [if_neg (fun h => hx h.1), if_neg hx]
    have hdS : ∀ x ∈ S, (st.dist.set e.1 (st.dist.getD u 0 + e.2)).getD x 0
        = st.dist.getD x 0 := by
      intro x hx
      rw [hd, if_neg (fun h => hvS (by rw [← h]; exact hx))]
    have hdle : ∀ x, (st.dist.set e.1 (st.dist.getD u 0 + e.2)).getD x 0
        ≤ st.dist.getD x 0 := by
      intro x
      rw [hd]
      split_ifs with h
      · rw [h]; omega
      · exact le_refl _
    refine ⟨⟨?_, ?_, ?_, ?_, ?_, hinv.snodup, ?_, ?_, ?_, ?_, ?_, ?_, ?_⟩, ?_⟩
    · simp [hinv.dlen]
    · simp [hinv.plen]
    · simp only
      rw [hd, if_neg (fun h => hvsrc h.symm)]
      exact hinv.src0
    · intro v hv
      simp only
      rw [hd]
      split_ifs
      · omega
      · exact hinv.bound v hv
    · intro v hv hI
      simp only at hI ⊢
      rw [hd] at hI ⊢
      split_ifs at hI ⊢ with h
      · rw [h]; exact hwalk
      · exact hinv.real v hv hI
    · intro v hv
      simp only
      rw [hdS v hv]
      exact hinv.slt v hv
    · intro x hx d hwd
      simp only
      rw [hdS x hx]
      exact hinv.exact x hx d hwd
    · intro x hx e' he'
      simp only
      rw [hdS x hx]
      rcases hinv.relaxed x hx e' he' with ⟨h1, h2⟩ | h
      · rcases List.mem_cons.1 h2 with h3 | h3
        · right
          rw [h3, hd, if_pos rfl, h1]
        · exact Or.inl ⟨h1, h3⟩
      · right
        exact le_trans (hdle _) h
    · intro v hv hI hvS'
      simp only at hI ⊢
      rw [hd v] at hI ⊢
      rw [hd e.1, if_pos rfl]
      by_cases h : v = e.1
      · rw [if_pos h, h]
        exact List.mem_cons_self _ _
      · rw [if_neg h] at hI ⊢
        exact List.mem_cons_of_mem _ (hinv.pqc v hv hI hvS')
    · intro e' he'
      simp only at he'
      rcases List.mem_cons.1 he' with h | h
      · rw [h, hd, if_pos rfl]
        exact ⟨hvn, by simp only; omega⟩
      · exact hinv.pqs e' h
    · simp only
      rw [hp, if_neg (fun h => hvsrc h.symm)]
      exact hinv.psrc
    · intro v hv hvs hI
      simp only at hI ⊢
      by_cases h : v = e.1
      · refine ⟨u, e.2, ?_, hu, ?_, ?_, ?_⟩
        · rw [hp, if_pos h]
        · rw [h]; exact he
        · rw [hdS u hu, hd, if_pos h]
        · intro hvS'
          exact absurd (h ▸ hvS') hvS
      · rw [hd, if_neg h] at hI
        obtain ⟨x, w, h1, h2, h3, h4, h5⟩ := hinv.par v hv hvs hI
        refine ⟨x, w, ?_, h2, h3, ?_, h5⟩
        · rw [hp, if_neg h]; exact h1
        · rw [hdS x h2, hd, if_neg h]; exact h4
    · simp
  · rw [if_neg hf]
    refine ⟨⟨hinv.dlen, hinv.plen, hinv.src0, hinv.bound, hinv.real, hinv.snodup, hinv.slt,
      hinv.exact, ?_, hinv.pqc, hinv.pqs, hinv.psrc, hinv.par⟩, by omega⟩
    intro x hx e' he'
    rcases hinv.relaxed x hx e' he' with ⟨h1, h2⟩ | h
    · rcases List.mem_cons.1 h2 with h3 | h3
      · right
        rw [h3, h1]
        omega
      · exact Or.inl ⟨h1, h3⟩
    · exact Or.inr h

theorem relaxEdge_fold (n src : Nat) (adj : List (List (Nat × Int))) (hwf : WellFormed n adj)
    (S : List Nat) (u : Nat) (hu : u ∈ S) : ∀ (todo : List (Nat × Int)) (st : DState),
    (∀ e ∈ todo, e ∈ adj.getD u []) → DInv n src adj S u todo st →
    DInv n src adj S u [] (todo.foldl (relaxEdge u) st) ∧
      (todo.foldl (relaxEdge u) st).pq.length ≤ st.pq.length + todo.length := by
  intro todo
  induction todo with
  | nil => intro st _ h; exact ⟨h, by simp⟩
  | cons e rest ih =>
    intro st hsub hinv
    obtain ⟨h1, h2⟩ := relaxEdge_step n src adj hwf S u e rest st hu
      (hsub e (List.mem_cons_self _ _)) hinv
    obtain ⟨h3, h4⟩ := ih _ (fun e' he' => hsub e' (List.mem_cons_of_mem _ he')) h1
    rw [List.foldl_cons]
    exact ⟨h3, by simp only [List.length_cons]; omega⟩

theorem relaxEdge_fold_id (u : Nat) : ∀ (todo : List (Nat × Int)) (st : DState),
    (∀ e ∈ todo, st.dist.getD e.1 0 ≤ st.dist.getD u 0 + e.2) →
    todo.foldl (relaxEdge u) st = st := by
  intro todo
  induction todo with
  | nil => intro st _; rfl
  | cons e rest ih =>
    intro st h
    have he := h e (List.mem_cons_self _ _)
    rw [List.foldl_cons]
    have : relaxEdge u st e = st := by
      unfold relaxEdge
      rw [if_neg (by omega)]
    rw [this]
    exact ih st (fun e' he' => h e' (List.mem_cons_of_mem _ he'))

theorem pending_aux (f : Nat → Nat) (S : List Nat) (u : Nat) (hu : u ∉ S) : ∀ (l : List Nat),
    l.Nodup →
    ((l.filter (fun v => decide (v ∉ S ++ [u]))).map f).sum + (if u ∈ l then f u else 0)
      = ((l.filter (fun v => decide (v ∉ S))).map f).sum := by
  intro l
  induction l with
  | nil => intro _; simp
  | cons a rest ih =>
    intro hnd
    obtain ⟨ha, hr⟩ := List.nodup_cons.1 hnd
    have := ih hr
    rw [List.filter_cons, List.filter_cons]
    by_cases hau : a = u
    · subst hau
      have h1 : decide (a ∉ S ++ [a]) = false := by simp
      have h2 : decide (a ∉ S) = true := by simp [hu]
      rw [h1, h2, if_neg ha] at *
      simp only [Bool.false_eq_true, if_false, if_true, List.map_cons, List.sum_cons,
        List.mem_cons, true_or]
      omega
    · have hau' : ¬ u = a := fun h => hau h.symm
      have hm : (u ∈ a :: rest) ↔ u ∈ rest := by simp [hau']
      by_cases haS : a ∈ S
      · have h1 : decide (a ∉ S ++ [u]) = false := by simp [haS]
        have h2 : decide (a ∉ S) = false := by simp [haS]
        rw [h1, h2]
        simp only [Bool.false_eq_true, if_false, hm]
        exact this
      · have h1 : decide (a ∉ S ++ [u]) = true := by simp [haS, hau]
        have h2 : decide (a ∉ S) = true := by simp [haS]
        rw [h1, h2]
        simp only [if_true, List.map_cons, List.sum_cons, hm]
        omega

theorem pending_append (adj : List (List (Nat × Int))) (n : Nat) (S : List Nat) (u : Nat)
    (hu : u ∉ S) (hun : u < n) :
    pending adj n (S ++ [u]) + (adj.getD u []).length = pending adj n S := by
  have := pending_aux (fun v => (adj.getD v []).length) S u hu (List.range n) (List.nodup_range n)
  rw [if_pos (List.mem_range.2 hun)] at this
  exact this

theorem walk_bound (n src : Nat) (adj : List (List (Nat × Int))) (hwf : WellFormed n adj)
    (hsrc : src < n) (S : List Nat) (u : Nat) (st : DState) (hinv : DInv n src adj S u [] st) :
    ∀ v d, Walk adj src v d →
      (∃ x, x < n ∧ x ∉ S ∧ st.dist.getD x 0 ≤ d) ∨ (v ∈ S ∧ st.dist.getD v 0 ≤ d) := by
  intro v d h
  induction h with
  | nil =>
    by_cases hs : src ∈ S
    · exact Or.inr ⟨hs, by rw [hinv.src0]⟩
    · exact Or.inl ⟨src, hsrc, hs, by rw [hinv.src0]⟩
  | snoc a b w d _ he ih =>
    obtain ⟨hb, hw⟩ := hwf.2 a _ he
    simp only at hb hw
    rcases ih with ⟨x, h1, h2, h3⟩ | ⟨h1, h2⟩
    · exact Or.inl ⟨x, h1, h2, by omega⟩
    · have hrel : st.dist.getD b 0 ≤ st.dist.getD a 0 + w := by
        rcases hinv.relaxed a h1 _ he with ⟨_, h⟩ | h
        · simp at h
        · exact h
      by_cases hbS : b ∈ S
      · exact Or.inr ⟨hbS, by omega⟩
      · exact Or.inl ⟨b, hb, hbS, by omega⟩

theorem dinv_erase (n src : Nat) (adj : List (List (Nat × Int))) (S : List Nat) (u : Nat)
    (st : DState) (hinv : DInv n src adj S u [] st) (x : Int × Nat)
    (hx : ∀ v, v ∉ S → (st.dist.getD v 0, v) ≠ x) :
    DInv n src adj S u [] { dist := st.dist, parent := st.parent, pq := st.pq.erase x } := by
  refine ⟨hinv.dlen, hinv.plen, hinv.src0, hinv.bound, hinv.real, hinv.snodup, hinv.slt,
    hinv.exact, hinv.relaxed, ?_, ?_, hinv.psrc, hinv.par⟩
  · intro v hv hI hvS
    exact (List.mem_erase_of_ne (hx v hvS)).2 (hinv.pqc v hv hI hvS)
  · intro e he
    exact hinv.pqs e (List.mem_of_mem_erase he)

theorem dinv_settle (n src : Nat) (adj : List (List (Nat × Int))) (hwf : WellFormed n adj)
    (hsrc : src < n) (S : List Nat) (u₀ : Nat) (st : DState)
    (hinv : DInv n src adj S u₀ [] st) (u : Nat)
    (hmem : (st.dist.getD u 0, u) ∈ st.pq)
    (hmin : ∀ y ∈ st.pq, st.dist.getD u 0 ≤ y.1) (hu : u ∉ S) :
    DInv n src adj (S ++ [u]) u (adj.getD u [])
      { dist := st.dist, parent := st.parent, pq := st.pq.erase (st.dist.getD u 0, u) } := by
  obtain ⟨hun, hdI⟩ := hinv.pqs _ hmem
  simp only at hun hdI
  refine ⟨hinv.dlen, hinv.plen, hinv.src0, hinv.bound, hinv.real, ?_, ?_, ?_, ?_, ?_, ?_,
    hinv.psrc, ?_⟩
  · rw [List.nodup_append]
    refine ⟨hinv.snodup, List.nodup_singleton u, ?_⟩
    intro a ha hb
    rw [List.mem_singleton] at hb
    rw [hb] at ha
    exact hu ha
  · intro v hv
    rcases List.mem_append.1 hv with h | h
    · exact hinv.slt v h
    · rw [List.mem_singleton.1 h]
      exact ⟨hun, hdI⟩
  · intro x hx d hw
    rcases List.mem_append.1 hx with h | h
    · exact hinv.exact x h d hw
    · have hxu := List.mem_singleton.1 h
      rw [hxu] at hw ⊢
      show st.dist.getD u 0 ≤ d
      rcases walk_bound n src adj hwf hsrc S u₀ st hinv u d hw with ⟨y, h1, h2, h3⟩ | ⟨h1, _⟩
      · by_cases hy : st.dist.getD y 0 < INF
        · have := hmin _ (hinv.pqc y h1 hy h2)
          simp only at this
          omega
        · omega
      · exact absurd h1 hu
  · intro x hx e he
    rcases List.mem_append.1 hx with h | h
    · rcases hinv.relaxed x h e he with ⟨_, h'⟩ | h'
      · simp at h'
      · exact Or.inr h'
    · rw [List.mem_singleton] at h
      subst h
      exact Or.inl ⟨rfl, he⟩
  · intro v hv hI hvS
    have hvS' : v ∉ S := fun h => hvS (List.mem_append_left _ h)
    have hvu : v ≠ u := fun h => hvS (by rw [h]; simp)
    refine (List.mem_erase_of_ne ?_).2 (hinv.pqc v hv hI hvS')
    intro h
    exact hvu (Prod.mk.inj h).2
  · intro e he
    exact hinv.pqs e (List.mem_of_mem_erase he)
  · intro v hv hvs hI
    obtain ⟨x, w, h1, h2, h3, h4, h5⟩ := hinv.par v hv hvs hI
    refine ⟨x, w, h1, List.mem_append_left _ h2, h3, h4, ?_⟩
    intro hvS
    rw [List.indexOf_append_of_mem h2]
    rcases List.mem_append.1 hvS with h | h
    · rw [List.indexOf_append_of_mem h]
      exact h5 h
    · rw [List.mem_singleton] at h
      subst h
      rw [List.indexOf_append_of_not_mem hu]
      have := List.indexOf_lt_length.2 h2
      simp
      omega

theorem dijkstraLoop_spec (n src : Nat) (adj : List (List (Nat × Int)))
    (hwf : WellFormed n adj) (hsrc : src < n) :
    ∀ (fuel : Nat) (st : DState) (S : List Nat) (u : Nat), DInv n src adj S u [] st →
      st.pq.length + pending adj n S < fuel →
      ∃ st' S' u', dijkstraLoop adj fuel st = some st' ∧ DInv n src adj S' u' [] st' ∧
        st'.pq = [] := by
  intro fuel
  induction fuel with
  | zero => intro st S u _ h; omega
  | succ fuel ih =>
    intro st S u₀ hinv hf
    rw [dijkstraLoop]
    cases htop : pq_top st.pq with
    | none => exact ⟨st, S, u₀, rfl, hinv, pq_top_none _ htop⟩
    | some x =>
      obtain ⟨d, u⟩ := x
      obtain ⟨hmem, hmin⟩ := pq_top_spec _ _ htop
      have hlen : (st.pq.erase (d, u)).length + 1 = st.pq.length := by
        rw [List.length_erase_of_mem hmem]
        have : 0 < st.pq.length := List.length_pos_of_mem hmem
        omega
      simp only
      by_cases hd : d ≠ st.dist.getD u 0
      · rw [if_pos hd]
        apply ih _ S u₀
        · apply dinv_erase n src adj S u₀ st hinv
          intro v _ h
          obtain ⟨h1, h2⟩ := Prod.mk.inj h
          rw [h2] at h1
          exact hd h1.symm
        · simp only
          omega
      · rw [if_neg hd]
        have hd' : d = st.dist.getD u 0 := by
          by_contra h
          exact hd h
        subst hd'
        by_cases hu : u ∈ S
        · rw [relaxEdge_fold_id]
          · apply ih _ S u₀
            · apply dinv_erase n src adj S u₀ st hinv
              intro v hv h
              exact hv ((Prod.mk.inj h).2 ▸ hu)
            · simp only
              omega
          · intro e he
            rcases hinv.relaxed u hu e he with ⟨_, h⟩ | h
            · simp at h
            · exact h
        · have hs := dinv_settle n src adj hwf hsrc S u₀ st hinv u hmem hmin hu
          obtain ⟨h1, h2⟩ := relaxEdge_fold n src adj hwf (S ++ [u]) u (by simp)
            (adj.getD u []) _ (fun e he => he) hs
          have hp := pending_append adj n S u hu (hinv.pqs _ hmem).1
          apply ih _ (S ++ [u]) u h1
          simp only at h2
          omega

theorem dinv_init (n src : Nat) (adj : List (List (Nat × Int))) (hsrc : src < n) :
    DInv n src adj [] 0 [] (dijkstraInit n src) := by
  have hd : ∀ v, (dijkstraInit n src).dist.getD v 0
      = if v = src then 0 else if v < n then INF else 0 := by
    intro v
    unfold dijkstraInit
    simp only
    rw [getD_set_int]
    by_cases h : v = src
    · rw [if_pos ⟨h, by simpa using hsrc⟩, if_pos h]
    · rw [if_neg (fun hh => h hh.1), if_neg h, List.getD_eq_getElem?_getD,
        List.getElem?_replicate]
      split_ifs <;> rfl
  have hI : (0 : Int) < INF := by decide
  refine ⟨by simp [dijkstraInit], by simp [dijkstraInit], by rw [hd, if_pos rfl], ?_, ?_,
    List.nodup_nil, ?_, ?_, ?_, ?_, ?_, ?_, ?_⟩
  · intro v hv
    rw [hd]
    split_ifs
    · exact ⟨le_refl _, le_of_lt hI⟩
    · exact ⟨le_of_lt hI, le_refl _⟩
  · intro v hv h
    rw [hd] at h ⊢
    split_ifs at h ⊢ with h1
    · rw [h1]; exact Walk.nil
    · exact absurd h (lt_irrefl _)
  · intro v hv; simp at hv
  · intro v hv; simp at hv
  · intro v hv; simp at hv
  · intro v hv h _
    rw [hd] at h ⊢
    split_ifs at h ⊢ with h1
    · rw [h1]; simp [dijkstraInit]
    · exact absurd h (lt_irrefl _)
  · intro e he
    simp only [dijkstraInit, List.mem_singleton] at he
    rw [he]
    exact ⟨hsrc, hI⟩
  · simp [dijkstraInit, List.getD_eq_getElem?_getD, List.getElem?_replicate, hsrc]
  · intro v hv hvs h
    rw [hd, if_neg hvs, if_pos hv] at h
    exact absurd h (lt_irrefl _)

theorem pending_nil (adj : List (List (Nat × Int))) (n : Nat) (h : adj.length = n) :
    pending adj n [] = (adj.map List.length).sum := by
  unfold pending
  simp only [List.not_mem_nil, not_false_eq_true, decide_True, List.filter_true]
  subst h
  congr 1
  apply List.ext_getElem
  · simp
  · intro i h1 h2
    simp only [List.length_map, List.length_range] at h1
    simp [List.getD_eq_getElem?_getD, List.getElem?_eq_getElem h1]

theorem dijkstra_spec (n src : Nat) (adj : List (List (Nat × Int)))
    (hwf : WellFormed n adj) (hsrc : src < n) :
    ∃ st S u, dijkstra n src adj = some (st.dist, st.parent) ∧ DInv n src adj S u [] st ∧
      st.pq = [] := by
  obtain ⟨st, S, u, h1, h2, h3⟩ := dijkstraLoop_spec n src adj hwf hsrc (dijkstraFuel adj)
    (dijkstraInit n src) [] 0 (dinv_init n src adj hsrc) (by
      rw [pending_nil adj n hwf.1]
      simp only [dijkstraInit, dijkstraFuel, List.length_singleton]
      omega)
  exact ⟨st, S, u, by rw [dijkstra, h1]; rfl, h2, h3⟩

theorem isPath_snoc (adj : List (List (Nat × Int))) (x v : Nat) (w : Int)
    (he : (v, w) ∈ adj.getD x []) : ∀ (q : List Nat) (d : Int),
    IsPath adj (q ++ [x]) d → IsPath adj (q ++ [x, v]) (d + w) := by
  intro q
  induction q with
  | nil =>
    intro d h
    simp only [List.nil_append, IsPath] at h ⊢
    exact ⟨w, he, by omega⟩
  | cons a q' ih =>
    intro d h
    cases q' with
    | nil =>
      simp only [List.cons_append, List.nil_append, IsPath] at h ⊢
      obtain ⟨w', h1, h2⟩ := h
      exact ⟨w', h1, w, he, by omega⟩
    | cons b r =>
      simp only [List.cons_append, IsPath] at h ⊢
      obtain ⟨w', h1, h2⟩ := h
      refine ⟨w', h1, ?_⟩
      have := ih (d - w') (by simpa using h2)
      simp only [List.cons_append] at this
      rw [show d + w - w' = d - w' + w by ring]
      exact this

theorem parent_chain (n src : Nat) (adj : List (List (Nat × Int))) (S : List Nat) (u : Nat)
    (st : DState) (hinv : DInv n src adj S u [] st) :
    ∀ (k v : Nat), v ∈ S → S.indexOf v = k → ∀ (fuel : Nat) (acc : List Int), k + 2 ≤ fuel →
      ∃ p : List Nat, printPathLoop st.parent fuel (v : Int) acc
          = some (acc ++ p.map (fun x : Nat => (x : Int))) ∧
        p.head? = some v ∧ p.getLast? = some src ∧ p.length ≤ k + 1 ∧
        IsPath adj p.reverse (st.dist.getD v 0) := by
  intro k
  induction k using Nat.strong_induction_on with
  | _ k ih =>
    intro v hv hk fuel acc hf
    obtain ⟨hvn, hvI⟩ := hinv.slt v hv
    obtain ⟨f, rfl⟩ : ∃ f, fuel = f + 1 := ⟨fuel - 1, by omega⟩
    rw [printPathLoop, if_pos (by omega), Int.toNat_ofNat]
    by_cases hvs : v = src
    · subst hvs
      rw [hinv.psrc]
      obtain ⟨f', rfl⟩ : ∃ f', f = f' + 1 := ⟨f - 1, by omega⟩
      rw [printPathLoop, if_neg (by simp)]
      refine ⟨[v], by simp, rfl, rfl, by simp, ?_⟩
      simp only [List.reverse_singleton, IsPath]
      exact hinv.src0
    · obtain ⟨x, w, h1, h2, h3, h4, h5⟩ := hinv.par v hvn hvs hvI
      have hlt := h5 hv
      rw [hk] at hlt
      obtain ⟨p, e1, e2, e3, e4, e5⟩ := ih _ hlt x h2 rfl f (acc ++ [(v : Int)]) (by omega)
      rw [h1, e1]
      refine ⟨v :: p, by simp, rfl, ?_, by simp only [List.length_cons]; omega, ?_⟩
      · cases p with
        | nil => simp at e2
        | cons a t => rw [List.getLast?_cons_cons]; exact e3
      · cases p with
        | nil => simp at e2
        | cons a t =>
          simp only [List.head?_cons, Option.some.injEq] at e2
          subst e2
          rw [h4]
          simp only [List.reverse_cons, List.append_assoc, List.singleton_append] at e5 ⊢
          exact isPath_snoc adj a v w h3 _ _ e5

theorem final_lower (n src : Nat) (adj : List (List (Nat × Int))) (hwf : WellFormed n adj)
    (hsrc : src < n) (S : List Nat) (u : Nat) (st : DState) (hinv : DInv n src adj S u [] st)
    (hpq : st.pq = []) : ∀ v d, Walk adj src v d → st.dist.getD v 0 ≤ d := by
  intro v d hw
  have hvn := (walk_lt n src adj hwf hsrc v d hw).1
  rcases walk_bound n src adj hwf hsrc S u st hinv v d hw with ⟨x, h1, h2, h3⟩ | ⟨_, h2⟩
  · by_cases hx : st.dist.getD x 0 < INF
    · have := hinv.pqc x h1 hx h2
      rw [hpq] at this
      simp at this
    · have := (hinv.bound v hvn).2
      omega
  · exact h2

theorem final_settled (n src : Nat) (adj : List (List (Nat × Int))) (S : List Nat) (u : Nat)
    (st : DState) (hinv : DInv n src adj S u [] st) (hpq : st.pq = []) :
    ∀ v, v < n → st.dist.getD v 0 < INF → v ∈ S := by
  intro v hv hI
  by_contra hvS
  have := hinv.pqc v hv hI hvS
  rw [hpq] at this
  simp at this

/-- C23: for a graph with `n` nodes whose edges end at nodes of the graph and have weights that
are not negative, and a source `src` in `0..n-1`, `dijkstra` terminates with `dist[src] = 0`;
`dist[v]` is at most the weight of every walk from `src` to `v`; for every `v` that a walk of
weight below `INF` reaches, `dist[v]` is the least weight of a walk from `src` to `v`, the
weight of one of them; and `dist[v] = INF` for every `v` that no walk reaches. -/
theorem dijkstra_shortest (n src : Nat) (adj : List (List (Nat × Int)))
    (hwf : WellFormed n adj) (hsrc : src < n) :
    ∃ dist parent, dijkstra n src adj = some (dist, parent) ∧
      dist.length = n ∧ dist.getD src 0 = 0 ∧
      (∀ v d, Walk adj src v d → dist.getD v 0 ≤ d) ∧
      (∀ v d, Walk adj src v d → d < INF →
        dist.getD v 0 < INF ∧ Walk adj src v (dist.getD v 0)) ∧
      (∀ v, v < n → (∀ d, ¬ Walk adj src v d) → dist.getD v 0 = INF) ∧
      (∀ v, v < n → dist.getD v 0 < INF → Walk adj src v (dist.getD v 0)) := by
  obtain ⟨st, S, u, h1, hinv, hpq⟩ := dijkstra_spec n src adj hwf hsrc
  have hlow := final_lower n src adj hwf hsrc S u st hinv hpq
  refine ⟨st.dist, st.parent, h1, hinv.dlen, hinv.src0, hlow, ?_, ?_, hinv.real⟩
  · intro v d hw hd
    have := hlow v d hw
    have hvn := (walk_lt n src adj hwf hsrc v d hw).1
    exact ⟨by omega, hinv.real v hvn (by omega)⟩
  · intro v hv hno
    by_contra hne
    have hI : st.dist.getD v 0 < INF := by
      have := (hinv.bound v hv).2
      omega
    exact hno _ (hinv.real v hv hI)

/-- An instance of C23: the campus graph of `main`, with `N = 19` buildings and the source
`CS = 2`, and the distance of building `14`. -/
theorem dijkstra_shortest_witness :
    (WellFormed 19 campus_adj ∧ 2 < 19) ∧
    (dijkstra 19 2 campus_adj).map Prod.fst = some [350, 150, 0, 70, 40, 70, 160, 170, 270,
      240, 170, 220, 270, 290, 640, 30, 130, 250, 300] ∧
    ∃ dist parent, dijkstra 19 2 campus_adj = some (dist, parent) ∧
      ∀ v d, Walk campus_adj 2 v d → dist.getD v 0 ≤ d := by
  have hwf : WellFormed 19 campus_adj := by decide
  obtain ⟨dist, parent, h1, -, -, h2, -⟩ := dijkstra_shortest 19 2 campus_adj hwf (by decide)
  exact ⟨⟨hwf, by decide⟩, by decide, dist, parent, h1, h2⟩

/-- C29: after `dijkstra` on a graph with `n` nodes, edges that end at nodes of the graph and
weights that are not negative, `parent[src] = -1`, and every `v` other than `src` with
`dist[v] < INF` has `parent[v] = u` for an edge `(u, v, w)` of the graph with
`dist[v] = dist[u] + w`. For every `v` with `dist[v] < INF`, which are those that a walk of
weight below `INF` reaches, `printPath` terminates: following `parent` from `v` reaches `src`
in fewer than `n` steps, and what is printed is a path from `src` to `v` of total weight
`dist[v]`, which no walk from `src` to `v` undercuts. -/
theorem dijkstra_parents (n src : Nat) (adj : List (List (Nat × Int)))
    (hwf : WellFormed n adj) (hsrc : src < n) :
    ∃ dist parent, dijkstra n src adj = some (dist, parent) ∧
      parent.length = n ∧ parent.getD src (-1) = -1 ∧
      (∀ v, v < n → v ≠ src → dist.getD v 0 < INF →
        ∃ (u : Nat) (w : Int), parent.getD v (-1) = (u : Int) ∧ u < n ∧
          (v, w) ∈ adj.getD u [] ∧ dist.getD v 0 = dist.getD u 0 + w) ∧
      (∀ v d, Walk adj src v d → d < INF → dist.getD v 0 < INF) ∧
      (∀ v, v < n → dist.getD v 0 < INF →
        ∃ path : List Nat, printPath v parent = some (path.map (fun x : Nat => (x : Int))) ∧
          path.head? = some src ∧ path.getLast? = some v ∧ path.length ≤ n ∧
          IsPath adj path (dist.getD v 0) ∧
          ∀ d, Walk adj src v d → dist.getD v 0 ≤ d) := by
  obtain ⟨st, S, u, h1, hinv, hpq⟩ := dijkstra_spec n src adj hwf hsrc
  have hlow := final_lower n src adj hwf hsrc S u st hinv hpq
  refine ⟨st.dist, st.parent, h1, hinv.plen, hinv.psrc, ?_, ?_, ?_⟩
  · intro v hv hvs hI
    obtain ⟨x, w, e1, e2, e3, e4, -⟩ := hinv.par v hv hvs hI
    exact ⟨x, w, e1, (hinv.slt x e2).1, e3, e4⟩
  · intro v d hw hd
    have := hlow v d hw
    omega
  · intro v hv hI
    have hvS := final_settled n src adj S u st hinv hpq v hv hI
    have hSlen : S.length ≤ n := by
      have := (List.subperm_of_subset hinv.snodup
        (fun x hx => List.mem_range.2 (hinv.slt x hx).1)).length_le
      simpa using this
    have hidx := List.indexOf_lt_length.2 hvS
    obtain ⟨p, e1, e2, e3, e4, e5⟩ := parent_chain n src adj S u st hinv _ v hvS rfl
      (st.parent.length + 1) [] (by rw [hinv.plen]; omega)
    refine ⟨p.reverse, ?_, ?_, ?_, ?_, e5, hlow v⟩
    · rw [printPath, e1]
      simp
    · rw [List.head?_reverse]; exact e3
    · rw [List.getLast?_reverse]; exact e2
    · rw [List.length_reverse]; omega

/-- An instance of C29: the campus graph of `main` with the source `CS = 2`, and the path
that is printed for building `14`. -/
theorem dijkstra_parents_witness :
    (WellFormed 19 campus_adj ∧ 2 < 19) ∧
    (dijkstra 19 2 campus_adj).map Prod.snd = some [1, 2, -1, 4, 2, 4, 5, 3, 7, 6, 5, 10, 11,
      12, 13, 2, 15, 16, 12] ∧
    printPath 14 [1, 2, -1, 4, 2, 4, 5, 3, 7, 6, 5, 10, 11, 12, 13, 2, 15, 16, 12]
      = some [2, 4, 5, 10, 11, 12, 13, 14] ∧
    ∃ dist parent, dijkstra 19 2 campus_adj = some (dist, parent) ∧
      parent.getD 2 (-1) = -1 := by
  have hwf : WellFormed 19 campus_adj := by decide
  obtain ⟨dist, parent, h1, -, h2, -⟩ := dijkstra_parents 19 2 campus_adj hwf (by decide)
  exact ⟨⟨hwf, by decide⟩, by decide, by decide, dist, parent, h1, h2⟩

end Project3
